import Mathlib

/-! The program AIBIasDetector, file `src/js/analyze.js`.

A shallow embedding of the three pure functions of `analyze.js`
(`analyzeText`, `extractGeminiAnalysis` and the second, effective `renderResults`)
together with the parts of the JavaScript runtime they rely on
(strings as UTF-16 code units, backtracking regular expressions, `split`,
`replace`, `trim`, `parseInt`, `parseFloat`, `toFixed`, binary64 arithmetic).
-/

namespace AIBias

/-! ## Strings -/

/-- A JavaScript string: a sequence of UTF-16 code units. -/
abbrev JSString := List Nat

/-- The UTF-16 code units of one Unicode scalar value. -/
def utf16Units (c : Nat) : List Nat :=
  if c < 65536 then [c]
  else [55296 + (c - 65536) / 1024, 56320 + (c - 65536) % 1024]

/-- The JavaScript string written by a string literal. -/
def utf16 (s : String) : JSString :=
  s.toList.flatMap (fun c => utf16Units c.toNat)

/-- Regex class `\d`: the ten ASCII digits. -/
def isDigit (c : Nat) : Bool := decide (48 ≤ c) && decide (c ≤ 57)

/-- Regex class `\D`. -/
def isNonDigit (c : Nat) : Bool := !isDigit c

/-- Regex class `\w`: `[A-Za-z0-9_]`. -/
def isWordChar (c : Nat) : Bool :=
  (decide (97 ≤ c) && decide (c ≤ 122)) || (decide (65 ≤ c) && decide (c ≤ 90))
    || isDigit c || decide (c = 95)

/-- Regex class `\W`. -/
def isNonWordChar (c : Nat) : Bool := !isWordChar c

/-- Regex class `\s`, which is also the set `trim` strips: WhiteSpace and LineTerminator
code units (TAB, LF, VT, FF, CR, SP, NBSP, U+1680, U+2000..U+200A, LS, PS, U+202F,
U+205F, U+3000, U+FEFF). -/
def isWhiteSpace (c : Nat) : Bool :=
  (decide (9 ≤ c) && decide (c ≤ 13)) || decide (c = 32) || decide (c = 160)
    || decide (c = 5760) || (decide (8192 ≤ c) && decide (c ≤ 8202))
    || decide (c = 8232) || decide (c = 8233) || decide (c = 8239)
    || decide (c = 8287) || decide (c = 12288) || decide (c = 65279)

/-- Regex class `[\s\S]`: every code unit. -/
def isAny (_ : Nat) : Bool := true

/-- Regex class `[:\-]`. -/
def isColonOrDash (c : Nat) : Bool := decide (c = 58) || decide (c = 45)

/-- Regex `Canonicalize` under the `i` flag without the `u` flag, restricted to what
decides a comparison with an ASCII pattern character: ASCII lower-case letters map to
upper case; a code unit of value 128 or more never canonicalizes to an ASCII one, so
it is left in place. -/
def canonicalize (c : Nat) : Nat :=
  if 97 ≤ c ∧ c ≤ 122 then c - 32 else c

/-- A pattern character under the `i` flag. -/
def isCharCI (p : Nat) (c : Nat) : Bool := decide (canonicalize c = canonicalize p)

/-- A pattern character without flags. -/
def isChar (p : Nat) (c : Nat) : Bool := decide (c = p)

/-! ## Regular expressions -/

/-- The fragment of the regular-expression syntax used by `analyze.js`: single code
unit classes, concatenation, alternation, greedy quantifiers over a class
(`hi = none` is an unbounded quantifier) and capture groups. -/
inductive Regex where
  | eps : Regex
  | cls (p : Nat → Bool) : Regex
  | seq (a b : Regex) : Regex
  | alt (a b : Regex) : Regex
  | rep (lo : Nat) (hi : Option Nat) (p : Nat → Bool) : Regex
  | group (i : Nat) (r : Regex) : Regex

/-- Captures of a match in progress: group number and captured text, latest first. -/
abbrev Captures := List (Nat × JSString)

/-- The result of a matcher: failure, or the input left after the match together with
the captures. -/
abbrev MatchResult := Option (JSString × Captures)

/-- The continuation of a matcher. -/
abbrev Continuation := JSString → Captures → MatchResult

/-- Whether a quantifier with upper bound `hi` may take one more repetition. -/
def canTake : Option Nat → Bool
  | none => true
  | some 0 => false
  | some (_ + 1) => true

/-- The upper bound left after one repetition. -/
def decr : Option Nat → Option Nat
  | none => none
  | some n => some (n - 1)

/-- The greedy `RepeatMatcher` over a class: take one more code unit and go on if that
leads to a match; otherwise, once the lower bound is met, hand over to the
continuation. -/
def repeatMatcher (p : Nat → Bool) (k : JSString → MatchResult) :
    Nat → Option Nat → JSString → MatchResult
  | lo, _, [] => if lo = 0 then k [] else none
  | lo, hi, c :: t =>
    if canTake hi && p c then
      match repeatMatcher p k (lo - 1) (decr hi) t with
      | some r => some r
      | none => if lo = 0 then k (c :: t) else none
    else if lo = 0 then k (c :: t) else none

/-- The backtracking matcher of a pattern at the start of `s`, in continuation-passing
style as in the language specification. -/
def matcher : Regex → JSString → Captures → Continuation → MatchResult
  | .eps, s, caps, k => k s caps
  | .cls p, s, caps, k =>
    match s with
    | [] => none
    | c :: t => if p c then k t caps else none
  | .seq a b, s, caps, k => matcher a s caps (fun s1 caps1 => matcher b s1 caps1 k)
  | .alt a b, s, caps, k =>
    match matcher a s caps k with
    | some r => some r
    | none => matcher b s caps k
  | .rep lo hi p, s, caps, k => repeatMatcher p (fun s1 => k s1 caps) lo hi s
  | .group i r, s, caps, k =>
    matcher r s caps (fun s1 caps1 => k s1 ((i, s.take (s.length - s1.length)) :: caps1))

/-- A match anchored at the start of `s`: group 0 is the whole matched text. -/
def matchAt (r : Regex) (s : JSString) : MatchResult :=
  matcher (.group 0 r) s [] (fun s1 caps => some (s1, caps))

/-- The search of `RegExpBuiltinExec` for a pattern without the `g` and `y` flags: the
first start position, from left to right, at which the pattern matches. -/
def exec (r : Regex) : JSString → Option Captures
  | [] => (matchAt r []).map Prod.snd
  | c :: t =>
    match matchAt r (c :: t) with
    | some res => some res.2
    | none => exec r t

/-- Element `i` of a match array: the text of group `i` (`undefined` is `none`). -/
def capture (caps : Captures) (i : Nat) : Option JSString :=
  (caps.find? (fun e => e.1 == i)).map Prod.snd

/-- A literal word of a pattern under the `i` flag. -/
def literalCI : JSString → Regex
  | [] => .eps
  | c :: t => .seq (.cls (isCharCI c)) (literalCI t)

/-- The method `String.prototype.match` for a pattern without the `g` flag. -/
def jsMatch (s : JSString) (r : Regex) : Option Captures := exec r s

/-! ## Numbers -/

/-- A binary64 value `(-1)^neg * m * 2^e`. The results of the rounding below have
`m < 2^53` and `-1074 ≤ e`; a magnitude of `2^1024` or more is what an overflow rounds
to and stands for `Infinity`. -/
structure Number where
  neg : Bool
  m : Nat
  e : Int
deriving DecidableEq, Repr

/-- Auxiliary recursion of `floorLog2`, on fuel. -/
def log2Aux : Nat → Nat → Nat
  | 0, _ => 0
  | f + 1, n => if n < 2 then 0 else log2Aux f (n / 2) + 1

/-- The position of the leading bit of `n` (0 for `n ≤ 1`). -/
def floorLog2 (n : Nat) : Nat := log2Aux n n

/-- The integer nearest to `n / d`, ties to the even one. -/
def roundHalfEven (n d : Nat) : Nat :=
  let q := n / d
  let r := n % d
  if 2 * r < d then q
  else if d < 2 * r then q + 1
  else if q % 2 = 0 then q else q + 1

/-- The floor of the binary logarithm of `n / d`, for positive `n` and `d`. -/
def floorLog2Ratio (n d : Nat) : Int :=
  let a : Int := (floorLog2 n : Int) - (floorLog2 d : Int)
  if d * 2 ^ a.toNat ≤ n * 2 ^ (-a).toNat then a else a - 1

/-- The binary64 value of the rational `n / d` with sign `neg`: round to nearest, ties
to even, 53 significant bits, least exponent -1074. -/
def roundRatio (neg : Bool) (n d : Nat) : Number :=
  if n = 0 then ⟨neg, 0, 0⟩
  else
    let e : Int := max (floorLog2Ratio n d - 52) (-1074)
    let m := roundHalfEven (n * 2 ^ (-e).toNat) (d * 2 ^ e.toNat)
    if m = 0 then ⟨neg, 0, 0⟩
    else if m = 2 ^ 53 then ⟨neg, 2 ^ 52, e + 1⟩
    else ⟨neg, m, e⟩

namespace Number

/-- The Number value of an integer. -/
def ofInt (i : Int) : Number := roundRatio (decide (i < 0)) i.natAbs 1

/-- The value as a signed multiple of `2^emin`, for `emin ≤ e`. -/
def scaled (x : Number) (emin : Int) : Int :=
  (if x.neg then -1 else 1) * ((x.m * 2 ^ (x.e - emin).toNat : Nat) : Int)

/-- The operator `+` on Numbers. -/
def add (x y : Number) : Number :=
  let emin := min x.e y.e
  let s : Int := x.scaled emin + y.scaled emin
  if s = 0 then ⟨x.neg && y.neg, 0, 0⟩
  else roundRatio (decide (s < 0)) (s.natAbs * 2 ^ emin.toNat) (2 ^ (-emin).toNat)

/-- The operator `*` on Numbers. -/
def mul (x y : Number) : Number :=
  roundRatio (xor x.neg y.neg) (x.m * y.m * 2 ^ (x.e + y.e).toNat) (2 ^ (-(x.e + y.e)).toNat)

/-- The operator `/` on Numbers, for a divisor other than zero. -/
def div (x y : Number) : Number :=
  roundRatio (xor x.neg y.neg) (x.m * 2 ^ (x.e - y.e).toNat) (y.m * 2 ^ (y.e - x.e).toNat)

/-- The function `Math.abs`. -/
def abs (x : Number) : Number := { x with neg := false }

/-- The function `Math.round`: the integer `floor(x + 1/2)`, which is a Number value
exactly. -/
def round (x : Number) : Int :=
  (2 * x.scaled (min x.e 0) + ((2 ^ (-x.e).toNat : Nat) : Int)) / (2 * ((2 ^ (-x.e).toNat : Nat) : Int))

/-- Whether the value stands for an infinity. -/
def isInfinite (x : Number) : Bool := decide (2 ^ 1024 ≤ x.m * 2 ^ x.e.toNat)

/-- The integer nearest to `|x| * 10^2`, the larger one at a tie. -/
def hundredths (x : Number) : Nat :=
  (2 * (x.m * 100 * 2 ^ x.e.toNat) + 2 ^ (-x.e).toNat) / (2 * 2 ^ (-x.e).toNat)

end Number

/-- The decimal digits of a natural number, as code units. -/
def decimalDigits (n : Nat) : JSString := (Nat.toDigits 10 n).map Char.toNat

/-- The integer written by a string of decimal digits. -/
def digitsValue (s : JSString) : Nat := s.foldl (fun acc c => 10 * acc + (c - 48)) 0

/-- The candidates `(s, n)` with `k` digits for the shortest decimal that reads back as
the integer-valued `x` of `d` digits: the multiples of `10^(d-k)` next to it. -/
def shortestCandidates (x : Number) (d k : Nat) : List (Nat × Nat) :=
  let big := x.m * 2 ^ x.e.toNat
  let t := 10 ^ (d - k)
  let lo := big / t
  let c1 : Nat × Nat := (lo, d)
  let c2 : Nat × Nat := if lo + 1 = 10 ^ k then (10 ^ (k - 1), d + 1) else (lo + 1, d)
  [c1, c2].filter (fun c => decide (roundRatio false (c.1 * 10 ^ (c.2 - k)) 1 = x.abs))

/-- The distance between the candidate decimal and the value of `x`. -/
def candidateError (x : Number) (k : Nat) (c : Nat × Nat) : Nat :=
  ((c.1 * 10 ^ (c.2 - k) : Nat) : Int).toNat - x.m * 2 ^ x.e.toNat
    + (x.m * 2 ^ x.e.toNat - c.1 * 10 ^ (c.2 - k))

/-- The search of `Number::toString` for the least number of digits `k` (and the digits
`s` and exponent `n`) such that `s * 10^(n-k)` reads back as `x`; `fuel` bounds the
digit counts tried and all `d` digits are the fallback. -/
def shortestDigits (x : Number) (d : Nat) : Nat → Nat → Nat × Nat × Nat
  | 0, _ => (x.m * 2 ^ x.e.toNat, d, d)
  | fuel + 1, k =>
    match shortestCandidates x d k with
    | [] => shortestDigits x d fuel (k + 1)
    | [c] => (c.1, c.2, k)
    | c1 :: c2 :: _ =>
      if candidateError x k c1 < candidateError x k c2 then (c1.1, c1.2, k)
      else if candidateError x k c2 < candidateError x k c1 then (c2.1, c2.2, k)
      else if c1.1 % 2 = 0 then (c1.1, c1.2, k) else (c2.1, c2.2, k)

/-- The algorithm `Number::toString` in radix 10 for a finite value of `10^21` or
more: exponential form with the shortest digits. -/
def numberToStringLarge (x : Number) : JSString :=
  let d := (decimalDigits (x.m * 2 ^ x.e.toNat)).length
  let r := shortestDigits x d 17 1
  let ds := decimalDigits r.1
  let ex := utf16 ("e+") ++ decimalDigits (r.2.1 - 1)
  if r.2.2 = 1 then ds ++ ex else ds.take 1 ++ utf16 (".") ++ ds.drop 1 ++ ex

/-- The method `Number.prototype.toFixed` with argument 2. -/
def toFixed2 (x : Number) : JSString :=
  let sign : JSString := if x.neg && decide (x.m ≠ 0) then utf16 ("-") else []
  if x.isInfinite then sign ++ utf16 ("Infinity")
  else if 10 ^ 21 * 2 ^ (-x.e).toNat ≤ x.m * 2 ^ x.e.toNat then sign ++ numberToStringLarge x
  else
    let ds := decimalDigits x.hundredths
    let padded := List.replicate (3 - ds.length) 48 ++ ds
    sign ++ padded.take (padded.length - 2) ++ utf16 (".") ++ padded.drop (padded.length - 2)

/-- The function `parseFloat` on a decimal literal: optional minus sign, integer digits,
optionally a point and fraction digits (every string this program passes has that
shape). The mathematical value is rounded to a Number. -/
def parseFloat (s : JSString) : Number :=
  let neg := decide (s.head? = some 45)
  let body := if neg then s.tail else s
  let ip := body.takeWhile isDigit
  let fp := match body.dropWhile isDigit with
    | 46 :: r => r.takeWhile isDigit
    | _ => []
  roundRatio neg (digitsValue (ip ++ fp)) (10 ^ fp.length)

/-- The function `parseInt` with radix 10 on a string that starts with its digits:
`none` is `NaN`, the result when there is no digit. -/
def parseInt (s : JSString) : Option Int :=
  match s.takeWhile isDigit with
  | [] => none
  | ds => some (digitsValue ds : Nat)

/-! ## String methods -/

/-- The method `String.prototype.trim`. -/
def trim (s : JSString) : JSString :=
  ((s.dropWhile isWhiteSpace).reverse.dropWhile isWhiteSpace).reverse

/-- The lower-case mapping of one code unit. The code units whose lower case differs
and has an ASCII letter are spelled out: `A`..`Z`, U+0130 (to `i` and U+0307) and the
Kelvin sign U+212A (to `k`). Every other ASCII code unit is its own lower case. Every
other non-ASCII code unit lower-cases to non-ASCII code units, which `\W+` treats
alike, so it is left in place. -/
def lowerUnit (c : Nat) : List Nat :=
  if 65 ≤ c ∧ c ≤ 90 then [c + 32]
  else if c = 304 then [105, 775]
  else if c = 8490 then [107]
  else [c]

/-- The method `String.prototype.toLowerCase`. -/
def toLowerCase (s : JSString) : JSString := s.flatMap lowerUnit

/-- The method `String.prototype.toUpperCase` on ASCII text (it is applied to a
letter of `high`, `medium` or `low` only). -/
def toUpperCase (s : JSString) : JSString := s.map canonicalize

/-- The number of code units a pattern matches at the start of `s`. -/
def matchLength (r : Regex) (s : JSString) : Option Nat :=
  (matchAt r s).map (fun res => s.length - res.1.length)

/-- The loop of `String.prototype.split` for a pattern without groups that matches no
empty string: `skip` code units of the current separator are still to be passed, `cur`
is the piece collected since the last separator. -/
def splitAux (r : Regex) : JSString → Nat → JSString → List JSString
  | [], _, cur => [cur]
  | _ :: t, skip + 1, cur => splitAux r t skip cur
  | c :: t, 0, cur =>
    match matchLength r (c :: t) with
    | some (n + 1) => cur :: splitAux r t n []
    | _ => splitAux r t 0 (cur ++ [c])

/-- The method `String.prototype.split` with a pattern as separator. -/
def split (s : JSString) (r : Regex) : List JSString := splitAux r s 0 []

/-- The loop of `String.prototype.replace` for a pattern with the `g` flag that matches
no empty string, and a replacement without `$`. -/
def replaceAux (r : Regex) (by_ : JSString) : JSString → Nat → JSString
  | [], _ => []
  | _ :: t, skip + 1 => replaceAux r by_ t skip
  | c :: t, 0 =>
    match matchLength r (c :: t) with
    | some (n + 1) => by_ ++ replaceAux r by_ t n
    | _ => c :: replaceAux r by_ t 0

/-- The method `String.prototype.replace` with a global pattern. -/
def replace (s : JSString) (r : Regex) (by_ : JSString) : JSString := replaceAux r by_ s 0

/-! ## `analyzeText` -/

/-- The constant `positiveWords`. -/
def positiveWords : List JSString :=
  ["good", "great", "excellent", "positive", "fortunate", "correct", "superior", "happy",
    "joy", "love", "success"].map utf16

/-- The constant `negativeWords`. -/
def negativeWords : List JSString :=
  ["bad", "poor", "negative", "unfortunate", "wrong", "inferior", "sad", "anger", "hate",
    "failure"].map utf16

/-- The constant `biasWords`. -/
def biasWords : List JSString :=
  ["always", "never", "everyone", "nobody", "obviously", "clearly", "undoubtedly",
    "certainly", "must", "should"].map utf16

/-- The constant `emotionalWords`. -/
def emotionalWords : List JSString :=
  ["amazing", "horrible", "disaster", "fantastic", "terrible", "shocking", "unbelievable",
    "incredible"].map utf16

/-- The four counters of the loop of `analyzeText`. -/
structure Counts where
  pos : Nat
  neg : Nat
  bias : Nat
  emotional : Nat
deriving DecidableEq, Repr

/-- The body of the `forEach` loop: each lexicon is tested on its own. -/
def countWord (st : Counts) (word : JSString) : Counts :=
  { pos := if positiveWords.contains word then st.pos + 1 else st.pos
    neg := if negativeWords.contains word then st.neg + 1 else st.neg
    bias := if biasWords.contains word then st.bias + 1 else st.bias
    emotional := if emotionalWords.contains word then st.emotional + 1 else st.emotional }

/-- The pattern `/\W+/`. -/
def nonWordRun : Regex := .rep 1 none isNonWordChar

/-- The array `words` of `analyzeText`. -/
def words (text : JSString) : List JSString := split (toLowerCase text) nonWordRun

/-- The counters after the loop over `words`. -/
def counts (text : JSString) : Counts := (words text).foldl countWord ⟨0, 0, 0, 0⟩

/-- The constant `total`: `words.length || 1`. -/
def total (text : JSString) : Nat :=
  if (words text).length = 0 then 1 else (words text).length

/-- The unrounded `polarity` of `analyzeText`. -/
def polarityValue (text : JSString) : Number :=
  Number.div (Number.ofInt ((counts text).pos - (counts text).neg)) (Number.ofInt (total text))

/-- The unrounded `subjectivity` of `analyzeText`. -/
def subjectivityValue (text : JSString) : Number :=
  Number.div (Number.ofInt ((counts text).bias + (counts text).emotional))
    (Number.ofInt (total text))

/-- The level of a score: the two `if`s on `biasScore`, in `analyzeText` and in
`extractGeminiAnalysis` alike. -/
def levelOfScore (biasScore : Int) : JSString :=
  if biasScore > 60 then utf16 ("High")
  else if biasScore > 30 then utf16 ("Medium")
  else utf16 ("Low")

/-- The object returned by `analyzeText`. -/
structure LocalAnalysis where
  polarity : JSString
  subjectivity : JSString
  biasScore : Int
  biasLevel : JSString
  pos : Nat
  neg : Nat
  bias : Nat
  emotional : Nat
deriving DecidableEq, Repr

/-- The constant `biasScore` of `analyzeText`. -/
def localBiasScore (text : JSString) : Int :=
  min 100 (Number.round
    (Number.mul (Number.add (polarityValue text).abs (subjectivityValue text)) (Number.ofInt 100)))

/-- The function `analyzeText`. -/
def analyzeText (text : JSString) : LocalAnalysis :=
  { polarity := toFixed2 (polarityValue text)
    subjectivity := toFixed2 (subjectivityValue text)
    biasScore := localBiasScore text
    biasLevel := levelOfScore (localBiasScore text)
    pos := (counts text).pos
    neg := (counts text).neg
    bias := (counts text).bias
    emotional := (counts text).emotional }

/-! ## `extractGeminiAnalysis` -/

/-- The pattern `/bias score\D{0,10}(\d{1,3})/i`. -/
def scoreRegex : Regex :=
  .seq (literalCI (utf16 ("bias score")))
    (.seq (.rep 0 (some 10) isNonDigit) (.group 1 (.rep 1 (some 3) isDigit)))

/-- The pattern `/polarity\D{0,10}(-?\d+\.\d+)/i`. -/
def polarityRegex : Regex :=
  .seq (literalCI (utf16 ("polarity")))
    (.seq (.rep 0 (some 10) isNonDigit)
      (.group 1 (.seq (.rep 0 (some 1) (isCharCI 45))
        (.seq (.rep 1 none isDigit) (.seq (.cls (isCharCI 46)) (.rep 1 none isDigit))))))

/-- The pattern `/bias level\D{0,10}(high|medium|low)/i`. -/
def levelRegex : Regex :=
  .seq (literalCI (utf16 ("bias level")))
    (.seq (.rep 0 (some 10) isNonDigit)
      (.group 1 (.alt (literalCI (utf16 ("high")))
        (.alt (literalCI (utf16 ("medium"))) (literalCI (utf16 ("low")))))))

/-- The pattern `/(explanation|summary|details)\s*[:\-]?\s*([\s\S]{0,300})/i`. -/
def detailsRegex : Regex :=
  .seq (.group 1 (.alt (literalCI (utf16 ("explanation")))
      (.alt (literalCI (utf16 ("summary"))) (literalCI (utf16 ("details"))))))
    (.seq (.rep 0 none isWhiteSpace)
      (.seq (.rep 0 (some 1) isColonOrDash)
        (.seq (.rep 0 none isWhiteSpace) (.group 2 (.rep 0 (some 300) isAny)))))

/-- The expression `geminiText && geminiText.match(re)`: an empty string is falsy and
gives no match object. -/
def guardedMatch (geminiText : JSString) (r : Regex) : Option Captures :=
  if geminiText = [] then none else jsMatch geminiText r

/-- The constant `scoreMatch`. -/
def scoreMatch (geminiText : JSString) : Option Captures := guardedMatch geminiText scoreRegex

/-- The constant `polarityMatch`. -/
def polarityMatch (geminiText : JSString) : Option Captures :=
  guardedMatch geminiText polarityRegex

/-- The constant `levelMatch`. -/
def levelMatch (geminiText : JSString) : Option Captures := guardedMatch geminiText levelRegex

/-- The constant `detailsMatch`. -/
def detailsMatch (geminiText : JSString) : Option Captures :=
  guardedMatch geminiText detailsRegex

/-- The object returned by `extractGeminiAnalysis`; `none` is `null`. -/
structure ExtractedFields where
  biasScore : Option Int
  polarity : Option JSString
  biasLevel : Option JSString
  details : Option JSString
deriving DecidableEq, Repr

/-- The variable `biasScore` of `extractGeminiAnalysis`: the parsed group 1, kept when
it is a number from 0 to 100. -/
def extractedScore (geminiText : JSString) : Option Int :=
  match scoreMatch geminiText with
  | none => none
  | some m =>
    match (capture m 1).bind parseInt with
    | none => none
    | some score => if score ≥ 0 ∧ score ≤ 100 then some score else none

/-- The variable `polarity` of `extractGeminiAnalysis`. -/
def extractedPolarity (geminiText : JSString) : Option JSString :=
  match polarityMatch geminiText with
  | none => none
  | some m => some (toFixed2 (parseFloat ((capture m 1).getD [])))

/-- The variable `biasLevel` of `extractGeminiAnalysis`: the matched word with its first
letter in upper case and the rest in lower case, else the level of the extracted score. -/
def extractedLevel (geminiText : JSString) : Option JSString :=
  match levelMatch geminiText with
  | some m =>
    some (toUpperCase (((capture m 1).getD []).take 1)
      ++ toLowerCase (((capture m 1).getD []).drop 1))
  | none =>
    match extractedScore geminiText with
    | some biasScore => some (levelOfScore biasScore)
    | none => none

/-- The variable `details` of `extractGeminiAnalysis`. -/
def extractedDetails (geminiText : JSString) : Option JSString :=
  match detailsMatch geminiText with
  | none => none
  | some m => some (trim ((capture m 2).getD []))

/-- The function `extractGeminiAnalysis`. -/
def extractGeminiAnalysis (geminiText : JSString) : ExtractedFields :=
  { biasScore := extractedScore geminiText
    polarity := extractedPolarity geminiText
    biasLevel := extractedLevel geminiText
    details := extractedDetails geminiText }

/-! ## `renderResults` -/

/-- The object `geminiResult` handed to `renderResults`: `{ geminiText }` after a
successful call, `{ error }` after a failed one. -/
structure GeminiResult where
  geminiText : Option JSString
  error : Option JSString
deriving DecidableEq, Repr

/-- Truthiness of a value that is a string or missing: a non-empty string. -/
def truthy : Option JSString → Bool
  | some (_ :: _) => true
  | _ => false

/-- The pattern `/</g`. -/
def ltRegex : Regex := .cls (isChar 60)

/-- The expression `s.replace(/</g, '&lt;')`. -/
def escapeLt (s : JSString) : JSString := replace s ltRegex (utf16 ("&lt;"))

/-- The string of an integer in a template literal. -/
def intToString (i : Int) : JSString :=
  if i < 0 then utf16 ("-") ++ decimalDigits i.natAbs else decimalDigits i.natAbs

/-- What `renderResults` puts into its final template: the escaped source text, the
three headline values, the AI details put before the list of local details (if any),
the contents of the five local list items, and the section made from the Gemini
result, which is a narrative, an error or nothing. -/
structure Report where
  text : JSString
  biasScore : Int
  biasLevel : JSString
  polarity : JSString
  aiDetails : Option JSString
  localLines : List JSString
  narrativeSection : Option JSString
  errorSection : Option JSString
deriving DecidableEq, Repr

/-- The contents of the five list items of `detailsList`. -/
def localDetailLines (analysis : LocalAnalysis) : List JSString :=
  [ utf16 ("Positive words: ") ++ decimalDigits analysis.pos,
    utf16 ("Negative words: ") ++ decimalDigits analysis.neg,
    utf16 ("Bias words: ") ++ decimalDigits analysis.bias,
    utf16 ("Emotional words: ") ++ decimalDigits analysis.emotional,
    utf16 ("Subjectivity: ") ++ analysis.subjectivity ]

/-- The values `renderResults` (its second, effective declaration) has computed when
it reaches its `return`. -/
def renderReport (text : JSString) (analysis : LocalAnalysis)
    (geminiResult : Option GeminiResult) : Report :=
  let base : Report :=
    { text := escapeLt text
      biasScore := analysis.biasScore
      biasLevel := analysis.biasLevel
      polarity := analysis.polarity
      aiDetails := none
      localLines := localDetailLines analysis
      narrativeSection := none
      errorSection := none }
  match geminiResult with
  | none => base
  | some g =>
    if truthy g.geminiText then
      let geminiText := g.geminiText.getD []
      let gemini := extractGeminiAnalysis geminiText
      { base with
        biasScore := match gemini.biasScore with
          | some v => v
          | none => analysis.biasScore
        biasLevel := if truthy gemini.biasLevel then gemini.biasLevel.getD [] else analysis.biasLevel
        polarity := match gemini.polarity with
          | some v => v
          | none => analysis.polarity
        aiDetails := if truthy gemini.details then gemini.details else none
        narrativeSection := some (escapeLt geminiText) }
    else if truthy g.error then { base with errorSection := g.error }
    else base

namespace Report

/-- The line put before the local list for the AI details. -/
def aiLine (details : JSString) : JSString :=
  utf16 ("<div class=\"mb-2\"><strong>AI Details:</strong> ") ++ details ++ utf16 ("</div>")

/-- The detail lines in display order. -/
def detailLines (r : Report) : List JSString :=
  (match r.aiDetails with
    | some d => [aiLine d]
    | none => []) ++ r.localLines

/-- The variable `detailsList`. -/
def detailsList (r : Report) : JSString :=
  (match r.aiDetails with
    | some d => aiLine d
    | none => [])
    ++ utf16 ("<ul>")
    ++ r.localLines.flatMap (fun l => utf16 ("\n            <li>") ++ l ++ utf16 ("</li>"))
    ++ utf16 ("\n        </ul>")

/-- The variable `geminiSection`. -/
def geminiSection (r : Report) : JSString :=
  match r.narrativeSection, r.errorSection with
  | some t, _ => utf16 ("\n            <div class=\"mb-4\">\n                <h5>Gemini 1.5 Flash Analysis:</h5>\n                <div class=\"alert alert-danger\" style=\"white-space: pre-line;\">") ++ t ++ utf16 ("</div>\n            </div>\n            ")
  | none, some e => utf16 ("<div class=\"alert alert-warning\">") ++ e ++ utf16 ("</div>")
  | none, none => []

/-- The final template literal of `renderResults`. -/
def html (r : Report) : JSString :=
  utf16 ("\n        <div class=\"card shadow-lg border-0\">\n            <div class=\"card-header bg-primary text-white\">\n                <h3 class=\"mb-0\">\n                    <i class=\"fas fa-chart-line me-2\"></i>\n                    AI Bias Analysis Results\n                </h3>\n            </div>\n            <div class=\"card-body p-5\">\n                <div class=\"mb-4\">\n                    <h5>Analyzed Text:</h5>\n                    <div class=\"bg-light p-3 rounded\">\n                        <p class=\"mb-0\">")
    ++ r.text
    ++ utf16 ("</p>\n                    </div>\n                </div>\n                <div class=\"row mb-4\">\n                    <div class=\"col-md-4\">\n                        <div class=\"text-center p-4 bg-light rounded\">\n                            <h2 class=\"display-4 fw-bold text-primary\">")
    ++ intToString r.biasScore
    ++ utf16 ("%</h2>\n                            <p class=\"text-muted mb-0\">Overall Bias Score</p>\n                        </div>\n                    </div>\n                    <div class=\"col-md-4\">\n                        <div class=\"text-center p-4 bg-light rounded\">\n                            <h4 class=\"fw-bold text-dark\">")
    ++ r.biasLevel
    ++ utf16 ("</h4>\n                            <p class=\"text-muted mb-0\">Bias Level</p>\n                        </div>\n                    </div>\n                    <div class=\"col-md-4\">\n                        <div class=\"text-center p-4 bg-light rounded\">\n                            <h4 class=\"fw-bold text-dark\">")
    ++ r.polarity
    ++ utf16 ("</h4>\n                            <p class=\"text-muted mb-0\">Polarity</p>\n                        </div>\n                    </div>\n                </div>\n                <div class=\"mb-4\">\n                    <h5>Details:</h5>\n                    ")
    ++ r.detailsList
    ++ utf16 ("\n                </div>\n                ")
    ++ r.geminiSection
    ++ utf16 ("\n                <div class=\"d-grid gap-2 d-md-flex justify-content-md-center\">\n                    <a href=\"analyze.html\" class=\"btn btn-primary btn-lg\">\n                        <i class=\"fas fa-plus me-2\"></i>\n                        Analyze Another Article\n                    </a>\n                    <a href=\"index.html\" class=\"btn btn-outline-secondary btn-lg\">\n                        <i class=\"fas fa-home me-2\"></i>\n                        Back to Home\n                    </a>\n                </div>\n            </div>\n        </div>\n        ")

end Report

/-- The function `renderResults`, as declared last in the file. -/
def renderResults (text : JSString) (analysis : LocalAnalysis)
    (geminiResult : Option GeminiResult) : JSString :=
  (renderReport text analysis geminiResult).html

/-! ## The submit handler -/

/-- The object `geminiResult` the submit handler builds in its `catch` block from the
description `err.message || err` of the failure. -/
def failureResult (description : JSString) : GeminiResult :=
  ⟨none, some (utf16 ("Gemini API error: ") ++ description)⟩


/-! ## Definitions used to state the properties -/

/-- Whether `s` starts with the word `w`, compared as under the `i` flag. -/
def startsWithCI : JSString → JSString → Bool
  | [], _ => true
  | _ :: _, [] => false
  | p :: w, c :: s => isCharCI p c && startsWithCI w s

/-- What a greedy quantifier with lower bound 0 leaves of the input when nothing makes
it give back: the class members at the start, up to the upper bound, are gone. -/
def greedyRest (p : Nat → Bool) : Option Nat → JSString → JSString
  | _, [] => []
  | hi, c :: t => if canTake hi && p c then greedyRest p (decr hi) t else c :: t

/-- An optional class member at the start of `s` is passed over. -/
def skipOptional (p : Nat → Bool) : JSString → JSString
  | [] => []
  | c :: t => if p c then t else c :: t

/-- The text after `\s*[:\-]?\s*`: white space, then a colon or dash if there is one,
then white space again are passed over. -/
def afterSeparator (s : JSString) : JSString :=
  (skipOptional isColonOrDash (s.dropWhile isWhiteSpace)).dropWhile isWhiteSpace

/-- The part of `detailsRegex` after the keyword group. -/
def detailsTail : Regex :=
  .seq (.rep 0 none isWhiteSpace)
    (.seq (.rep 0 (some 1) isColonOrDash)
      (.seq (.rep 0 none isWhiteSpace) (.group 2 (.rep 0 (some 300) isAny))))

/-- The keyword of `detailsRegex` that `s` starts with, as its length. -/
def keywordLength (s : JSString) : Option Nat :=
  if startsWithCI (utf16 ("explanation")) s then some 11
  else if startsWithCI (utf16 ("summary")) s then some 7
  else if startsWithCI (utf16 ("details")) s then some 7
  else none

/-- The three keywords that introduce the details. -/
def detailKeywords : List JSString := ["explanation", "summary", "details"].map utf16

/-- An occurrence of a details keyword in `t`, in any mix of upper and lower case:
`t` is `pre`, then the occurrence `w`, then `post`. -/
def KeywordOccurrence (t pre w post : JSString) : Prop :=
  t = pre ++ w ++ post ∧ ∃ kw ∈ detailKeywords, w.map canonicalize = kw.map canonicalize

/-- The three level words of `levelRegex`. -/
def levelWords : List JSString := ["high", "medium", "low"].map utf16

/-- The replacement of every `<` by `&lt;`, one code unit at a time. -/
def escapeLtSpec (s : JSString) : JSString :=
  s.flatMap (fun c => if c = 60 then utf16 ("&lt;") else [c])

/-- The four lexicons of `analyzeText` together. -/
def lexicon : List JSString := positiveWords ++ negativeWords ++ biasWords ++ emotionalWords

/-- A non-word code unit whose lower case is non-word too: every `\W` code unit but
U+0130 and the Kelvin sign U+212A, whose lower case has the letter `i` or `k`. -/
def isStableNonWord (c : Nat) : Bool := isNonWordChar c && !decide (c = 304) && !decide (c = 8490)

/-- The key word of `polarityRegex`. -/
def polarityWord : JSString := utf16 ("polarity")

/-- The word `w` occurs in `s`, in any mix of upper and lower case. -/
def OccursCI (w s : JSString) : Prop :=
  ∃ a v b, s = a ++ v ++ b ∧ v.map canonicalize = w.map canonicalize

/-- The pattern in group 1 of `polarityRegex`: `-?\d+\.\d+`. -/
def signedDecimal : Regex :=
  .seq (.rep 0 (some 1) (isCharCI 45))
    (.seq (.rep 1 none isDigit) (.seq (.cls (isCharCI 46)) (.rep 1 none isDigit)))

/-- The rational number `(-1)^neg * m * 2^e` a Number stands for. -/
def Number.toRat (x : Number) : ℚ :=
  (if x.neg then -1 else 1) * ((x.m * 2 ^ x.e.toNat : Nat) : ℚ) / ((2 ^ (-x.e).toNat : Nat) : ℚ)

/-- The function `Math.min` on two Numbers; of two zeros it returns the negative one. -/
def mathMin (x y : Number) : Number :=
  if x.scaled (min x.e y.e) < y.scaled (min x.e y.e) then x
  else if y.scaled (min x.e y.e) < x.scaled (min x.e y.e) then y
  else if x.neg then x else y

/-- The score as the specification writes it,
`round(min(100, (|polarity| + subjectivity) * 100))`: the cap is applied before the
rounding, where `analyzeText` rounds first. -/
def capThenRoundScore (text : JSString) : Int :=
  Number.round (mathMin (Number.ofInt 100)
    (Number.mul (Number.add (polarityValue text).abs (subjectivityValue text)) (Number.ofInt 100)))

/-- The exponent `e` that `roundRatio` chooses for `n / d`. -/
def roundExponent (n d : Nat) : Int := max (floorLog2Ratio n d - 52) (-1074)

/-- The significand `m` that `roundRatio` computes for `n / d`, before it is normalised. -/
def roundSignificand (n d : Nat) : Nat :=
  roundHalfEven (n * 2 ^ (-(roundExponent n d)).toNat) (d * 2 ^ (roundExponent n d).toNat)

/-- The sign factor of a Number. -/
def signOf (neg : Bool) : ℚ := if neg then -1 else 1

/-! ## Properties of the runtime model -/

theorem matcher_literalCI (w : JSString) (s : JSString) (caps : Captures) (k : Continuation) :
    matcher (literalCI w) s caps k = if startsWithCI w s then k (s.drop w.length) caps else none := by
  induction w generalizing s with
  | nil => simp [literalCI, matcher, startsWithCI]
  | cons p w ih =>
    cases s with
    | nil => simp [literalCI, matcher, startsWithCI]
    | cons c t =>
      by_cases hc : isCharCI p c = true
      · simp [literalCI, matcher, startsWithCI, hc, ih]
      · simp [literalCI, matcher, startsWithCI, hc]

theorem startsWithCI_length {w s : JSString} (h : startsWithCI w s = true) : w.length ≤ s.length := by
  induction w generalizing s with
  | nil => simp
  | cons p w ih =>
    cases s with
    | nil => simp [startsWithCI] at h
    | cons c t =>
      simp only [startsWithCI, Bool.and_eq_true] at h
      simpa using ih h.2

/-- A successful greedy repetition ends in a successful call of its continuation, on
the input left after some admissible number of class members. -/
theorem repeatMatcher_some {p : Nat → Bool} {k : JSString → MatchResult} {res : JSString × Captures} :
    ∀ (s : JSString) (lo : Nat) (hi : Option Nat), repeatMatcher p k lo hi s = some res →
      ∃ w s1, s = w ++ s1 ∧ (∀ c ∈ w, p c = true) ∧ lo ≤ w.length ∧
        (∀ n, hi = some n → w.length ≤ n) ∧ k s1 = some res := by
  intro s
  induction s with
  | nil =>
    intro lo hi h
    by_cases hlo : lo = 0
    · subst hlo
      exact ⟨[], [], rfl, by simp, by simp, by simp, by simpa [repeatMatcher] using h⟩
    · simp [repeatMatcher, hlo] at h
  | cons c t ih =>
    intro lo hi h
    have stay : (if lo = 0 then k (c :: t) else none) = some res →
        ∃ w s1, c :: t = w ++ s1 ∧ (∀ x ∈ w, p x = true) ∧ lo ≤ w.length ∧
          (∀ n, hi = some n → w.length ≤ n) ∧ k s1 = some res := by
      intro h0
      by_cases hlo : lo = 0
      · subst hlo
        exact ⟨[], c :: t, rfl, by simp, by simp, by simp, by simpa using h0⟩
      · simp [hlo] at h0
    by_cases hc : (canTake hi && p c) = true
    · simp only [repeatMatcher, hc, if_true] at h
      cases hrec : repeatMatcher p k (lo - 1) (decr hi) t with
      | none =>
        rw [hrec] at h
        exact stay h
      | some r =>
        rw [hrec] at h
        simp only [Option.some.injEq] at h
        subst h
        obtain ⟨w, s1, hs, hw, hlo, hhi, hk⟩ := ih _ _ hrec
        simp only [Bool.and_eq_true] at hc
        refine ⟨c :: w, s1, by simp [hs], ?_, ?_, ?_, hk⟩
        · intro x hx
          rcases List.mem_cons.mp hx with rfl | hx
          · exact hc.2
          · exact hw x hx
        · simp only [List.length_cons]; omega
        · intro n hn
          subst hn
          cases n with
          | zero => simp [canTake] at hc
          | succ n =>
            have := hhi n (by simp [decr])
            simp only [List.length_cons]; omega
    · simp only [repeatMatcher, hc] at h
      exact stay (by simpa using h)

theorem repeatMatcher_greedy {p : Nat → Bool} {k : JSString → MatchResult} :
    ∀ (s : JSString) (hi : Option Nat), (k (greedyRest p hi s)).isSome = true →
      repeatMatcher p k 0 hi s = k (greedyRest p hi s) := by
  intro s
  induction s with
  | nil => intro hi _; simp [repeatMatcher, greedyRest]
  | cons c t ih =>
    intro hi hk
    by_cases hc : (canTake hi && p c) = true
    · simp only [greedyRest, hc, if_true] at hk ⊢
      have h1 := ih (decr hi) hk
      simp only [repeatMatcher, hc, if_true, Nat.zero_sub, h1]
      cases hres : k (greedyRest p (decr hi) t) with
      | none => simp [hres] at hk
      | some r => rfl
    · simp [repeatMatcher, greedyRest, hc]

theorem greedyRest_none (p : Nat → Bool) (s : JSString) :
    greedyRest p none s = s.dropWhile p := by
  induction s with
  | nil => rfl
  | cons c t ih =>
    by_cases hc : p c = true
    · simp [greedyRest, canTake, decr, hc, ih]
    · simp [greedyRest, canTake, hc]

theorem greedyRest_any (s : JSString) (n : Nat) :
    greedyRest isAny (some n) s = s.drop n := by
  induction s generalizing n with
  | nil => simp [greedyRest]
  | cons c t ih =>
    cases n with
    | zero => simp [greedyRest, canTake]
    | succ n => simp [greedyRest, canTake, decr, isAny, ih]

theorem exec_some {r : Regex} {s : JSString} {caps : Captures} (h : exec r s = some caps) :
    ∃ pre t rest, s = pre ++ t ∧ matchAt r t = some (rest, caps) ∧
      ∀ pre1 t1, s = pre1 ++ t1 → pre1.length < pre.length → matchAt r t1 = none := by
  induction s with
  | nil =>
    simp only [exec, Option.map_eq_some'] at h
    obtain ⟨⟨rest, c⟩, hm, hc⟩ := h
    simp only at hc
    subst hc
    exact ⟨[], [], rest, rfl, hm, by simp⟩
  | cons c t ih =>
    cases hm : matchAt r (c :: t) with
    | some res =>
      simp only [exec, hm, Option.some.injEq] at h
      subst h
      exact ⟨[], c :: t, res.1, rfl, hm, by simp⟩
    | none =>
      simp only [exec, hm] at h
      obtain ⟨pre, u, rest, hs, hu, hmin⟩ := ih h
      refine ⟨c :: pre, u, rest, by simp [hs], hu, ?_⟩
      intro pre1 t1 h1 hlen
      cases pre1 with
      | nil =>
        simp only [List.nil_append] at h1
        rw [← h1]; exact hm
      | cons x pre1 =>
        simp only [List.cons_append, List.cons.injEq] at h1
        exact hmin pre1 t1 h1.2 (by simpa using hlen)

theorem exec_none {r : Regex} {s : JSString} :
    exec r s = none ↔ ∀ pre t, s = pre ++ t → matchAt r t = none := by
  induction s with
  | nil =>
    constructor
    · intro h pre t hs
      have : pre = [] ∧ t = [] := by simpa using hs.symm
      rw [this.2]
      simpa [exec] using h
    · intro h
      simp [exec, h [] [] rfl]
  | cons c t ih =>
    constructor
    · intro h pre u hs
      cases hm : matchAt r (c :: t) with
      | some res => simp [exec, hm] at h
      | none =>
        simp only [exec, hm] at h
        cases pre with
        | nil => simp only [List.nil_append] at hs; rw [← hs]; exact hm
        | cons x pre =>
          simp only [List.cons_append, List.cons.injEq] at hs
          exact ih.mp h pre u hs.2
    · intro h
      have hm := h [] (c :: t) rfl
      simp only [exec, hm]
      exact ih.mpr (fun pre u hs => h (c :: pre) u (by simp [hs]))

theorem take_length_sub_drop (s : JSString) (n : Nat) :
    s.take (s.length - (s.drop n).length) = s.take n := by
  rw [List.length_drop]
  by_cases h : n ≤ s.length
  · have : s.length - (s.length - n) = n := by omega
    rw [this]
  · have : s.length - (s.length - n) = s.length := by omega
    rw [this, List.take_length, List.take_of_length_le (by omega)]

theorem greedyRest_one (p : Nat → Bool) (s : JSString) :
    greedyRest p (some 1) s = skipOptional p s := by
  cases s with
  | nil => rfl
  | cons c t =>
    by_cases hc : p c = true
    · cases t <;> simp [greedyRest, canTake, decr, hc, skipOptional]
    · simp [greedyRest, canTake, hc, skipOptional]

theorem matcher_detailsTail (s : JSString) (caps : Captures) (k : Continuation)
    (hk : ∀ a b, (k a b).isSome = true) :
    matcher detailsTail s caps k
      = k ((afterSeparator s).drop 300) ((2, (afterSeparator s).take 300) :: caps) := by
  have h4 : ∀ s4, repeatMatcher isAny
      (fun s5 => k s5 ((2, s4.take (s4.length - s5.length)) :: caps)) 0 (some 300) s4
        = k (s4.drop 300) ((2, s4.take 300) :: caps) := by
    intro s4
    rw [repeatMatcher_greedy _ _ (hk _ _), greedyRest_any, take_length_sub_drop]
  have h3 : ∀ s3, repeatMatcher isWhiteSpace
      (fun s4 => k (s4.drop 300) ((2, s4.take 300) :: caps)) 0 none s3
        = k ((s3.dropWhile isWhiteSpace).drop 300)
            ((2, (s3.dropWhile isWhiteSpace).take 300) :: caps) := by
    intro s3
    rw [repeatMatcher_greedy _ _ (hk _ _), greedyRest_none]
  have h2 : ∀ s2, repeatMatcher isColonOrDash
      (fun s3 => k ((s3.dropWhile isWhiteSpace).drop 300)
            ((2, (s3.dropWhile isWhiteSpace).take 300) :: caps)) 0 (some 1) s2
        = k (((skipOptional isColonOrDash s2).dropWhile isWhiteSpace).drop 300)
            ((2, ((skipOptional isColonOrDash s2).dropWhile isWhiteSpace).take 300) :: caps) := by
    intro s2
    rw [repeatMatcher_greedy _ _ (hk _ _), greedyRest_one]
  simp only [detailsTail, matcher, h4, h3, h2]
  rw [repeatMatcher_greedy _ _ (hk _ _), greedyRest_none]
  rfl

theorem matcher_seq (a b : Regex) (s : JSString) (caps : Captures) (k : Continuation) :
    matcher (.seq a b) s caps k = matcher a s caps (fun s1 caps1 => matcher b s1 caps1 k) := by
  rw [matcher]

theorem matcher_group (i : Nat) (r : Regex) (s : JSString) (caps : Captures)
    (k : Continuation) :
    matcher (.group i r) s caps k
      = matcher r s caps (fun s1 caps1 => k s1 ((i, s.take (s.length - s1.length)) :: caps1)) := by
  rw [matcher]

/-- A group of three alternative words in front of a continuation that cannot fail:
the first word that starts the input is taken. -/
theorem matcher_group_words (i : Nat) (a b c : JSString) (s : JSString) (caps : Captures)
    (k : Continuation) (hk : ∀ x y, (k x y).isSome = true) :
    matcher (.group i (.alt (literalCI a) (.alt (literalCI b) (literalCI c)))) s caps k
      = if startsWithCI a s then k (s.drop a.length) ((i, s.take a.length) :: caps)
        else if startsWithCI b s then k (s.drop b.length) ((i, s.take b.length) :: caps)
        else if startsWithCI c s then k (s.drop c.length) ((i, s.take c.length) :: caps)
        else none := by
  simp only [matcher, matcher_literalCI, take_length_sub_drop]
  by_cases h1 : startsWithCI a s = true
  · simp only [h1, if_true]
    cases hres : k (s.drop a.length) ((i, s.take a.length) :: caps) with
    | none => have := hk (s.drop a.length) ((i, s.take a.length) :: caps); simp [hres] at this
    | some r => rfl
  · by_cases h2 : startsWithCI b s = true
    · simp only [h1, h2, if_true]
      cases hres : k (s.drop b.length) ((i, s.take b.length) :: caps) with
      | none => have := hk (s.drop b.length) ((i, s.take b.length) :: caps); simp [hres] at this
      | some r => simp
    · simp [h1, h2]

theorem matchAt_detailsRegex (u : JSString) :
    matchAt detailsRegex u = (keywordLength u).map (fun n =>
      ((afterSeparator (u.drop n)).drop 300,
        [(0, u.take (u.length - ((afterSeparator (u.drop n)).drop 300).length)),
          (2, (afterSeparator (u.drop n)).take 300), (1, u.take n)])) := by
  have hd : detailsRegex = .seq (.group 1 (.alt (literalCI (utf16 ("explanation")))
      (.alt (literalCI (utf16 ("summary"))) (literalCI (utf16 ("details")))))) detailsTail := rfl
  have e1 : (utf16 ("explanation")).length = 11 := by decide
  have e2 : (utf16 ("summary")).length = 7 := by decide
  have e3 : (utf16 ("details")).length = 7 := by decide
  rw [matchAt, matcher_group, hd, matcher_seq, matcher_group_words]
  · simp only [keywordLength, e1, e2, e3]
    split_ifs
    · rw [matcher_detailsTail _ _ _ (by intro a b; rfl)]; rfl
    · rw [matcher_detailsTail _ _ _ (by intro a b; rfl)]; rfl
    · rw [matcher_detailsTail _ _ _ (by intro a b; rfl)]; rfl
    · rfl
  · intro x y
    rw [matcher_detailsTail _ _ _ (by intro a b; rfl)]
    rfl

theorem startsWithCI_iff (kw u : JSString) :
    startsWithCI kw u = true ↔
      ∃ w post, u = w ++ post ∧ w.map canonicalize = kw.map canonicalize := by
  induction kw generalizing u with
  | nil =>
    simp only [startsWithCI, List.map_nil, List.map_eq_nil_iff, true_iff]
    exact ⟨[], u, rfl, rfl⟩
  | cons p kw ih =>
    cases u with
    | nil =>
      simp only [startsWithCI, Bool.false_eq_true, false_iff]
      rintro ⟨w, post, h, hw⟩
      have : w = [] := by
        cases w with
        | nil => rfl
        | cons _ _ => simp at h
      subst this
      simp at hw
    | cons c t =>
      simp only [startsWithCI, Bool.and_eq_true, isCharCI, decide_eq_true_eq, ih]
      constructor
      · rintro ⟨hc, w, post, ht, hw⟩
        exact ⟨c :: w, post, by simp [ht], by simp [hc, hw]⟩
      · rintro ⟨w, post, h, hw⟩
        cases w with
        | nil => simp at hw
        | cons x w =>
          simp only [List.cons_append, List.cons.injEq] at h
          simp only [List.map_cons, List.cons.injEq] at hw
          exact ⟨by rw [h.1]; exact hw.1, w, post, h.2, hw.2⟩

theorem startsWithCI_take {kw u : JSString} (h : startsWithCI kw u = true) :
    (u.take kw.length).map canonicalize = kw.map canonicalize := by
  obtain ⟨w, post, hu, hw⟩ := (startsWithCI_iff kw u).mp h
  have hl : w.length = kw.length := by simpa using congrArg List.length hw
  subst hu
  rw [← hl, List.take_left']
  · exact hw
  · rfl

theorem keywordLength_some {u : JSString} {n : Nat} (h : keywordLength u = some n) :
    ∃ kw ∈ detailKeywords, startsWithCI kw u = true ∧ n = kw.length := by
  have e1 : (utf16 ("explanation")).length = 11 := by decide
  have e2 : (utf16 ("summary")).length = 7 := by decide
  have e3 : (utf16 ("details")).length = 7 := by decide
  unfold keywordLength at h
  split_ifs at h with h1 h2 h3
  · exact ⟨_, by simp [detailKeywords], h1, by simpa [e1] using h.symm⟩
  · exact ⟨_, by simp [detailKeywords], h2, by simpa [e2] using h.symm⟩
  · exact ⟨_, by simp [detailKeywords], h3, by simpa [e3] using h.symm⟩

theorem keywordLength_none {u : JSString} (h : keywordLength u = none) :
    ∀ kw ∈ detailKeywords, startsWithCI kw u = false := by
  unfold keywordLength at h
  split_ifs at h with h1 h2 h3
  intro kw hkw
  simp only [detailKeywords, List.map_cons, List.map_nil, List.mem_cons, List.mem_singleton,
    List.not_mem_nil, or_false] at hkw
  rcases hkw with rfl | rfl | rfl
  · simpa using h1
  · simpa using h2
  · simpa using h3

theorem keywordLength_of_start {u kw : JSString} (hkw : kw ∈ detailKeywords)
    (h : startsWithCI kw u = true) : keywordLength u ≠ none := by
  intro hn
  have := keywordLength_none hn kw hkw
  rw [h] at this
  exact Bool.noConfusion this

theorem detailsMatch_eq (t : JSString) : detailsMatch t = exec detailsRegex t := by
  unfold detailsMatch guardedMatch jsMatch
  split_ifs with h
  · subst h
    have : keywordLength [] = none := by decide
    simp [exec, matchAt_detailsRegex, this]
  · rfl

theorem trim_length_le (s : JSString) : (trim s).length ≤ s.length := by
  have h1 : trim s = (s.dropWhile isWhiteSpace).rdropWhile isWhiteSpace := rfl
  rw [h1]
  exact le_trans ( List.rdropWhile_prefix isWhiteSpace _).length_le
    (List.dropWhile_suffix isWhiteSpace).length_le

theorem trim_head (s : JSString) (c : Nat) (h : (trim s).head? = some c) :
    isWhiteSpace c = false := by
  have h1 : trim s = (s.dropWhile isWhiteSpace).rdropWhile isWhiteSpace := rfl
  rw [h1] at h
  obtain ⟨r, hr⟩ := List.rdropWhile_prefix isWhiteSpace (s.dropWhile isWhiteSpace)
  have h2 : (s.dropWhile isWhiteSpace).head? = some c := by
    rw [← hr]
    cases hl : List.rdropWhile isWhiteSpace (List.dropWhile isWhiteSpace s) with
    | nil => rw [hl] at h; simp at h
    | cons x l => rw [hl] at h; simpa using h
  have h3 := List.head?_dropWhile_not isWhiteSpace s
  rw [h2] at h3
  simpa using h3

theorem trim_getLast (s : JSString) (c : Nat) (h : (trim s).getLast? = some c) :
    isWhiteSpace c = false := by
  have h1 : trim s = (s.dropWhile isWhiteSpace).rdropWhile isWhiteSpace := rfl
  rw [h1] at h
  have hne : (s.dropWhile isWhiteSpace).rdropWhile isWhiteSpace ≠ [] := by
    intro h0; rw [h0] at h; simp at h
  have h2 := List.rdropWhile_last_not (p := isWhiteSpace) (l := s.dropWhile isWhiteSpace) hne
  rw [List.getLast?_eq_getLast _ hne] at h
  simp only [Option.some.injEq] at h
  rw [h] at h2
  simpa using h2

theorem occurrence_of_start {t pre u kw : JSString} (ht : t = pre ++ u)
    (hkw : kw ∈ detailKeywords) (h : startsWithCI kw u = true) :
    KeywordOccurrence t pre (u.take kw.length) (u.drop kw.length) := by
  refine ⟨?_, kw, hkw, startsWithCI_take h⟩
  rw [List.append_assoc, List.take_append_drop]
  exact ht

theorem start_of_occurrence {t pre w post : JSString} (h : KeywordOccurrence t pre w post) :
    keywordLength (w ++ post) ≠ none := by
  obtain ⟨_, kw, hkw, hw⟩ := h
  exact keywordLength_of_start hkw ((startsWithCI_iff kw (w ++ post)).mpr ⟨w, post, rfl, hw⟩)

theorem extractedDetails_none_iff (t : JSString) :
    extractedDetails t = none ↔ ¬ ∃ pre w post, KeywordOccurrence t pre w post := by
  have hd : extractedDetails t = none ↔ exec detailsRegex t = none := by
    unfold extractedDetails
    rw [detailsMatch_eq]
    cases exec detailsRegex t <;> simp
  rw [hd, exec_none]
  constructor
  · rintro h ⟨pre, w, post, hocc⟩
    have hm := h pre (w ++ post) (by rw [hocc.1, List.append_assoc])
    rw [matchAt_detailsRegex] at hm
    apply start_of_occurrence hocc
    cases hk : keywordLength (w ++ post) with
    | none => rfl
    | some n => rw [hk] at hm; simp at hm
  · intro h pre u ht
    rw [matchAt_detailsRegex]
    cases hk : keywordLength u with
    | none => rfl
    | some n =>
      exfalso
      obtain ⟨kw, hkw, hp, _⟩ := keywordLength_some hk
      exact h ⟨pre, _, _, occurrence_of_start ht hkw hp⟩

theorem extractedDetails_some {t d : JSString} (h : extractedDetails t = some d) :
    ∃ pre w post, KeywordOccurrence t pre w post ∧
      (∀ pre1 w1 post1, KeywordOccurrence t pre1 w1 post1 → pre.length ≤ pre1.length) ∧
      d = trim ((afterSeparator post).take 300) := by
  unfold extractedDetails at h
  rw [detailsMatch_eq] at h
  cases he : exec detailsRegex t with
  | none => rw [he] at h; simp at h
  | some m =>
    rw [he] at h
    simp only [Option.some.injEq] at h
    obtain ⟨pre, u, rest, ht, hm, hmin⟩ := exec_some he
    rw [matchAt_detailsRegex] at hm
    cases hk : keywordLength u with
    | none => rw [hk] at hm; simp at hm
    | some n =>
      rw [hk] at hm
      simp only [Option.map_some', Option.some.injEq, Prod.mk.injEq] at hm
      obtain ⟨kw, hkw, hp, hn⟩ := keywordLength_some hk
      subst hn
      refine ⟨pre, u.take kw.length, u.drop kw.length, occurrence_of_start ht hkw hp, ?_, ?_⟩
      · intro pre1 w1 post1 hocc
        by_contra hlt
        have h0 := hmin pre1 (w1 ++ post1) (by rw [hocc.1, List.append_assoc]) (by omega)
        rw [matchAt_detailsRegex] at h0
        apply start_of_occurrence hocc
        cases hk1 : keywordLength (w1 ++ post1) with
        | none => rfl
        | some n => rw [hk1] at h0; simp at h0
      · rw [← h, ← hm.2]
        rfl

theorem matcher_rep (lo : Nat) (hi : Option Nat) (p : Nat → Bool) (s : JSString)
    (caps : Captures) (k : Continuation) :
    matcher (.rep lo hi p) s caps k = repeatMatcher p (fun s1 => k s1 caps) lo hi s := by
  rw [matcher]

/-- The shape shared by the score, polarity and level patterns: a key phrase, up to ten
non-digits, then group 1. -/
theorem matchAt_keyed (w : JSString) (x : Regex) (u : JSString) :
    matchAt (.seq (literalCI w) (.seq (.rep 0 (some 10) isNonDigit) (.group 1 x))) u
      = if startsWithCI w u then
          repeatMatcher isNonDigit (fun s1 => matcher (.group 1 x) s1 [] (fun s2 c2 =>
            some (s2, (0, u.take (u.length - s2.length)) :: c2))) 0 (some 10) (u.drop w.length)
        else none := by
  rw [matchAt, matcher_group, matcher_seq, matcher_literalCI]
  split_ifs
  · rw [matcher_seq, matcher_rep]
  · rfl

theorem greedyRest_zero (p : Nat → Bool) (s : JSString) : greedyRest p (some 0) s = s := by
  cases s <;> simp [greedyRest, canTake]

/-- A greedy quantifier with lower bound 1 on an input that starts with a class member,
in front of a continuation that accepts what the greedy run leaves. -/
theorem repeatMatcher_one_greedy {p : Nat → Bool} {k : JSString → MatchResult} (c : Nat)
    (t : JSString) (hi : Option Nat) (hc : (canTake hi && p c) = true)
    (hk : (k (greedyRest p (decr hi) t)).isSome = true) :
    repeatMatcher p k 1 hi (c :: t) = k (greedyRest p (decr hi) t) := by
  have h1 := repeatMatcher_greedy (p := p) (k := k) t (decr hi) hk
  simp only [repeatMatcher, hc, if_true, Nat.sub_self, h1]
  cases hres : k (greedyRest p (decr hi) t) with
  | none => simp [hres] at hk
  | some r => rfl

theorem scoreRegex_eq : scoreRegex = .seq (literalCI (utf16 ("bias score")))
    (.seq (.rep 0 (some 10) isNonDigit) (.group 1 (.rep 1 (some 3) isDigit))) := rfl

/-- The score pattern on `bias score of ` followed by three digits: group 1 is the
three digits. -/
theorem scoreMatch_three_digits (a b c : Nat) (rest : JSString)
    (ha : isDigit a = true) (hb : isDigit b = true) (hc : isDigit c = true) :
    (scoreMatch (utf16 ("bias score of ") ++ a :: b :: c :: rest)).bind (fun m => capture m 1)
      = some [a, b, c] := by
  have e : utf16 ("bias score of ")
      = [98, 105, 97, 115, 32, 115, 99, 111, 114, 101, 32, 111, 102, 32] := by decide
  have e2 : utf16 ("bias score") = [98, 105, 97, 115, 32, 115, 99, 111, 114, 101] := by decide
  have hp : startsWithCI (utf16 ("bias score"))
      (utf16 ("bias score of ") ++ a :: b :: c :: rest) = true := by
    rw [e, e2]
    simp [startsWithCI, isCharCI]
  have hn1 : isNonDigit 32 = true := by decide
  have hn2 : isNonDigit 111 = true := by decide
  have hn3 : isNonDigit 102 = true := by decide
  have hna : isNonDigit a = false := by simp [isNonDigit, ha]
  have hg : greedyRest isNonDigit (some 10)
      ((utf16 ("bias score of ") ++ a :: b :: c :: rest).drop (utf16 ("bias score")).length)
        = a :: b :: c :: rest := by
    rw [e, e2]
    simp [greedyRest, canTake, decr, hn1, hn2, hn3, hna]
  have hd : greedyRest isDigit (decr (some 3)) (b :: c :: rest) = rest := by
    simp [greedyRest, canTake, decr, hb, hc, greedyRest_zero]
  have hm : matchAt scoreRegex (utf16 ("bias score of ") ++ a :: b :: c :: rest)
      = some (rest, [(0, (utf16 ("bias score of ") ++ a :: b :: c :: rest).take
          ((utf16 ("bias score of ") ++ a :: b :: c :: rest).length - rest.length)),
          (1, [a, b, c])]) := by
    rw [scoreRegex_eq, matchAt_keyed, hp, if_pos rfl, repeatMatcher_greedy, hg, matcher_group,
      matcher_rep, repeatMatcher_one_greedy a _ _ (by simp [canTake, ha]), hd]
    · have h3 : rest.length + 1 + 1 + 1 - rest.length = 3 := by omega
      simp [h3]
    · rw [hd]; rfl
    · rw [hg, matcher_group, matcher_rep,
        repeatMatcher_one_greedy a _ _ (by simp [canTake, ha]), hd]
      · rfl
      · rw [hd]; rfl
  have hne : utf16 ("bias score of ") ++ a :: b :: c :: rest ≠ [] := by simp
  have hex : exec scoreRegex (utf16 ("bias score of ") ++ a :: b :: c :: rest)
      = some [(0, (utf16 ("bias score of ") ++ a :: b :: c :: rest).take
          ((utf16 ("bias score of ") ++ a :: b :: c :: rest).length - rest.length)),
          (1, [a, b, c])] := by
    cases hl : utf16 ("bias score of ") ++ a :: b :: c :: rest with
    | nil => exact absurd hl hne
    | cons x l =>
      rw [hl] at hm
      simp only [exec, hm]
  simp only [scoreMatch, guardedMatch, jsMatch, if_neg hne, hex]
  rfl

theorem decimalDigits_three :
    ∀ n : Fin 1000, 100 ≤ n.val →
      decimalDigits n.val = [48 + n.val / 100, 48 + n.val / 10 % 10, 48 + n.val % 10] := by
  decide!

theorem levelRegex_eq : levelRegex = .seq (literalCI (utf16 ("bias level")))
    (.seq (.rep 0 (some 10) isNonDigit)
      (.group 1 (.alt (literalCI (utf16 ("high")))
        (.alt (literalCI (utf16 ("medium"))) (literalCI (utf16 ("low"))))))) := rfl

theorem guardedMatch_some {t : JSString} {r : Regex} {m : Captures}
    (h : guardedMatch t r = some m) : exec r t = some m := by
  unfold guardedMatch jsMatch at h
  split_ifs at h
  exact h

/-- Group 1 of a match of the level pattern is one of the three level words, in some
mix of cases. -/
theorem levelMatch_capture {t : JSString} {m : Captures} (h : levelMatch t = some m) :
    ∃ kw ∈ levelWords, ∃ c, capture m 1 = some c ∧ c.map canonicalize = kw.map canonicalize := by
  obtain ⟨pre, u, rest, _, hm, _⟩ := exec_some (guardedMatch_some h)
  rw [levelRegex_eq, matchAt_keyed] at hm
  split_ifs at hm with hp
  obtain ⟨w, s1, _, _, _, _, hk⟩ := repeatMatcher_some _ _ _ hm
  rw [matcher_group_words _ _ _ _ _ _ _ (by intro x y; rfl)] at hk
  split_ifs at hk with h1 h2 h3
  · simp only [Option.some.injEq, Prod.mk.injEq] at hk
    refine ⟨_, by simp [levelWords], s1.take (utf16 ("high")).length, ?_, startsWithCI_take h1⟩
    rw [← hk.2]; rfl
  · simp only [Option.some.injEq, Prod.mk.injEq] at hk
    refine ⟨_, by simp [levelWords], s1.take (utf16 ("medium")).length, ?_, startsWithCI_take h2⟩
    rw [← hk.2]; rfl
  · simp only [Option.some.injEq, Prod.mk.injEq] at hk
    refine ⟨_, by simp [levelWords], s1.take (utf16 ("low")).length, ?_, startsWithCI_take h3⟩
    rw [← hk.2]; rfl

theorem lowerUnit_of_canonicalize {c p : Nat} (hp : 97 ≤ p ∧ p ≤ 122)
    (h : canonicalize c = canonicalize p) : lowerUnit c = [p] := by
  unfold canonicalize at h
  unfold lowerUnit
  split_ifs at h ⊢ <;> first | omega | (simp; omega)

theorem toLowerCase_of_canonicalize {c kw : JSString} (hkw : ∀ p ∈ kw, 97 ≤ p ∧ p ≤ 122)
    (h : c.map canonicalize = kw.map canonicalize) : toLowerCase c = kw := by
  induction c generalizing kw with
  | nil =>
    cases kw with
    | nil => rfl
    | cons _ _ => simp at h
  | cons x c ih =>
    cases kw with
    | nil => simp at h
    | cons p kw =>
      simp only [List.map_cons, List.cons.injEq] at h
      have h1 := lowerUnit_of_canonicalize (hkw p (by simp)) h.1
      have h2 := ih (fun q hq => hkw q (by simp [hq])) h.2
      unfold toLowerCase at h2 ⊢
      simp [List.flatMap_cons, h1, h2]

/-- The word a level match is normalised to. -/
theorem titleCase_of_canonicalize {c kw : JSString} (hkw : ∀ p ∈ kw, 97 ≤ p ∧ p ≤ 122)
    (h : c.map canonicalize = kw.map canonicalize) :
    toUpperCase (c.take 1) ++ toLowerCase (c.drop 1)
      = (kw.map canonicalize).take 1 ++ kw.drop 1 := by
  have h1 : toUpperCase (c.take 1) = (kw.map canonicalize).take 1 := by
    unfold toUpperCase
    rw [← h, List.map_take]
  have h2 : toLowerCase (c.drop 1) = kw.drop 1 := by
    apply toLowerCase_of_canonicalize
    · intro p hp
      exact hkw p (List.mem_of_mem_drop hp)
    · rw [List.map_drop, List.map_drop, h]
  rw [h1, h2]

/-- An explicit level is always normalised to one of `High`, `Medium`, `Low`. -/
theorem extractedLevel_of_match {t : JSString} {m : Captures} (h : levelMatch t = some m) :
    extractedLevel t = some (utf16 ("High")) ∨ extractedLevel t = some (utf16 ("Medium"))
      ∨ extractedLevel t = some (utf16 ("Low")) := by
  obtain ⟨kw, hkw, c, hc, hcan⟩ := levelMatch_capture h
  have hl : extractedLevel t = some (toUpperCase (c.take 1) ++ toLowerCase (c.drop 1)) := by
    unfold extractedLevel
    rw [h]
    simp only [hc, Option.getD_some]
  simp only [levelWords, List.map_cons, List.map_nil, List.mem_cons, List.mem_singleton,
    List.not_mem_nil, or_false] at hkw
  rcases hkw with rfl | rfl | rfl
  · left
    rw [hl, titleCase_of_canonicalize (by decide) hcan]
    decide
  · right; left
    rw [hl, titleCase_of_canonicalize (by decide) hcan]
    decide
  · right; right
    rw [hl, titleCase_of_canonicalize (by decide) hcan]
    decide

theorem levelOfScore_cases (s : Int) :
    levelOfScore s = utf16 ("High") ∨ levelOfScore s = utf16 ("Medium")
      ∨ levelOfScore s = utf16 ("Low") := by
  unfold levelOfScore
  split_ifs <;> simp

/-- The level `extractGeminiAnalysis` sets is never the empty string. -/
theorem extractedLevel_truthy (t : JSString) :
    truthy (extractedLevel t) = (extractedLevel t).isSome := by
  have key : ∀ l, (l = utf16 ("High") ∨ l = utf16 ("Medium") ∨ l = utf16 ("Low")) →
      truthy (some l) = true := by
    intro l hl
    rcases hl with rfl | rfl | rfl <;> decide
  cases hm : levelMatch t with
  | some m =>
    rcases extractedLevel_of_match hm with h | h | h <;> rw [h] <;> decide
  | none =>
    unfold extractedLevel
    rw [hm]
    cases extractedScore t with
    | none => rfl
    | some s => exact key _ (levelOfScore_cases s)

theorem matchLength_ltRegex (c : Nat) (t : JSString) :
    matchLength ltRegex (c :: t) = if c = 60 then some 1 else none := by
  unfold matchLength matchAt ltRegex
  rw [matcher_group, matcher]
  by_cases h : c = 60
  · simp [isChar, h]
  · simp [isChar, h]

theorem escapeLt_eq (s : JSString) : escapeLt s = escapeLtSpec s := by
  unfold escapeLt replace escapeLtSpec
  induction s with
  | nil => rfl
  | cons c t ih =>
    rw [replaceAux, matchLength_ltRegex]
    by_cases h : c = 60
    · simp only [h, if_true, List.flatMap_cons]
      rw [ih]
    · simp only [h, if_false, List.flatMap_cons]
      rw [ih]
      rfl

theorem roundRatio_neg (neg : Bool) (n d : Nat) : (roundRatio neg n d).neg = neg := by
  unfold roundRatio
  simp only
  split_ifs <;> rfl

theorem Number.scaled_nonneg {x : Number} (h : x.neg = false) (emin : Int) :
    0 ≤ x.scaled emin := by
  unfold Number.scaled
  rw [h]
  simp

theorem Number.round_nonneg {x : Number} (h : x.neg = false) : 0 ≤ x.round := by
  unfold Number.round
  apply Int.ediv_nonneg
  · have := Number.scaled_nonneg h (min x.e 0)
    positivity
  · positivity

theorem Number.add_neg {x y : Number} (hx : x.neg = false) (hy : y.neg = false) :
    (x.add y).neg = false := by
  unfold Number.add
  have h1 := Number.scaled_nonneg hx (min x.e y.e)
  have h2 := Number.scaled_nonneg hy (min x.e y.e)
  simp only
  split_ifs
  · simp [hx]
  · rw [roundRatio_neg]
    simp only [decide_eq_false_iff_not, not_lt]
    omega

theorem localBiasScore_range (text : JSString) :
    0 ≤ localBiasScore text ∧ localBiasScore text ≤ 100 := by
  unfold localBiasScore
  refine ⟨le_min (by decide) (Number.round_nonneg ?_), min_le_left _ _⟩
  unfold Number.mul
  rw [roundRatio_neg]
  have h1 : (Number.add (polarityValue text).abs (subjectivityValue text)).neg = false := by
    apply Number.add_neg
    · rfl
    · unfold subjectivityValue Number.div Number.ofInt
      rw [roundRatio_neg, roundRatio_neg, roundRatio_neg]
      simp
      omega
  have h2 : (Number.ofInt 100).neg = false := by
    unfold Number.ofInt
    rw [roundRatio_neg]
    decide
  rw [h1, h2]
  rfl

theorem extractedScore_range {t : JSString} {s : Int} (h : extractedScore t = some s) :
    0 ≤ s ∧ s ≤ 100 := by
  unfold extractedScore at h
  split at h
  · simp at h
  · split at h
    · simp at h
    · split_ifs at h with hr
      simp only [Option.some.injEq] at h
      rw [← h]
      exact hr

theorem renderReport_narrative (text : JSString) (analysis : LocalAnalysis)
    (narrative : JSString) (error : Option JSString) (h : narrative ≠ []) :
    renderReport text analysis (some ⟨some narrative, error⟩)
      = { text := escapeLt text
          biasScore := (extractedScore narrative).getD analysis.biasScore
          biasLevel := (extractedLevel narrative).getD analysis.biasLevel
          polarity := (extractedPolarity narrative).getD analysis.polarity
          aiDetails := if truthy (extractedDetails narrative) then extractedDetails narrative
            else none
          localLines := localDetailLines analysis
          narrativeSection := some (escapeLt narrative)
          errorSection := none } := by
  cases narrative with
  | nil => exact absurd rfl h
  | cons c t =>
    have ht : truthy (some (c :: t)) = true := rfl
    simp only [renderReport, ht, if_true, Option.getD_some, extractGeminiAnalysis,
      extractedLevel_truthy]
    congr 1
    · cases extractedScore (c :: t) <;> rfl
    · cases extractedLevel (c :: t) <;> simp
    · cases extractedPolarity (c :: t) <;> rfl

theorem extractedScore_three_digits (a b c : Nat) (rest : JSString)
    (ha : isDigit a = true) (hb : isDigit b = true) (hc : isDigit c = true)
    (hv : 100 < digitsValue [a, b, c]) :
    extractedScore (utf16 ("bias score of ") ++ a :: b :: c :: rest) = none := by
  have h := scoreMatch_three_digits a b c rest ha hb hc
  unfold extractedScore
  cases hm : scoreMatch (utf16 ("bias score of ") ++ a :: b :: c :: rest) with
  | none => rfl
  | some m =>
    rw [hm] at h
    simp only [Option.some_bind] at h
    have hp : parseInt [a, b, c] = some ((digitsValue [a, b, c] : Nat) : Int) := by
      simp [parseInt, List.takeWhile, ha, hb, hc]
    simp only [h, Option.some_bind, hp]
    rw [if_neg]
    omega

theorem renderReport_no_narrative (text : JSString) (analysis : LocalAnalysis)
    (g : Option GeminiResult) (h : truthy (g.bind (fun x => x.geminiText)) = false) :
    (renderReport text analysis g).biasScore = analysis.biasScore ∧
    (renderReport text analysis g).biasLevel = analysis.biasLevel ∧
    (renderReport text analysis g).polarity = analysis.polarity ∧
    (renderReport text analysis g).aiDetails = none ∧
    (renderReport text analysis g).localLines = localDetailLines analysis ∧
    (renderReport text analysis g).narrativeSection = none := by
  cases g with
  | none => simp [renderReport]
  | some g =>
    simp only [Option.some_bind] at h
    unfold renderReport
    simp only [h, Bool.false_eq_true, if_false]
    split_ifs <;> simp

theorem truthy_cases (o : Option JSString) :
    truthy o = false ∨ ∃ c t, o = some (c :: t) := by
  cases o with
  | none => left; rfl
  | some s =>
    cases s with
    | nil => left; rfl
    | cons c t => right; exact ⟨c, t, rfl⟩

/-! ## Properties of `extractGeminiAnalysis` and `renderResults` -/

/-- C1. On the narrative
`Bias Score: 75, Polarity: -0.35, Bias Level: High, Explanation: too one-sided`
`extractGeminiAnalysis` returns score 75, level `High` and details `too one-sided`, but
the polarity `0.35`: the minus sign is taken by the `\D{0,10}` in front of group 1. -/
theorem round_trip_loses_sign :
    extractGeminiAnalysis (utf16
        ("Bias Score: 75, Polarity: -0.35, Bias Level: High, Explanation: too one-sided"))
      = { biasScore := some 75
          polarity := some (utf16 ("0.35"))
          biasLevel := some (utf16 ("High"))
          details := some (utf16 ("too one-sided")) } := by
  decide!

/-- C2. With a non-empty narrative, each of the report's score, level and polarity is the
value `extractGeminiAnalysis` set (a score of 0 included) and the value of the
`LocalAnalysis` when it set none; so with no field set the three are the local values. -/
theorem merge_precedence (text : JSString) (analysis : LocalAnalysis) (narrative : JSString)
    (error : Option JSString) (h : narrative ≠ []) :
    (renderReport text analysis (some ⟨some narrative, error⟩)).biasScore
        = (extractGeminiAnalysis narrative).biasScore.getD analysis.biasScore ∧
    (renderReport text analysis (some ⟨some narrative, error⟩)).biasLevel
        = (extractGeminiAnalysis narrative).biasLevel.getD analysis.biasLevel ∧
    (renderReport text analysis (some ⟨some narrative, error⟩)).polarity
        = (extractGeminiAnalysis narrative).polarity.getD analysis.polarity ∧
    ((extractGeminiAnalysis narrative).biasScore = none →
      (extractGeminiAnalysis narrative).biasLevel = none →
      (extractGeminiAnalysis narrative).polarity = none →
        (renderReport text analysis (some ⟨some narrative, error⟩)).biasScore
            = analysis.biasScore ∧
        (renderReport text analysis (some ⟨some narrative, error⟩)).biasLevel
            = analysis.biasLevel ∧
        (renderReport text analysis (some ⟨some narrative, error⟩)).polarity
            = analysis.polarity) := by
  rw [renderReport_narrative text analysis narrative error h]
  refine ⟨rfl, rfl, rfl, ?_⟩
  intro h1 h2 h3
  simp only [extractGeminiAnalysis] at h1 h2 h3
  simp [h1, h2, h3]

theorem merge_precedence_witness :
    utf16 ("Bias score: 0") ≠ [] ∧
    (analyzeText (utf16 ("good"))).biasScore = 100 ∧
    (renderReport (utf16 ("good")) (analyzeText (utf16 ("good")))
        (some ⟨some (utf16 ("Bias score: 0")), none⟩)).biasScore = 0 :=
  ⟨by decide, by decide!,
    ((merge_precedence (utf16 ("good")) (analyzeText (utf16 ("good")))
      (utf16 ("Bias score: 0")) none (by decide)).1).trans (by decide!)⟩

/-- C3. After a failed call the report has the error message as its error section, no
narrative section and no AI details, and its score, level and polarity are those of
`analyzeText`, whatever the description of the failure says. -/
theorem failure_path (text description : JSString) :
    (renderReport text (analyzeText text) (some (failureResult description))).errorSection
        = some (utf16 ("Gemini API error: ") ++ description) ∧
    (renderReport text (analyzeText text) (some (failureResult description))).narrativeSection
        = none ∧
    (renderReport text (analyzeText text) (some (failureResult description))).aiDetails = none ∧
    (renderReport text (analyzeText text) (some (failureResult description))).biasScore
        = (analyzeText text).biasScore ∧
    (renderReport text (analyzeText text) (some (failureResult description))).biasLevel
        = (analyzeText text).biasLevel ∧
    (renderReport text (analyzeText text) (some (failureResult description))).polarity
        = (analyzeText text).polarity ∧
    (renderReport text (analyzeText text) (some (failureResult description))).geminiSection
        = utf16 ("<div class=\"alert alert-warning\">")
          ++ (utf16 ("Gemini API error: ") ++ description) ++ utf16 ("</div>") := by
  have e : utf16 ("Gemini API error: ")
      = [71, 101, 109, 105, 110, 105, 32, 65, 80, 73, 32, 101, 114, 114, 111, 114, 58, 32] := by
    decide
  simp [renderReport, failureResult, truthy, e, Report.geminiSection]

/-- C4, counterexample. The numeral of 1000 is `1000`, and on `bias score of 1000` the
extracted score is 100, which the report shows in place of the local score 0. -/
theorem four_digit_score_read_as_100 :
    decimalDigits 1000 = utf16 ("1000") ∧
    (extractGeminiAnalysis (utf16 ("bias score of ") ++ decimalDigits 1000)).biasScore
        = some 100 ∧
    (analyzeText (utf16 ("so"))).biasScore = 0 ∧
    (renderReport (utf16 ("so")) (analyzeText (utf16 ("so")))
        (some ⟨some (utf16 ("bias score of ") ++ decimalDigits 1000), none⟩)).biasScore
        = 100 := by
  decide!

/-- C4, amended. On a narrative `bias score of ` followed by three digits that read as a
number above 100, whatever comes after them, the extracted score is unset and the report
shows the score of the `LocalAnalysis`; the decimal numeral of every `n` from 101 to 999
is such a string of three digits. -/
theorem out_of_range_guard (text : JSString) (analysis : LocalAnalysis) :
    (∀ a b c rest, isDigit a = true → isDigit b = true → isDigit c = true →
      100 < digitsValue [a, b, c] →
      (extractGeminiAnalysis (utf16 ("bias score of ") ++ a :: b :: c :: rest)).biasScore = none ∧
      (renderReport text analysis
          (some ⟨some (utf16 ("bias score of ") ++ a :: b :: c :: rest), none⟩)).biasScore
        = analysis.biasScore) ∧
    (∀ n, 100 < n → n ≤ 999 →
      (extractGeminiAnalysis (utf16 ("bias score of ") ++ decimalDigits n)).biasScore = none ∧
      (renderReport text analysis
          (some ⟨some (utf16 ("bias score of ") ++ decimalDigits n), none⟩)).biasScore
        = analysis.biasScore) := by
  have key : ∀ a b c rest, isDigit a = true → isDigit b = true → isDigit c = true →
      100 < digitsValue [a, b, c] →
      (extractGeminiAnalysis (utf16 ("bias score of ") ++ a :: b :: c :: rest)).biasScore = none ∧
      (renderReport text analysis
          (some ⟨some (utf16 ("bias score of ") ++ a :: b :: c :: rest), none⟩)).biasScore
        = analysis.biasScore := by
    intro a b c rest ha hb hc hv
    have hs := extractedScore_three_digits a b c rest ha hb hc hv
    refine ⟨hs, ?_⟩
    rw [renderReport_narrative _ _ _ _ (by simp), hs]
    rfl
  refine ⟨key, ?_⟩
  intro n h1 h2
  have hd := decimalDigits_three ⟨n, by omega⟩ (by simp; omega)
  simp only at hd
  rw [hd]
  apply key
  · simp [isDigit]; omega
  · simp [isDigit]; omega
  · simp [isDigit]; omega
  · simp [digitsValue]; omega

theorem out_of_range_guard_witness :
    (100 < 150 ∧ 150 ≤ 999) ∧ decimalDigits 150 = utf16 ("150") ∧
    (extractGeminiAnalysis (utf16 ("bias score of ") ++ decimalDigits 150)).biasScore = none ∧
    (renderReport (utf16 ("good")) (analyzeText (utf16 ("good")))
        (some ⟨some (utf16 ("bias score of ") ++ decimalDigits 150), none⟩)).biasScore
      = (analyzeText (utf16 ("good"))).biasScore :=
  ⟨by decide, by decide,
    (out_of_range_guard (utf16 ("good")) (analyzeText (utf16 ("good")))).2 150 (by decide)
      (by decide)⟩

/-- C5. Unless the narrative has an explicit level that `levelRegex` matches, the level
the report shows is the level of the score it shows: `High` above 60, `Medium` above 30,
else `Low`. -/
theorem level_score_consistency (text : JSString) (g : Option GeminiResult)
    (h : (g.bind (fun x => x.geminiText)).bind levelMatch = none) :
    (renderReport text (analyzeText text) g).biasLevel
      = if (renderReport text (analyzeText text) g).biasScore > 60 then utf16 ("High")
        else if (renderReport text (analyzeText text) g).biasScore > 30 then utf16 ("Medium")
        else utf16 ("Low") := by
  rcases truthy_cases (g.bind (fun x => x.geminiText)) with hf | ⟨c, t, hs⟩
  · obtain ⟨h1, h2, _⟩ := renderReport_no_narrative text (analyzeText text) g hf
    rw [h1, h2]
    rfl
  · cases g with
    | none => simp at hs
    | some g =>
      obtain ⟨gt, ge⟩ := g
      simp only [Option.some_bind] at hs h
      subst hs
      simp only [Option.some_bind] at h
      rw [renderReport_narrative _ _ _ _ (by simp)]
      simp only
      have hl : extractedLevel (c :: t) = (extractedScore (c :: t)).map levelOfScore := by
        unfold extractedLevel
        rw [h]
        cases extractedScore (c :: t) <;> rfl
      rw [hl]
      cases extractedScore (c :: t) with
      | none => rfl
      | some s => rfl

theorem level_score_consistency_witness :
    ((some (⟨some (utf16 ("Bias score: 45")), none⟩ : GeminiResult)).bind
        (fun x => x.geminiText)).bind levelMatch = none ∧
    (renderReport (utf16 ("good")) (analyzeText (utf16 ("good")))
        (some ⟨some (utf16 ("Bias score: 45")), none⟩)).biasScore = 45 ∧
    (renderReport (utf16 ("good")) (analyzeText (utf16 ("good")))
        (some ⟨some (utf16 ("Bias score: 45")), none⟩)).biasLevel = utf16 ("Medium") :=
  ⟨by decide!, by decide!,
    (level_score_consistency (utf16 ("good")) (some ⟨some (utf16 ("Bias score: 45")), none⟩)
      (by decide!)).trans (by decide!)⟩

/-- C6. The score of `analyzeText` is an integer from 0 to 100 for every text, every score
`extractGeminiAnalysis` sets is one, and so is the score the report shows for every text
and every Gemini result. -/
theorem report_score_range :
    (∀ text, 0 ≤ (analyzeText text).biasScore ∧ (analyzeText text).biasScore ≤ 100) ∧
    (∀ narrative s, (extractGeminiAnalysis narrative).biasScore = some s → 0 ≤ s ∧ s ≤ 100) ∧
    (∀ text g, 0 ≤ (renderReport text (analyzeText text) g).biasScore ∧
      (renderReport text (analyzeText text) g).biasScore ≤ 100) := by
  refine ⟨localBiasScore_range, fun narrative s h => extractedScore_range h, ?_⟩
  intro text g
  rcases truthy_cases (g.bind (fun x => x.geminiText)) with hf | ⟨c, t, hs⟩
  · rw [(renderReport_no_narrative text (analyzeText text) g hf).1]
    exact localBiasScore_range text
  · cases g with
    | none => simp at hs
    | some g =>
      obtain ⟨gt, ge⟩ := g
      simp only [Option.some_bind] at hs
      subst hs
      rw [renderReport_narrative _ _ _ _ (by simp)]
      simp only
      cases hsc : extractedScore (c :: t) with
      | none => exact localBiasScore_range text
      | some s => exact extractedScore_range hsc

theorem report_score_range_witness :
    (extractGeminiAnalysis (utf16 ("Bias score: 45"))).biasScore = some 45 ∧
      (0 : Int) ≤ 45 ∧ (45 : Int) ≤ 100 :=
  ⟨by decide!, report_score_range.2.1 (utf16 ("Bias score: 45")) 45 (by decide!)⟩

/-- C7. When `levelRegex` finds no explicit level, a set score `s` gives the level `High`
for `s > 60`, `Medium` for `30 < s ≤ 60` and `Low` otherwise, and an unset score leaves
the level unset. -/
theorem tie_break (narrative : JSString) (h : levelMatch narrative = none) :
    (∀ s, (extractGeminiAnalysis narrative).biasScore = some s →
      (extractGeminiAnalysis narrative).biasLevel
        = some (if s > 60 then utf16 ("High")
            else if 30 < s ∧ s ≤ 60 then utf16 ("Medium") else utf16 ("Low"))) ∧
    ((extractGeminiAnalysis narrative).biasScore = none →
      (extractGeminiAnalysis narrative).biasLevel = none) := by
  simp only [extractGeminiAnalysis]
  constructor
  · intro s hs
    unfold extractedLevel
    rw [h, hs]
    simp only [levelOfScore]
    split_ifs <;> first | rfl | omega
  · intro hs
    unfold extractedLevel
    rw [h, hs]

theorem tie_break_witness :
    levelMatch (utf16 ("Bias score: 45")) = none ∧
    (extractGeminiAnalysis (utf16 ("Bias score: 45"))).biasScore = some 45 ∧
    (extractGeminiAnalysis (utf16 ("Bias score: 45"))).biasLevel = some (utf16 ("Medium")) :=
  ⟨by decide!, by decide!,
    ((tie_break (utf16 ("Bias score: 45")) (by decide!)).1 45 (by decide!)).trans (by decide)⟩

/-- C8. With a non-empty narrative the report has a narrative section, which is the
narrative with every `<` replaced by `&lt;` and every other code unit unchanged, and
no error section; and no report has both sections. -/
theorem narrative_section (text : JSString) (analysis : LocalAnalysis) (narrative : JSString)
    (error : Option JSString) (h : narrative ≠ []) :
    (renderReport text analysis (some ⟨some narrative, error⟩)).narrativeSection
        = some (narrative.flatMap (fun c => if c = 60 then utf16 ("&lt;") else [c])) ∧
    (renderReport text analysis (some ⟨some narrative, error⟩)).errorSection = none ∧
    ∀ g, (renderReport text analysis g).narrativeSection = none ∨
      (renderReport text analysis g).errorSection = none := by
  rw [renderReport_narrative text analysis narrative error h]
  refine ⟨by show some (escapeLt narrative) = _; rw [escapeLt_eq]; rfl, rfl, ?_⟩
  intro g
  rcases truthy_cases (g.bind (fun x => x.geminiText)) with hf | ⟨c, t, hs⟩
  · left
    exact (renderReport_no_narrative text analysis g hf).2.2.2.2.2
  · cases g with
    | none => simp at hs
    | some g =>
      obtain ⟨gt, ge⟩ := g
      simp only [Option.some_bind] at hs
      subst hs
      right
      rw [renderReport_narrative _ _ _ _ (by simp)]

theorem narrative_section_witness :
    utf16 ("a <b> c") ≠ [] ∧
    (renderReport (utf16 ("good")) (analyzeText (utf16 ("good")))
        (some ⟨some (utf16 ("a <b> c")), none⟩)).narrativeSection
      = some (utf16 ("a &lt;b> c")) :=
  ⟨by decide,
    ((narrative_section (utf16 ("good")) (analyzeText (utf16 ("good"))) (utf16 ("a <b> c")) none
      (by decide)).1).trans (by decide)⟩

/-- C9. The details of `extractGeminiAnalysis` are unset exactly when no details keyword
occurs in the narrative in any mix of cases. When set, they are at most 300 code units
long, neither start nor end with white space, and are the trimmed first 300 code units of
what follows the earliest keyword occurrence once white space, one optional colon or
dash and white space again have been passed over. -/
theorem details_extraction (t : JSString) :
    ((extractGeminiAnalysis t).details = none ↔
        ¬ ∃ pre w post, KeywordOccurrence t pre w post) ∧
    ∀ d, (extractGeminiAnalysis t).details = some d →
      d.length ≤ 300 ∧
      (∀ c, d.head? = some c → isWhiteSpace c = false) ∧
      (∀ c, d.getLast? = some c → isWhiteSpace c = false) ∧
      ∃ pre w post, KeywordOccurrence t pre w post ∧
        (∀ pre1 w1 post1, KeywordOccurrence t pre1 w1 post1 → pre.length ≤ pre1.length) ∧
        d = trim ((afterSeparator post).take 300) := by
  refine ⟨extractedDetails_none_iff t, ?_⟩
  intro d hd
  obtain ⟨pre, w, post, hocc, hmin, hdef⟩ := extractedDetails_some (t := t) (d := d) hd
  refine ⟨?_, ?_, ?_, pre, w, post, hocc, hmin, hdef⟩
  · rw [hdef]
    exact le_trans (trim_length_le _) (by simp)
  · rw [hdef]; exact trim_head _
  · rw [hdef]; exact trim_getLast _

theorem details_extraction_witness :
    (extractGeminiAnalysis (utf16 ("A Summary - one-sided \n"))).details
        = some (utf16 ("one-sided")) ∧
      ((utf16 ("one-sided")).length ≤ 300 ∧
      (∀ c, (utf16 ("one-sided")).head? = some c → isWhiteSpace c = false) ∧
      (∀ c, (utf16 ("one-sided")).getLast? = some c → isWhiteSpace c = false) ∧
      ∃ pre w post, KeywordOccurrence (utf16 ("A Summary - one-sided \n")) pre w post ∧
        (∀ pre1 w1 post1, KeywordOccurrence (utf16 ("A Summary - one-sided \n")) pre1 w1 post1 →
          pre.length ≤ pre1.length) ∧
        utf16 ("one-sided") = trim ((afterSeparator post).take 300)) :=
  ⟨by decide!, (details_extraction (utf16 ("A Summary - one-sided \n"))).2 _ (by decide!)⟩

/-- C10, counterexample. The narrative `Summary:` has a details keyword and its extracted
details are set, to the empty string; the report's detail lines are the five local
lines alone, without an AI line. -/
theorem empty_details_give_no_ai_line :
    (extractGeminiAnalysis (utf16 ("Summary:"))).details = some [] ∧
    (renderReport (utf16 ("good")) (analyzeText (utf16 ("good")))
        (some ⟨some (utf16 ("Summary:")), none⟩)).detailLines
      = localDetailLines (analyzeText (utf16 ("good"))) := by
  decide!

/-- C10, amended. The report's detail lines always end with the five local lines in the
order positive, negative, bias, emotional, subjectivity, with at most the AI line in
front; and whenever the extracted details are set and not empty, the AI line made from
them is there, in front of the five local lines. -/
theorem detail_lines (text : JSString) (analysis : LocalAnalysis) :
    (∀ g, ∃ pre, pre.length ≤ 1 ∧ (renderReport text analysis g).detailLines
      = pre ++ [utf16 ("Positive words: ") ++ decimalDigits analysis.pos,
          utf16 ("Negative words: ") ++ decimalDigits analysis.neg,
          utf16 ("Bias words: ") ++ decimalDigits analysis.bias,
          utf16 ("Emotional words: ") ++ decimalDigits analysis.emotional,
          utf16 ("Subjectivity: ") ++ analysis.subjectivity]) ∧
    (∀ narrative error d, narrative ≠ [] →
      (extractGeminiAnalysis narrative).details = some d → d ≠ [] →
      (renderReport text analysis (some ⟨some narrative, error⟩)).detailLines
        = Report.aiLine d
          :: [utf16 ("Positive words: ") ++ decimalDigits analysis.pos,
            utf16 ("Negative words: ") ++ decimalDigits analysis.neg,
            utf16 ("Bias words: ") ++ decimalDigits analysis.bias,
            utf16 ("Emotional words: ") ++ decimalDigits analysis.emotional,
            utf16 ("Subjectivity: ") ++ analysis.subjectivity]) := by
  constructor
  · intro g
    rcases truthy_cases (g.bind (fun x => x.geminiText)) with hf | ⟨c, t, hs⟩
    · obtain ⟨_, _, _, h4, h5, _⟩ := renderReport_no_narrative text analysis g hf
      exact ⟨[], by simp, by simp [Report.detailLines, h4, h5, localDetailLines]⟩
    · cases g with
      | none => simp at hs
      | some g =>
        obtain ⟨gt, ge⟩ := g
        simp only [Option.some_bind] at hs
        subst hs
        rw [renderReport_narrative _ _ _ _ (by simp)]
        simp only [Report.detailLines, localDetailLines]
        split
        · exact ⟨_, by simp, rfl⟩
        · exact ⟨[], by simp, rfl⟩
  · intro narrative error d hn hd hne
    rw [renderReport_narrative _ _ _ _ hn]
    simp only [extractGeminiAnalysis] at hd
    have ht : truthy (some d) = true := by
      cases d with
      | nil => exact absurd rfl hne
      | cons _ _ => rfl
    simp [Report.detailLines, localDetailLines, hd, ht]

theorem detail_lines_witness :
    utf16 ("Summary: slanted") ≠ [] ∧
    (extractGeminiAnalysis (utf16 ("Summary: slanted"))).details = some (utf16 ("slanted")) ∧
    utf16 ("slanted") ≠ [] ∧
    (renderReport (utf16 ("good")) (analyzeText (utf16 ("good")))
        (some ⟨some (utf16 ("Summary: slanted")), none⟩)).detailLines
      = [utf16 ("<div class=\"mb-2\"><strong>AI Details:</strong> slanted</div>"),
          utf16 ("Positive words: 1"), utf16 ("Negative words: 0"), utf16 ("Bias words: 0"),
          utf16 ("Emotional words: 0"), utf16 ("Subjectivity: 0.00")] :=
  ⟨by decide, by decide!, by decide,
    ((detail_lines (utf16 ("good")) (analyzeText (utf16 ("good")))).2 (utf16 ("Summary: slanted"))
      none (utf16 ("slanted")) (by decide) (by decide!) (by decide)).trans (by decide!)⟩

/-! ## Properties of `split` and of the counters -/

theorem takeWhile_length_add (p : Nat → Bool) (s : JSString) :
    (s.takeWhile p).length + (s.dropWhile p).length = s.length := by
  have h := congrArg List.length (List.takeWhile_append_dropWhile p s)
  rw [List.length_append] at h
  exact h

/-- The pattern `/\W+/` at the start of a string: it fails on a word character and takes
the whole run of non-word characters otherwise. -/
theorem matchLength_nonWordRun (c : Nat) (s : JSString) :
    matchLength nonWordRun (c :: s)
      = if isNonWordChar c then some ((s.takeWhile isNonWordChar).length + 1) else none := by
  unfold matchLength matchAt nonWordRun
  rw [matcher_group, matcher_rep]
  by_cases hc : isNonWordChar c = true
  · rw [repeatMatcher_one_greedy c s none (by simp [canTake, hc]) (by rfl)]
    simp only [decr, greedyRest_none, Option.map_some', hc, if_true, Option.some.injEq,
      List.length_cons]
    have := takeWhile_length_add isNonWordChar s
    omega
  · simp [repeatMatcher, hc]

theorem splitAux_ne_nil (r : Regex) (s : JSString) (skip : Nat) (cur : JSString) :
    splitAux r s skip cur ≠ [] := by
  induction s generalizing skip cur with
  | nil => simp [splitAux]
  | cons c t ih =>
    cases skip with
    | succ n => rw [splitAux]; exact ih n cur
    | zero =>
      rw [splitAux]
      split
      · simp
      · exact ih 0 _

theorem words_ne_nil (text : JSString) : words text ≠ [] :=
  splitAux_ne_nil _ _ _ _

theorem total_eq_length (text : JSString) : total text = (words text).length := by
  unfold total
  have := words_ne_nil text
  rw [if_neg]
  intro h
  exact this (List.length_eq_zero.mp h)

/-- Word characters in front are collected into the current piece. -/
theorem splitAux_word_append (w s cur : JSString) (hw : ∀ c ∈ w, isNonWordChar c = false) :
    splitAux nonWordRun (w ++ s) 0 cur = splitAux nonWordRun s 0 (cur ++ w) := by
  induction w generalizing cur with
  | nil => simp
  | cons c w ih =>
    have hc : isNonWordChar c = false := hw c (by simp)
    rw [List.cons_append, splitAux, matchLength_nonWordRun, hc]
    simp only [Bool.false_eq_true, if_false]
    rw [ih (cur ++ [c]) (fun x hx => hw x (by simp [hx]))]
    simp

/-- The rest of a separator is passed over. -/
theorem splitAux_skip (r : Regex) (a s cur : JSString) :
    splitAux r (a ++ s) a.length cur = splitAux r s 0 cur := by
  induction a with
  | nil => simp
  | cons c a ih => rw [List.cons_append, List.length_cons, splitAux]; exact ih

/-- A run of non-word characters that ends at a word character or at the end of the
string closes the current piece. -/
theorem splitAux_run (q s cur : JSString) (hq : q ≠ [])
    (hall : ∀ c ∈ q, isNonWordChar c = true)
    (hs : ∀ c, s.head? = some c → isNonWordChar c = false) :
    splitAux nonWordRun (q ++ s) 0 cur = cur :: splitAux nonWordRun s 0 [] := by
  cases q with
  | nil => exact absurd rfl hq
  | cons c q =>
    have hc : isNonWordChar c = true := hall c (by simp)
    have ht : (q ++ s).takeWhile isNonWordChar = q := by
      rw [List.takeWhile_append_of_pos (fun x hx => hall x (by simp [hx]))]
      cases s with
      | nil => simp
      | cons x s =>
        have := hs x rfl
        simp [List.takeWhile, this]
    rw [List.cons_append, splitAux, matchLength_nonWordRun, hc, if_pos rfl, ht]
    simp only
    rw [splitAux_skip]

theorem takeWhile_of_mem_false (p : Nat → Bool) (L q : JSString) (x : Nat) (hx : x ∈ L)
    (hp : p x = false) :
    (L.takeWhile p).length < L.length ∧ (L ++ q).takeWhile p = L.takeWhile p := by
  induction L with
  | nil => simp at hx
  | cons c L ih =>
    by_cases hc : p c = true
    · have hxL : x ∈ L := by
        rcases List.mem_cons.mp hx with h | h
        · rw [h, hc] at hp; exact Bool.noConfusion hp
        · exact h
      obtain ⟨h1, h2⟩ := ih hxL
      simp [List.takeWhile, hc, h1, h2]
    · simp [List.takeWhile, hc]

/-- A run of non-word characters after a string that ends with a word character adds
one empty piece and changes nothing else. -/
theorem splitAux_append_run (q : JSString) (hq : q ≠ [])
    (hall : ∀ c ∈ q, isNonWordChar c = true) (z : Nat) (hz : isNonWordChar z = false) :
    ∀ (L0 : JSString) (skip : Nat) (cur : JSString), skip ≤ L0.length →
      splitAux nonWordRun (L0 ++ [z] ++ q) skip cur
        = splitAux nonWordRun (L0 ++ [z]) skip cur ++ [[]] := by
  intro L0
  induction L0 with
  | nil =>
    intro skip cur hskip
    have h0 : skip = 0 := by simpa using hskip
    subst h0
    rw [List.nil_append, List.singleton_append, splitAux, splitAux, matchLength_nonWordRun,
      matchLength_nonWordRun, hz]
    simp only [Bool.false_eq_true, if_false]
    rw [← List.append_nil q, splitAux_run q [] _ hq hall (by simp)]
    simp [splitAux]
  | cons c L0 ih =>
    intro skip cur hskip
    cases skip with
    | succ n =>
      simp only [List.cons_append]
      rw [splitAux, splitAux]
      have := ih n cur (by simpa using hskip)
      simpa using this
    | zero =>
      simp only [List.cons_append]
      by_cases hc : isNonWordChar c = true
      · obtain ⟨h1, h2⟩ := takeWhile_of_mem_false isNonWordChar (L0 ++ [z]) q z (by simp) hz
        rw [splitAux, splitAux, matchLength_nonWordRun, matchLength_nonWordRun, hc,
          if_pos rfl, if_pos rfl]
        rw [h2]
        simp only [List.cons_append]
        rw [ih ((L0 ++ [z]).takeWhile isNonWordChar).length [] (by simp at h1; omega)]
      · have hc0 : isNonWordChar c = false := by simpa using hc
        rw [splitAux, splitAux, matchLength_nonWordRun, matchLength_nonWordRun, hc0]
        simp only [Bool.false_eq_true, if_false]
        exact ih 0 (cur ++ [c]) (Nat.zero_le _)

theorem lowerUnit_word {c : Nat} (h : isNonWordChar c = false) :
    ∃ c1, lowerUnit c = [c1] ∧ isNonWordChar c1 = false := by
  unfold lowerUnit
  simp only [isNonWordChar, isWordChar, isDigit, Bool.not_eq_false', Bool.or_eq_true,
    Bool.and_eq_true, decide_eq_true_eq] at h
  split_ifs with h1 h2 h3
  · exact ⟨c + 32, rfl, by
      simp only [isNonWordChar, isWordChar, isDigit, Bool.not_eq_false', Bool.or_eq_true,
        Bool.and_eq_true, decide_eq_true_eq]
      omega⟩
  · omega
  · omega
  · exact ⟨c, rfl, by
      simp only [isNonWordChar, isWordChar, isDigit, Bool.not_eq_false', Bool.or_eq_true,
        Bool.and_eq_true, decide_eq_true_eq]
      omega⟩

theorem lowerUnit_stable {c : Nat} (h : isStableNonWord c = true) : lowerUnit c = [c] := by
  unfold lowerUnit
  simp only [isStableNonWord, isNonWordChar, isWordChar, isDigit, Bool.and_eq_true,
    Bool.not_eq_true', Bool.or_eq_false_iff, Bool.and_eq_false_imp, decide_eq_true_eq,
    decide_eq_false_iff_not] at h
  split_ifs with h1 h2 h3
  · omega
  · omega
  · omega
  · rfl

theorem toLowerCase_stable {p : JSString} (h : ∀ c ∈ p, isStableNonWord c = true) :
    toLowerCase p = p := by
  induction p with
  | nil => rfl
  | cons c p ih =>
    unfold toLowerCase at ih ⊢
    rw [List.flatMap_cons, lowerUnit_stable (h c (by simp)), ih (fun x hx => h x (by simp [hx]))]
    rfl

theorem toLowerCase_append (a b : JSString) :
    toLowerCase (a ++ b) = toLowerCase a ++ toLowerCase b := by
  unfold toLowerCase
  exact List.flatMap_append a b lowerUnit

theorem isStableNonWord_nonWord {c : Nat} (h : isStableNonWord c = true) :
    isNonWordChar c = true := by
  simp only [isStableNonWord, Bool.and_eq_true] at h
  exact h.1.1

theorem countWord_empty (st : Counts) : countWord st [] = st := by
  have h1 : positiveWords.contains ([] : JSString) = false := by decide
  have h2 : negativeWords.contains ([] : JSString) = false := by decide
  have h3 : biasWords.contains ([] : JSString) = false := by decide
  have h4 : emotionalWords.contains ([] : JSString) = false := by decide
  unfold countWord
  rw [h1, h2, h3, h4]
  rfl

/-- The words of a text that ends with a word character, followed by stable non-word
characters: one empty word more. -/
theorem words_append_run (t0 p : JSString) (z : Nat) (hz : isNonWordChar z = false)
    (hp : p ≠ []) (hall : ∀ c ∈ p, isStableNonWord c = true) :
    words (t0 ++ [z] ++ p) = words (t0 ++ [z]) ++ [[]] := by
  obtain ⟨z1, hz1, hz1w⟩ := lowerUnit_word hz
  have hl : toLowerCase [z] = [z1] := by simp [toLowerCase, hz1]
  unfold words split
  rw [toLowerCase_append, toLowerCase_append, toLowerCase_stable hall, hl]
  exact splitAux_append_run p hp (fun c hc => isStableNonWord_nonWord (hall c hc)) z1 hz1w _ 0 []
    (Nat.zero_le _)

/-- The words of a text that starts with a word character, after stable non-word
characters: one empty word in front. -/
theorem words_run_append (t1 p : JSString) (a : Nat) (ha : isNonWordChar a = false)
    (hp : p ≠ []) (hall : ∀ c ∈ p, isStableNonWord c = true) :
    words (p ++ a :: t1) = [] :: words (a :: t1) := by
  obtain ⟨a1, ha1, ha1w⟩ := lowerUnit_word ha
  have hl : toLowerCase (a :: t1) = a1 :: toLowerCase t1 := by
    simp [toLowerCase, ha1]
  unfold words split
  rw [toLowerCase_append, toLowerCase_stable hall, hl]
  exact splitAux_run p _ [] hp (fun c hc => isStableNonWord_nonWord (hall c hc))
    (by intro c hc; simp at hc; rw [← hc]; exact ha1w)

theorem countWord_of_not_mem (st : Counts) (w : JSString) (h : w ∉ lexicon) :
    countWord st w = st := by
  simp only [lexicon, List.mem_append, not_or] at h
  have h1 : positiveWords.contains w = false := by simpa using h.1.1.1
  have h2 : negativeWords.contains w = false := by simpa using h.1.1.2
  have h3 : biasWords.contains w = false := by simpa using h.1.2
  have h4 : emotionalWords.contains w = false := by simpa using h.2
  unfold countWord
  rw [h1, h2, h3, h4]
  rfl

theorem foldl_countWord_of_not_mem (ws : List JSString) (st : Counts)
    (h : ∀ w ∈ ws, w ∉ lexicon) : ws.foldl countWord st = st := by
  induction ws generalizing st with
  | nil => rfl
  | cons w ws ih =>
    rw [List.foldl_cons, countWord_of_not_mem st w (h w (by simp))]
    exact ih st (fun x hx => h x (by simp [hx]))

/-- Every piece `split` returns is a contiguous part of the string. -/
theorem splitAux_contiguous (r : Regex) (s : JSString) (skip : Nat) (cur : JSString)
    (h : 0 < skip → cur = []) : ∀ piece ∈ splitAux r s skip cur, piece <:+: cur ++ s := by
  induction s generalizing skip cur with
  | nil =>
    intro piece hp
    simp only [splitAux, List.mem_singleton] at hp
    rw [hp, List.append_nil]
  | cons c t ih =>
    intro piece hp
    cases skip with
    | succ n =>
      have hcur : cur = [] := h (Nat.succ_pos n)
      subst hcur
      rw [splitAux] at hp
      have := ih n [] (fun _ => rfl) piece hp
      rw [List.nil_append] at this ⊢
      exact this.trans (List.suffix_cons c t).isInfix
    | zero =>
      rw [splitAux] at hp
      split at hp
      · rcases List.mem_cons.mp hp with h1 | h1
        · rw [h1]
          exact (List.prefix_append cur (c :: t)).isInfix
        · have := ih _ [] (fun _ => rfl) piece h1
          rw [List.nil_append] at this
          exact this.trans ((List.suffix_cons c t).isInfix.trans
            (List.suffix_append cur (c :: t)).isInfix)
      · have := ih 0 (cur ++ [c]) (fun h0 => absurd h0 (Nat.lt_irrefl 0)) piece hp
        rw [List.append_assoc] at this
        exact this

theorem words_contiguous (text : JSString) : ∀ w ∈ words text, w <:+: toLowerCase text := by
  intro w hw
  have := splitAux_contiguous nonWordRun (toLowerCase text) 0 [] (fun h => absurd h (Nat.lt_irrefl 0)) w hw
  rwa [List.nil_append] at this

/-- With all four counters at zero `analyzeText` returns zeros and `Low`. -/
theorem analyzeText_of_counts_zero (text : JSString) (h : counts text = ⟨0, 0, 0, 0⟩) :
    analyzeText text
      = { polarity := utf16 ("0.00"), subjectivity := utf16 ("0.00"), biasScore := 0,
          biasLevel := utf16 ("Low"), pos := 0, neg := 0, bias := 0, emotional := 0 } := by
  have hz : ∀ y : Number, y.neg = false → Number.div ⟨false, 0, 0⟩ y = ⟨false, 0, 0⟩ := by
    intro y hy
    simp [Number.div, roundRatio, hy]
  have hneg : (Number.ofInt ((total text : Nat) : Int)).neg = false := by
    unfold Number.ofInt
    rw [roundRatio_neg]
    simp
  have h0 : Number.ofInt 0 = ⟨false, 0, 0⟩ := by decide
  have hp : polarityValue text = ⟨false, 0, 0⟩ := by
    unfold polarityValue
    rw [h]
    simp only [Nat.cast_zero, sub_self, h0]
    exact hz _ hneg
  have hs : subjectivityValue text = ⟨false, 0, 0⟩ := by
    unfold subjectivityValue
    rw [h]
    simp only [Nat.cast_zero, add_zero, h0]
    exact hz _ hneg
  have hb : localBiasScore text = 0 := by
    unfold localBiasScore
    rw [hp, hs]
    decide!
  unfold analyzeText
  rw [hp, hs, hb, h]
  decide!

/-! ## Properties of the binary64 arithmetic -/

theorem log2Aux_eq_log (f : Nat) : ∀ n, n ≤ f → log2Aux f n = Nat.log 2 n := by
  induction f with
  | zero =>
    intro n hn
    have : n = 0 := by omega
    subst this
    simp [log2Aux]
  | succ f ih =>
    intro n hn
    rw [log2Aux]
    by_cases h : n < 2
    · rw [if_pos h, Nat.log_of_lt h]
    · rw [if_neg h, ih (n / 2) (by omega),
        Nat.log_of_one_lt_of_le (by decide) (by omega : 2 ≤ n)]

/-- The fuel of `floorLog2` suffices: it is the floor of the binary logarithm. -/
theorem floorLog2_eq_log (n : Nat) : floorLog2 n = Nat.log 2 n :=
  log2Aux_eq_log n n (Nat.le_refl n)

theorem floorLog2_bounds (n : Nat) (hn : n ≠ 0) :
    2 ^ floorLog2 n ≤ n ∧ n < 2 * 2 ^ floorLog2 n := by
  rw [floorLog2_eq_log]
  refine ⟨Nat.pow_log_le_self 2 hn, ?_⟩
  have := Nat.lt_pow_succ_log_self (by decide : 1 < 2) n
  rw [Nat.pow_succ] at this
  omega

/-- The exponent `floorLog2Ratio n d` is the floor of the binary logarithm of `n / d`:
`2^L ≤ n / d < 2^(L+1)`, written with natural powers. -/
theorem floorLog2Ratio_bounds (n d : Nat) (hn : n ≠ 0) (hd : d ≠ 0) :
    d * 2 ^ (floorLog2Ratio n d).toNat ≤ n * 2 ^ (-(floorLog2Ratio n d)).toNat ∧
    n * 2 ^ (-(floorLog2Ratio n d)).toNat < 2 * (d * 2 ^ (floorLog2Ratio n d).toNat) := by
  obtain ⟨hn1, hn2⟩ := floorLog2_bounds n hn
  obtain ⟨hd1, hd2⟩ := floorLog2_bounds d hd
  unfold floorLog2Ratio
  simp only
  generalize floorLog2 n = ln at hn1 hn2 ⊢
  generalize floorLog2 d = ld at hd1 hd2 ⊢
  rcases Nat.lt_or_ge ln ld with hlt | hge
  · -- ln < ld
    obtain ⟨c, rfl⟩ : ∃ c, ld = ln + (c + 1) := ⟨ld - ln - 1, by omega⟩
    have ha : ((ln : Int) - ((ln + (c + 1) : Nat) : Int)) = -((c + 1 : Nat) : Int) := by
      push_cast; ring
    rw [ha]
    have e1 : (-((c + 1 : Nat) : Int)).toNat = 0 := by
      rw [Int.toNat_eq_zero]; omega
    have e2 : (- -((c + 1 : Nat) : Int)).toNat = c + 1 := by
      rw [neg_neg]; exact Int.toNat_natCast _
    have e3 : (-((c + 1 : Nat) : Int) - 1).toNat = 0 := by
      rw [Int.toNat_eq_zero]; omega
    have e4 : (-(-((c + 1 : Nat) : Int) - 1)).toNat = c + 2 := by
      have : (-(-((c + 1 : Nat) : Int) - 1)) = ((c + 2 : Nat) : Int) := by push_cast; ring
      rw [this]; exact Int.toNat_natCast _
    rw [e1, e2]
    have hp : 2 ^ (ln + (c + 1)) = 2 ^ ln * 2 ^ (c + 1) := pow_add 2 ln (c + 1)
    rw [hp] at hd1 hd2
    have hp2 : (2 : Nat) ^ (c + 2) = 2 * 2 ^ (c + 1) := by rw [pow_succ]; ring
    split_ifs with hT
    · rw [e1, e2]
      refine ⟨hT, ?_⟩
      simp only [pow_zero, mul_one] at hT ⊢
      have : n * 2 ^ (c + 1) < 2 * 2 ^ ln * 2 ^ (c + 1) :=
        Nat.mul_lt_mul_of_pos_right hn2 (by positivity)
      nlinarith
    · rw [e3, e4, hp2]
      simp only [pow_zero, mul_one] at hT ⊢
      constructor
      · have : 2 ^ ln * 2 ^ (c + 1) ≤ n * 2 ^ (c + 1) := Nat.mul_le_mul_right _ hn1
        nlinarith
      · nlinarith
  · -- ld ≤ ln
    obtain ⟨c, rfl⟩ : ∃ c, ln = ld + c := ⟨ln - ld, by omega⟩
    have ha : (((ld + c : Nat) : Int) - (ld : Int)) = (c : Int) := by push_cast; ring
    rw [ha]
    have e1 : ((c : Int)).toNat = c := Int.toNat_natCast _
    have e2 : (-(c : Int)).toNat = 0 := by rw [Int.toNat_eq_zero]; omega
    rw [e1, e2]
    have hp : 2 ^ (ld + c) = 2 ^ ld * 2 ^ c := pow_add 2 ld c
    rw [hp] at hn1 hn2
    split_ifs with hT
    · rw [e1, e2]
      refine ⟨hT, ?_⟩
      simp only [pow_zero, mul_one] at hT ⊢
      have : 2 ^ ld * 2 ^ c ≤ d * 2 ^ c := Nat.mul_le_mul_right _ hd1
      nlinarith
    · simp only [pow_zero, mul_one, not_le] at hT
      cases c with
      | zero =>
        have e3 : (((0 : Nat) : Int) - 1).toNat = 0 := by decide
        have e4 : (-(((0 : Nat) : Int) - 1)).toNat = 1 := by decide
        rw [e3, e4]
        simp only [pow_zero, mul_one, pow_one] at hT hn1 hn2 ⊢
        constructor <;> omega
      | succ c =>
        have e3 : (((c + 1 : Nat) : Int) - 1).toNat = c := by
          have : (((c + 1 : Nat) : Int) - 1) = (c : Int) := by push_cast; ring
          rw [this]; exact Int.toNat_natCast _
        have e4 : (-(((c + 1 : Nat) : Int) - 1)).toNat = 0 := by
          rw [Int.toNat_eq_zero]; push_cast; omega
        rw [e3, e4]
        have hp2 : (2 : Nat) ^ (c + 1) = 2 * 2 ^ c := by rw [pow_succ]; ring
        rw [hp2] at hT hn1 hn2
        simp only [pow_zero, mul_one]
        constructor
        · have : d * 2 ^ c < 2 * 2 ^ ld * 2 ^ c :=
            Nat.mul_lt_mul_of_pos_right hd2 (by positivity)
          nlinarith
        · nlinarith

theorem roundHalfEven_lower (N D : Nat) (hD : 0 < D) :
    2 * (roundHalfEven N D * D) ≤ 2 * N + D := by
  have h := Nat.div_add_mod N D
  have hr := Nat.mod_lt N hD
  unfold roundHalfEven
  simp only
  generalize N / D = q at h ⊢
  generalize N % D = r at h hr ⊢
  have hq : D * q = q * D := Nat.mul_comm _ _
  split_ifs <;> nlinarith

theorem roundHalfEven_upper (N D : Nat) (hD : 0 < D) :
    2 * N ≤ 2 * (roundHalfEven N D * D) + D := by
  have h := Nat.div_add_mod N D
  have hr := Nat.mod_lt N hD
  unfold roundHalfEven
  simp only
  generalize N / D = q at h ⊢
  generalize N % D = r at h hr ⊢
  have hq : D * q = q * D := Nat.mul_comm _ _
  split_ifs <;> nlinarith

theorem roundHalfEven_le (N D K : Nat) (hD : 0 < D) (h : N ≤ K * D) :
    roundHalfEven N D ≤ K := by
  have hdm := Nat.div_add_mod N D
  have hr := Nat.mod_lt N hD
  have hq : N / D ≤ K := by
    calc N / D ≤ K * D / D := Nat.div_le_div_right h
      _ = K := Nat.mul_div_cancel K hD
  unfold roundHalfEven
  simp only
  rcases Nat.lt_or_ge (N / D) K with hlt | hge
  · split_ifs <;> omega
  · have hqK : N / D = K := by omega
    have hr0 : N % D = 0 := by
      rw [hqK] at hdm
      have : D * K = K * D := Nat.mul_comm _ _
      omega
    rw [hr0, if_pos (by omega), hqK]

theorem roundHalfEven_le_even (N D K : Nat) (hD : 0 < D) (hK : K % 2 = 0)
    (h : 2 * N ≤ (2 * K + 1) * D) : roundHalfEven N D ≤ K := by
  have hdm := Nat.div_add_mod N D
  have hr := Nat.mod_lt N hD
  have hq : N / D ≤ K := by
    have : N < (K + 1) * D := by nlinarith
    have := (Nat.div_lt_iff_lt_mul hD).2 this
    omega
  unfold roundHalfEven
  simp only
  rcases Nat.lt_or_ge (N / D) K with hlt | hge
  · split_ifs <;> omega
  · have hqK : N / D = K := by omega
    have hr2 : 2 * (N % D) ≤ D := by
      rw [hqK] at hdm
      nlinarith
    rw [hqK]
    split_ifs <;> omega

theorem roundHalfEven_one (N : Nat) : roundHalfEven N 1 = N := by
  unfold roundHalfEven
  simp [Nat.mod_one]

theorem roundHalfEven_mono (N1 N2 D : Nat) (hD : 0 < D) (h : N1 ≤ N2) :
    roundHalfEven N1 D ≤ roundHalfEven N2 D := by
  by_contra hc
  have hlt : roundHalfEven N2 D + 1 ≤ roundHalfEven N1 D := by omega
  have h1 := roundHalfEven_lower N1 D hD
  have h2 := roundHalfEven_upper N2 D hD
  have h3 : (roundHalfEven N2 D + 1) * D ≤ roundHalfEven N1 D * D := Nat.mul_le_mul_right D hlt
  have hN : N1 = N2 := by nlinarith
  subst hN
  omega

theorem natPow_toNat (a : Int) : ((2 ^ a.toNat : Nat) : ℚ) = (2 : ℚ) ^ ((a.toNat : Int)) := by
  push_cast
  rw [zpow_natCast]

theorem two_zpow_split (a : Int) :
    ((2 ^ a.toNat : Nat) : ℚ) / ((2 ^ (-a).toNat : Nat) : ℚ) = (2 : ℚ) ^ a := by
  rw [natPow_toNat, natPow_toNat, ← zpow_sub₀ (by norm_num : (2 : ℚ) ≠ 0),
    Int.toNat_sub_toNat_neg]

theorem Number.toRat_eq (x : Number) : x.toRat = signOf x.neg * (x.m : ℚ) * (2 : ℚ) ^ x.e := by
  unfold Number.toRat signOf
  rw [← two_zpow_split x.e]
  push_cast
  ring

/-- The bounds `2^L ≤ n / d < 2^(L+1)` of `floorLog2Ratio`, over the rationals. -/
theorem floorLog2Ratio_rat (n d : Nat) (hn : n ≠ 0) (hd : d ≠ 0) :
    (2 : ℚ) ^ floorLog2Ratio n d ≤ (n : ℚ) / d ∧
    (n : ℚ) / d < (2 : ℚ) ^ (floorLog2Ratio n d + 1) := by
  obtain ⟨h1, h2⟩ := floorLog2Ratio_bounds n d hn hd
  have hdq : (0 : ℚ) < d := by exact_mod_cast Nat.pos_of_ne_zero hd
  have hQ : (0 : ℚ) < ((2 ^ (-(floorLog2Ratio n d)).toNat : Nat) : ℚ) := by
    exact_mod_cast Nat.pos_of_ne_zero (by positivity)
  have h1q : (d : ℚ) * ((2 ^ (floorLog2Ratio n d).toNat : Nat) : ℚ) ≤
      (n : ℚ) * ((2 ^ (-(floorLog2Ratio n d)).toNat : Nat) : ℚ) := by exact_mod_cast h1
  have h2q : (n : ℚ) * ((2 ^ (-(floorLog2Ratio n d)).toNat : Nat) : ℚ) <
      2 * ((d : ℚ) * ((2 ^ (floorLog2Ratio n d).toNat : Nat) : ℚ)) := by exact_mod_cast h2
  rw [zpow_add_one₀ (by norm_num : (2 : ℚ) ≠ 0), ← two_zpow_split (floorLog2Ratio n d)]
  generalize ((2 ^ (-(floorLog2Ratio n d)).toNat : Nat) : ℚ) = Q at hQ h1q h2q ⊢
  generalize ((2 ^ (floorLog2Ratio n d).toNat : Nat) : ℚ) = P at h1q h2q ⊢
  constructor
  · rw [div_le_div_iff₀ hQ hdq]
    linarith
  · rw [div_mul_eq_mul_div, div_lt_div_iff₀ hdq hQ]
    linarith

theorem roundHalfEven_ge (N D K : Nat) (hD : 0 < D) (h : K * D ≤ N) :
    K ≤ roundHalfEven N D := by
  have hq : K ≤ N / D := (Nat.le_div_iff_mul_le hD).2 h
  unfold roundHalfEven
  simp only
  split_ifs <;> omega

theorem roundRatio_eq (neg : Bool) (n d : Nat) (hn : n ≠ 0) :
    roundRatio neg n d =
      if roundSignificand n d = 0 then ⟨neg, 0, 0⟩
      else if roundSignificand n d = 2 ^ 53 then ⟨neg, 2 ^ 52, roundExponent n d + 1⟩
      else ⟨neg, roundSignificand n d, roundExponent n d⟩ := by
  unfold roundRatio
  rw [if_neg hn]
  rfl

theorem roundRatio_zero (neg : Bool) (d : Nat) : roundRatio neg 0 d = ⟨neg, 0, 0⟩ := by
  unfold roundRatio
  rw [if_pos rfl]

/-- The value of `roundRatio neg n d` is its significand at its exponent. -/
theorem toRat_roundRatio (neg : Bool) (n d : Nat) (hn : n ≠ 0) :
    (roundRatio neg n d).toRat =
      signOf neg * (roundSignificand n d : ℚ) * (2 : ℚ) ^ roundExponent n d := by
  rw [Number.toRat_eq, roundRatio_eq neg n d hn]
  split_ifs with h0 h53
  · simp [h0]
  · rw [h53]
    simp only
    rw [zpow_add_one₀ (by norm_num : (2 : ℚ) ≠ 0)]
    push_cast
    ring
  · rfl

theorem toRat_roundRatio_zero (neg : Bool) (d : Nat) : (roundRatio neg 0 d).toRat = 0 := by
  rw [roundRatio_zero, Number.toRat_eq]
  simp

theorem roundRatio_neg_field (neg : Bool) (n d : Nat) : (roundRatio neg n d).neg = neg := by
  unfold roundRatio
  simp only
  split_ifs <;> rfl

theorem roundRatio_abs (neg : Bool) (n d : Nat) :
    (roundRatio neg n d).abs = roundRatio false n d := by
  unfold roundRatio Number.abs
  simp only
  split_ifs <;> rfl

/-- The quotient that `roundSignificand` rounds is `n / d` scaled by `2^(-e)`. -/
theorem significand_ratio (n d : Nat) :
    ((n * 2 ^ (-(roundExponent n d)).toNat : Nat) : ℚ) /
        ((d * 2 ^ (roundExponent n d).toNat : Nat) : ℚ) =
      (n : ℚ) / d * (2 : ℚ) ^ (-(roundExponent n d)) := by
  have h := two_zpow_split (-(roundExponent n d))
  rw [neg_neg] at h
  rw [← h]
  push_cast
  rw [mul_div_mul_comm]

theorem significand_den_pos (n d : Nat) (hd : d ≠ 0) :
    0 < d * 2 ^ (roundExponent n d).toNat :=
  Nat.mul_pos (Nat.pos_of_ne_zero hd) (by positivity)

theorem roundSignificand_le (n d K : Nat) (hd : d ≠ 0)
    (h : (n : ℚ) / d * (2 : ℚ) ^ (-(roundExponent n d)) ≤ K) : roundSignificand n d ≤ K := by
  have hD := significand_den_pos n d hd
  apply roundHalfEven_le _ _ _ hD
  rw [← significand_ratio n d, div_le_iff₀ (by exact_mod_cast hD)] at h
  exact_mod_cast h

theorem roundSignificand_ge (n d K : Nat) (hd : d ≠ 0)
    (h : (K : ℚ) ≤ (n : ℚ) / d * (2 : ℚ) ^ (-(roundExponent n d))) :
    K ≤ roundSignificand n d := by
  have hD := significand_den_pos n d hd
  apply roundHalfEven_ge _ _ _ hD
  rw [← significand_ratio n d, le_div_iff₀ (by exact_mod_cast hD)] at h
  exact_mod_cast h

theorem roundSignificand_le_even (n d K : Nat) (hd : d ≠ 0) (hK : K % 2 = 0)
    (h : (n : ℚ) / d * (2 : ℚ) ^ (-(roundExponent n d)) ≤ K + 1 / 2) :
    roundSignificand n d ≤ K := by
  have hD := significand_den_pos n d hd
  apply roundHalfEven_le_even _ _ _ hD hK
  rw [← significand_ratio n d, div_le_iff₀ (by exact_mod_cast hD)] at h
  have h2 : (2 : ℚ) * ((n * 2 ^ (-(roundExponent n d)).toNat : Nat) : ℚ) ≤
      (2 * (K : ℚ) + 1) * ((d * 2 ^ (roundExponent n d).toNat : Nat) : ℚ) := by linarith
  exact_mod_cast h2

theorem roundSignificand_err (n d : Nat) (hd : d ≠ 0) :
    (roundSignificand n d : ℚ) ≤ (n : ℚ) / d * (2 : ℚ) ^ (-(roundExponent n d)) + 1 / 2 := by
  have hD := significand_den_pos n d hd
  have h := roundHalfEven_lower (n * 2 ^ (-(roundExponent n d)).toNat)
    (d * 2 ^ (roundExponent n d).toNat) hD
  have hq : (2 : ℚ) * ((roundSignificand n d : ℚ) *
      ((d * 2 ^ (roundExponent n d).toNat : Nat) : ℚ)) ≤
      2 * ((n * 2 ^ (-(roundExponent n d)).toNat : Nat) : ℚ) +
        ((d * 2 ^ (roundExponent n d).toNat : Nat) : ℚ) := by
    unfold roundSignificand
    exact_mod_cast h
  rw [← significand_ratio n d]
  have hDq : (0 : ℚ) < ((d * 2 ^ (roundExponent n d).toNat : Nat) : ℚ) := by exact_mod_cast hD
  generalize ((d * 2 ^ (roundExponent n d).toNat : Nat) : ℚ) = D at hq hDq ⊢
  generalize ((n * 2 ^ (-(roundExponent n d)).toNat : Nat) : ℚ) = N at hq ⊢
  rw [← sub_le_iff_le_add, le_div_iff₀ hDq]
  linarith

theorem zpow_neg_of_nonpos (E : Int) (hE : E ≤ 0) :
    (2 : ℚ) ^ (-E) = ((2 ^ (-E).toNat : Nat) : ℚ) := by
  rw [natPow_toNat, Int.toNat_of_nonneg (by omega)]

theorem two_zpow_pos (a : Int) : (0 : ℚ) < (2 : ℚ) ^ a := zpow_pos (by norm_num) a

theorem two_zpow_mul_neg (a : Int) : (2 : ℚ) ^ (-a) * (2 : ℚ) ^ a = 1 := by
  rw [← zpow_add₀ (by norm_num : (2 : ℚ) ≠ 0)]
  simp

theorem two_zpow_lt (a b : Int) (h : (2 : ℚ) ^ a < (2 : ℚ) ^ b) : a < b :=
  (zpow_lt_zpow_iff_right₀ (by norm_num : (1 : ℚ) < 2)).1 h

/-- Rounding does not cross an integer below `2^53`: when `n / d ≤ K`, the Number
nearest to `n / d` is at most `K`. -/
theorem roundRatio_le (n d K : Nat) (hd : d ≠ 0) (hK : K < 2 ^ 53)
    (h : (n : ℚ) / d ≤ K) : (roundRatio false n d).toRat ≤ K := by
  by_cases hn : n = 0
  · subst hn
    rw [toRat_roundRatio_zero]
    exact Nat.cast_nonneg K
  obtain ⟨hL, -⟩ := floorLog2Ratio_rat n d hn hd
  have hKq : (K : ℚ) < (2 : ℚ) ^ (53 : Int) := by
    have : ((K : Nat) : ℚ) < ((2 ^ 53 : Nat) : ℚ) := by exact_mod_cast hK
    rw [show ((2 : ℚ) ^ (53 : Int)) = ((2 ^ 53 : Nat) : ℚ) by norm_num]
    exact this
  have hL53 : floorLog2Ratio n d < 53 := two_zpow_lt _ _ (lt_of_le_of_lt (le_trans hL h) hKq)
  have hE : roundExponent n d ≤ 0 := by
    unfold roundExponent
    omega
  have hM : roundSignificand n d ≤ K * 2 ^ (-(roundExponent n d)).toNat := by
    apply roundSignificand_le n d _ hd
    rw [Nat.cast_mul, ← zpow_neg_of_nonpos _ hE]
    exact mul_le_mul_of_nonneg_right h (le_of_lt (two_zpow_pos _))
  have hMq : (roundSignificand n d : ℚ) ≤ (K : ℚ) * (2 : ℚ) ^ (-(roundExponent n d)) := by
    rw [zpow_neg_of_nonpos _ hE]
    exact_mod_cast hM
  rw [toRat_roundRatio false n d hn]
  unfold signOf
  simp only [Bool.false_eq_true, if_false, one_mul]
  calc (roundSignificand n d : ℚ) * (2 : ℚ) ^ roundExponent n d
      ≤ (K : ℚ) * (2 : ℚ) ^ (-(roundExponent n d)) * (2 : ℚ) ^ roundExponent n d :=
        mul_le_mul_of_nonneg_right hMq (le_of_lt (two_zpow_pos _))
    _ = K := by rw [mul_assoc, two_zpow_mul_neg, mul_one]

/-- The rounding error of a quotient below 1 is at most `2^-54`. -/
theorem roundRatio_err (n d : Nat) (h : n < d) :
    (roundRatio false n d).toRat ≤ (n : ℚ) / d + 1 / 2 ^ 54 := by
  have hd : d ≠ 0 := by omega
  have hdq : (0 : ℚ) < d := by exact_mod_cast Nat.pos_of_ne_zero hd
  by_cases hn : n = 0
  · subst hn
    rw [toRat_roundRatio_zero]
    simp
  obtain ⟨hL, -⟩ := floorLog2Ratio_rat n d hn hd
  have hr : (n : ℚ) / d < (2 : ℚ) ^ (0 : Int) := by
    rw [zpow_zero, div_lt_one hdq]
    exact_mod_cast h
  have hL0 : floorLog2Ratio n d < 0 := two_zpow_lt _ _ (lt_of_le_of_lt hL hr)
  have hE : roundExponent n d ≤ -53 := by
    unfold roundExponent
    omega
  have hpow : (2 : ℚ) ^ roundExponent n d ≤ 1 / 2 ^ 53 := by
    have := zpow_le_zpow_right₀ (by norm_num : (1 : ℚ) ≤ 2) hE
    rw [show ((2 : ℚ) ^ (-53 : Int)) = 1 / 2 ^ 53 by norm_num] at this
    exact this
  have hM := roundSignificand_err n d hd
  rw [toRat_roundRatio false n d hn]
  unfold signOf
  simp only [Bool.false_eq_true, if_false, one_mul]
  have hpos := two_zpow_pos (roundExponent n d)
  calc (roundSignificand n d : ℚ) * (2 : ℚ) ^ roundExponent n d
      ≤ ((n : ℚ) / d * (2 : ℚ) ^ (-(roundExponent n d)) + 1 / 2) * (2 : ℚ) ^ roundExponent n d :=
        mul_le_mul_of_nonneg_right hM (le_of_lt hpos)
    _ = (n : ℚ) / d + (2 : ℚ) ^ roundExponent n d / 2 := by
        rw [add_mul, mul_assoc, two_zpow_mul_neg]
        ring
    _ ≤ (n : ℚ) / d + 1 / 2 ^ 54 := by
        have : (2 : ℚ) ^ roundExponent n d / 2 ≤ 1 / 2 ^ 53 / 2 :=
          div_le_div_of_nonneg_right hpow (by norm_num)
        have e : (1 : ℚ) / 2 ^ 53 / 2 = 1 / 2 ^ 54 := by norm_num
        linarith

/-- A quotient of at most `1 + 2^-53` rounds to a Number of at most 1: the tie falls to
the even significand. -/
theorem roundRatio_le_one (n d : Nat) (hd : d ≠ 0) (h : (n : ℚ) / d ≤ 1 + 1 / 2 ^ 53) :
    (roundRatio false n d).toRat ≤ 1 := by
  rcases le_or_lt ((n : ℚ) / d) 1 with h1 | h1
  · have := roundRatio_le n d 1 hd (by norm_num) (by simpa using h1)
    simpa using this
  have hn : n ≠ 0 := by
    rintro rfl
    simp at h1
    linarith
  obtain ⟨hL, hU⟩ := floorLog2Ratio_rat n d hn hd
  have hlo : floorLog2Ratio n d < 1 := by
    apply two_zpow_lt
    refine lt_of_le_of_lt (le_trans hL h) ?_
    norm_num
  have hhi : 0 < floorLog2Ratio n d + 1 := by
    apply two_zpow_lt
    rw [zpow_zero]
    exact lt_trans h1 hU
  have hE : roundExponent n d = -52 := by
    unfold roundExponent
    omega
  have hM : roundSignificand n d ≤ 2 ^ 52 := by
    apply roundSignificand_le_even n d _ hd (by norm_num)
    rw [hE]
    norm_num
    linarith
  have hMq : (roundSignificand n d : ℚ) ≤ 2 ^ 52 := by exact_mod_cast hM
  rw [toRat_roundRatio false n d hn, hE]
  unfold signOf
  simp only [Bool.false_eq_true, if_false, one_mul]
  norm_num
  linarith

/-- An integer below `2^53` is a Number exactly. -/
theorem roundRatio_exact (neg : Bool) (n : Nat) (h : n < 2 ^ 53) :
    (roundRatio neg n 1).toRat = signOf neg * n := by
  by_cases hn : n = 0
  · subst hn
    rw [toRat_roundRatio_zero]
    simp
  obtain ⟨hL, hU⟩ := floorLog2Ratio_rat n 1 hn (by decide)
  simp only [Nat.cast_one, div_one] at hL hU
  have hnq : (n : ℚ) < (2 : ℚ) ^ (53 : Int) := by
    have : ((n : Nat) : ℚ) < ((2 ^ 53 : Nat) : ℚ) := by exact_mod_cast h
    rw [show ((2 : ℚ) ^ (53 : Int)) = ((2 ^ 53 : Nat) : ℚ) by norm_num]
    exact this
  have hlo : floorLog2Ratio n 1 < 53 := two_zpow_lt _ _ (lt_of_le_of_lt hL hnq)
  have h1 : (1 : ℚ) ≤ n := by exact_mod_cast Nat.pos_of_ne_zero hn
  have hhi : 0 < floorLog2Ratio n 1 + 1 := by
    apply two_zpow_lt
    rw [zpow_zero]
    exact lt_of_le_of_lt h1 hU
  have hE : roundExponent n 1 ≤ 0 := by
    unfold roundExponent
    omega
  have hr : (n : ℚ) / (1 : Nat) * (2 : ℚ) ^ (-(roundExponent n 1)) =
      ((n * 2 ^ (-(roundExponent n 1)).toNat : Nat) : ℚ) := by
    rw [zpow_neg_of_nonpos _ hE]
    push_cast
    ring
  have hM : roundSignificand n 1 = n * 2 ^ (-(roundExponent n 1)).toNat := by
    apply Nat.le_antisymm
    · exact roundSignificand_le n 1 _ (by decide) (le_of_eq hr)
    · exact roundSignificand_ge n 1 _ (by decide) (le_of_eq hr.symm)
  rw [toRat_roundRatio neg n 1 hn, hM, Nat.cast_mul, ← zpow_neg_of_nonpos _ hE, mul_assoc,
    mul_assoc, two_zpow_mul_neg, mul_one]

theorem Number.toRat_abs (x : Number) : x.toRat = signOf x.neg * x.abs.toRat := by
  rw [Number.toRat_eq, Number.toRat_eq]
  unfold Number.abs signOf
  simp only [Bool.false_eq_true, if_false, one_mul]
  ring

theorem Number.toRat_abs_nonneg (x : Number) : 0 ≤ x.abs.toRat := by
  rw [Number.toRat_eq]
  unfold Number.abs signOf
  simp only [Bool.false_eq_true, if_false, one_mul]
  exact mul_nonneg (Nat.cast_nonneg _) (le_of_lt (two_zpow_pos _))

theorem Number.toRat_of_not_neg (x : Number) (h : x.neg = false) : x.toRat = x.abs.toRat := by
  rw [Number.toRat_abs x, h]
  unfold signOf
  simp

theorem Number.toRat_abs_eq (x : Number) : x.abs.toRat = (x.m : ℚ) * (2 : ℚ) ^ x.e := by
  rw [Number.toRat_eq]
  unfold Number.abs signOf
  simp

/-- The scaled integer of a Number is its value over `2^emin`. -/
theorem Number.scaled_rat (x : Number) (emin : Int) (h : emin ≤ x.e) :
    ((x.scaled emin : Int) : ℚ) * (2 : ℚ) ^ emin = x.toRat := by
  rw [Number.toRat_eq]
  unfold Number.scaled signOf
  have hp : ((2 ^ (x.e - emin).toNat : Nat) : ℚ) * (2 : ℚ) ^ emin = (2 : ℚ) ^ x.e := by
    rw [natPow_toNat, Int.toNat_of_nonneg (by omega), ← zpow_add₀ (by norm_num : (2 : ℚ) ≠ 0)]
    congr 1
    omega
  rw [← hp]
  split_ifs <;> push_cast <;> ring

/-- The quotient that `Number.div` rounds is the quotient of the two magnitudes. -/
theorem Number.div_ratio (x y : Number) :
    ((x.m * 2 ^ (x.e - y.e).toNat : Nat) : ℚ) / ((y.m * 2 ^ (y.e - x.e).toNat : Nat) : ℚ) =
      x.abs.toRat / y.abs.toRat := by
  rw [Number.toRat_abs_eq, Number.toRat_abs_eq]
  have h := two_zpow_split (x.e - y.e)
  rw [neg_sub] at h
  have h2 : (2 : ℚ) ^ x.e / (2 : ℚ) ^ y.e = (2 : ℚ) ^ (x.e - y.e) :=
    (zpow_sub₀ (by norm_num : (2 : ℚ) ≠ 0) _ _).symm
  rw [mul_div_mul_comm, h2, ← h]
  push_cast
  rw [mul_div_mul_comm]

/-- The quotient that `Number.mul` rounds is the product of the two magnitudes. -/
theorem Number.mul_ratio (x y : Number) :
    ((x.m * y.m * 2 ^ (x.e + y.e).toNat : Nat) : ℚ) / ((2 ^ (-(x.e + y.e)).toNat : Nat) : ℚ) =
      x.abs.toRat * y.abs.toRat := by
  rw [Number.toRat_abs_eq, Number.toRat_abs_eq]
  have h := two_zpow_split (x.e + y.e)
  rw [zpow_add₀ (by norm_num : (2 : ℚ) ≠ 0)] at h
  rw [Nat.cast_mul, mul_div_assoc, h]
  push_cast
  ring

theorem natPow_ne_zero (k : Nat) : (2 : Nat) ^ k ≠ 0 := by positivity

/-- The sum of two Numbers that are not negative is the rounding of the exact sum. -/
theorem Number.add_nonneg_eq (x y : Number) (hx : x.neg = false) (hy : y.neg = false) :
    ∃ n d : Nat, d ≠ 0 ∧ Number.add x y = roundRatio false n d ∧
      (n : ℚ) / d = x.toRat + y.toRat := by
  have hsx := Number.scaled_rat x (min x.e y.e) (min_le_left _ _)
  have hsy := Number.scaled_rat y (min x.e y.e) (min_le_right _ _)
  have hnx : 0 ≤ x.scaled (min x.e y.e) := by
    unfold Number.scaled
    rw [hx]
    simp only [Bool.false_eq_true, if_false, one_mul]
    exact Int.natCast_nonneg _
  have hny : 0 ≤ y.scaled (min x.e y.e) := by
    unfold Number.scaled
    rw [hy]
    simp only [Bool.false_eq_true, if_false, one_mul]
    exact Int.natCast_nonneg _
  have hsum : (((x.scaled (min x.e y.e) + y.scaled (min x.e y.e) : Int)) : ℚ) *
      (2 : ℚ) ^ (min x.e y.e) = x.toRat + y.toRat := by
    rw [Int.cast_add, add_mul, hsx, hsy]
  by_cases hs : x.scaled (min x.e y.e) + y.scaled (min x.e y.e) = 0
  · refine ⟨0, 1, by decide, ?_, ?_⟩
    · unfold Number.add
      simp only
      rw [if_pos hs, roundRatio_zero, hx, hy]
      rfl
    · rw [hs] at hsum
      rw [← hsum]
      simp
  · refine ⟨(x.scaled (min x.e y.e) + y.scaled (min x.e y.e)).natAbs * 2 ^ (min x.e y.e).toNat,
      2 ^ (-(min x.e y.e)).toNat, natPow_ne_zero _, ?_, ?_⟩
    · unfold Number.add
      simp only
      rw [if_neg hs]
      have : decide (x.scaled (min x.e y.e) + y.scaled (min x.e y.e) < 0) = false := by
        rw [decide_eq_false_iff_not]
        omega
      rw [this]
    · rw [← hsum, ← two_zpow_split (min x.e y.e)]
      have habs : (((x.scaled (min x.e y.e) + y.scaled (min x.e y.e)).natAbs : Nat) : ℚ) =
          (((x.scaled (min x.e y.e) + y.scaled (min x.e y.e) : Int)) : ℚ) := by
        obtain ⟨k, hk⟩ := Int.eq_ofNat_of_zero_le
          (by omega : 0 ≤ x.scaled (min x.e y.e) + y.scaled (min x.e y.e))
        rw [hk]
        simp
      rw [Nat.cast_mul, habs, mul_div_assoc]

/-- The function `Math.round` is the floor of the value plus one half. -/
theorem Number.round_eq_floor (x : Number) : Number.round x = ⌊x.toRat + 1 / 2⌋ := by
  have hs := Number.scaled_rat x (min x.e 0) (min_le_left _ _)
  have hD : ((2 ^ (-x.e).toNat : Nat) : ℚ) = (2 : ℚ) ^ (-(min x.e 0)) := by
    rw [natPow_toNat]
    congr 1
    omega
  have hDpos : (0 : ℚ) < ((2 ^ (-x.e).toNat : Nat) : ℚ) := by
    exact_mod_cast Nat.pos_of_ne_zero (natPow_ne_zero _)
  have hval : x.toRat + 1 / 2 =
      (((2 * x.scaled (min x.e 0) + ((2 ^ (-x.e).toNat : Nat) : Int) : Int)) : ℚ) /
        (((2 * 2 ^ (-x.e).toNat : Nat)) : ℚ) := by
    rw [eq_div_iff (by positivity)]
    push_cast
    have h1 : x.toRat * (2 : ℚ) ^ (-(min x.e 0)) = ((x.scaled (min x.e 0) : Int) : ℚ) := by
      rw [← hs, mul_assoc, mul_comm ((2 : ℚ) ^ (min x.e 0)), two_zpow_mul_neg, mul_one]
    rw [← h1]
    have hD2 : ((2 : ℚ) ^ (-x.e).toNat) = (2 : ℚ) ^ (-(min x.e 0)) := by
      rw [← hD]
      push_cast
      rfl
    rw [hD2]
    ring
  rw [hval, Rat.floor_intCast_div_natCast]
  unfold Number.round
  push_cast
  rfl

theorem Number.scaled_lt_iff (x y : Number) :
    x.scaled (min x.e y.e) < y.scaled (min x.e y.e) ↔ x.toRat < y.toRat := by
  rw [← Number.scaled_rat x (min x.e y.e) (min_le_left _ _),
    ← Number.scaled_rat y (min x.e y.e) (min_le_right _ _),
    mul_lt_mul_right (two_zpow_pos _)]
  exact Int.cast_lt.symm

theorem Number.scaled_lt_iff_swap (x y : Number) :
    y.scaled (min x.e y.e) < x.scaled (min x.e y.e) ↔ y.toRat < x.toRat := by
  rw [← Number.scaled_rat x (min x.e y.e) (min_le_left _ _),
    ← Number.scaled_rat y (min x.e y.e) (min_le_right _ _),
    mul_lt_mul_right (two_zpow_pos _)]
  exact Int.cast_lt.symm

/-- The value of `mathMin` is the lesser of the two values. -/
theorem toRat_mathMin (x y : Number) : (mathMin x y).toRat = min x.toRat y.toRat := by
  have h1 := Number.scaled_lt_iff x y
  have h2 := Number.scaled_lt_iff_swap x y
  unfold mathMin
  by_cases c1 : x.scaled (min x.e y.e) < y.scaled (min x.e y.e)
  · rw [if_pos c1]
    exact (min_eq_left (le_of_lt (h1.1 c1))).symm
  · rw [if_neg c1]
    by_cases c2 : y.scaled (min x.e y.e) < x.scaled (min x.e y.e)
    · rw [if_pos c2]
      exact (min_eq_right (le_of_lt (h2.1 c2))).symm
    · rw [if_neg c2]
      have e1 : ¬ x.toRat < y.toRat := fun h => c1 (h1.2 h)
      have e2 : ¬ y.toRat < x.toRat := fun h => c2 (h2.2 h)
      split_ifs
      · exact (min_eq_left (not_lt.1 e2)).symm
      · exact (min_eq_right (not_lt.1 e1)).symm

theorem natAbs_cast_rat (i : Int) : ((i.natAbs : Nat) : ℚ) = |(i : ℚ)| := by
  rw [Nat.cast_natAbs, Int.cast_abs]

theorem Number.toRat_ofInt (i : Int) (h : i.natAbs < 2 ^ 53) : (Number.ofInt i).toRat = i := by
  unfold Number.ofInt
  rw [roundRatio_exact _ _ h, natAbs_cast_rat]
  unfold signOf
  by_cases hi : i < 0
  · rw [decide_eq_true hi, if_pos rfl, abs_of_neg (by exact_mod_cast hi)]
    ring
  · rw [decide_eq_false hi, abs_of_nonneg (by exact_mod_cast (not_lt.1 hi))]
    simp

theorem Number.toRat_hundred : (Number.ofInt 100).toRat = 100 := by
  rw [Number.toRat_ofInt 100 (by decide)]
  norm_num

theorem floor_min (a b : ℚ) : ⌊min a b⌋ = min ⌊a⌋ ⌊b⌋ :=
  Monotone.map_min (fun _ _ h => Int.floor_mono h)

/-- Capping a Number at 100 and rounding it commute. -/
theorem round_mathMin_hundred (v : Number) :
    Number.round (mathMin (Number.ofInt 100) v) = min 100 (Number.round v) := by
  rw [Number.round_eq_floor, Number.round_eq_floor, toRat_mathMin, Number.toRat_hundred,
    ← min_add_add_right, floor_min]
  congr 1
  rw [Int.floor_eq_iff]
  norm_num

theorem toRat_roundRatio_nonneg (n d : Nat) : 0 ≤ (roundRatio false n d).toRat := by
  have h := Number.toRat_abs_nonneg (roundRatio false n d)
  rw [roundRatio_abs] at h
  exact h

theorem two_zpow_le (a b : Int) (h : a ≤ b) : (2 : ℚ) ^ a ≤ (2 : ℚ) ^ b :=
  zpow_le_zpow_right₀ (by norm_num) h

/-- Rounding is monotone in the numerator. -/
theorem roundRatio_mono (n1 n2 d : Nat) (hd : d ≠ 0) (h : n1 ≤ n2) :
    (roundRatio false n1 d).toRat ≤ (roundRatio false n2 d).toRat := by
  by_cases hn1 : n1 = 0
  · subst hn1
    rw [toRat_roundRatio_zero]
    exact toRat_roundRatio_nonneg n2 d
  have hn2 : n2 ≠ 0 := by omega
  have hdq : (0 : ℚ) < d := by exact_mod_cast Nat.pos_of_ne_zero hd
  obtain ⟨hL1, hU1⟩ := floorLog2Ratio_rat n1 d hn1 hd
  obtain ⟨hL2, hU2⟩ := floorLog2Ratio_rat n2 d hn2 hd
  have hr : (n1 : ℚ) / d ≤ (n2 : ℚ) / d :=
    div_le_div_of_nonneg_right (by exact_mod_cast h) (le_of_lt hdq)
  have hL : floorLog2Ratio n1 d < floorLog2Ratio n2 d + 1 :=
    two_zpow_lt _ _ (lt_of_le_of_lt (le_trans hL1 hr) hU2)
  rw [toRat_roundRatio false n1 d hn1, toRat_roundRatio false n2 d hn2]
  unfold signOf
  simp only [Bool.false_eq_true, if_false, one_mul]
  rcases Nat.lt_or_ge 0 ((roundExponent n2 d - roundExponent n1 d).toNat) with hlt | hge
  · -- the exponent grows: a power of two lies between the two values
    have hE1 : floorLog2Ratio n1 d - 52 ≤ roundExponent n1 d := by
      unfold roundExponent
      omega
    have hE12 : roundExponent n1 d + 1 ≤ roundExponent n2 d := by omega
    have hE2 : roundExponent n2 d = floorLog2Ratio n2 d - 52 := by
      unfold roundExponent at hE12 ⊢
      omega
    have hM1 : roundSignificand n1 d ≤ 2 ^ 53 := by
      apply roundSignificand_le n1 d _ hd
      have h53 : ((2 ^ 53 : Nat) : ℚ) = (2 : ℚ) ^ (53 : Int) := by norm_num
      rw [h53]
      have hstep : (n1 : ℚ) / d * (2 : ℚ) ^ (-(roundExponent n1 d)) ≤
          (2 : ℚ) ^ (floorLog2Ratio n1 d + 1) * (2 : ℚ) ^ (-(roundExponent n1 d)) :=
        mul_le_mul_of_nonneg_right (le_of_lt hU1) (le_of_lt (two_zpow_pos _))
      refine le_trans hstep ?_
      rw [← zpow_add₀ (by norm_num : (2 : ℚ) ≠ 0)]
      exact two_zpow_le _ _ (by omega)
    have hM2 : 2 ^ 52 ≤ roundSignificand n2 d := by
      apply roundSignificand_ge n2 d _ hd
      have h52 : ((2 ^ 52 : Nat) : ℚ) = (2 : ℚ) ^ (52 : Int) := by norm_num
      rw [h52]
      have hstep : (2 : ℚ) ^ (floorLog2Ratio n2 d) * (2 : ℚ) ^ (-(roundExponent n2 d)) ≤
          (n2 : ℚ) / d * (2 : ℚ) ^ (-(roundExponent n2 d)) :=
        mul_le_mul_of_nonneg_right hL2 (le_of_lt (two_zpow_pos _))
      refine le_trans ?_ hstep
      rw [← zpow_add₀ (by norm_num : (2 : ℚ) ≠ 0)]
      exact two_zpow_le _ _ (by omega)
    have hM1q : (roundSignificand n1 d : ℚ) ≤ (2 : ℚ) ^ (53 : Int) := by
      have : ((roundSignificand n1 d : Nat) : ℚ) ≤ ((2 ^ 53 : Nat) : ℚ) := by exact_mod_cast hM1
      rw [show ((2 : ℚ) ^ (53 : Int)) = ((2 ^ 53 : Nat) : ℚ) by norm_num]
      exact this
    have hM2q : (2 : ℚ) ^ (52 : Int) ≤ (roundSignificand n2 d : ℚ) := by
      have : ((2 ^ 52 : Nat) : ℚ) ≤ ((roundSignificand n2 d : Nat) : ℚ) := by exact_mod_cast hM2
      rw [show ((2 : ℚ) ^ (52 : Int)) = ((2 ^ 52 : Nat) : ℚ) by norm_num]
      exact this
    calc (roundSignificand n1 d : ℚ) * (2 : ℚ) ^ roundExponent n1 d
        ≤ (2 : ℚ) ^ (53 : Int) * (2 : ℚ) ^ roundExponent n1 d :=
          mul_le_mul_of_nonneg_right hM1q (le_of_lt (two_zpow_pos _))
      _ = (2 : ℚ) ^ (53 + roundExponent n1 d) := (zpow_add₀ (by norm_num) _ _).symm
      _ ≤ (2 : ℚ) ^ (52 + roundExponent n2 d) := two_zpow_le _ _ (by omega)
      _ = (2 : ℚ) ^ (52 : Int) * (2 : ℚ) ^ roundExponent n2 d := zpow_add₀ (by norm_num) _ _
      _ ≤ (roundSignificand n2 d : ℚ) * (2 : ℚ) ^ roundExponent n2 d :=
          mul_le_mul_of_nonneg_right hM2q (le_of_lt (two_zpow_pos _))
  · -- the same exponent: the significands are ordered
    have hEle : roundExponent n1 d ≤ roundExponent n2 d := by
      unfold roundExponent
      omega
    have hE : roundExponent n1 d = roundExponent n2 d := by omega
    have hM : roundSignificand n1 d ≤ roundSignificand n2 d := by
      unfold roundSignificand
      rw [hE]
      exact roundHalfEven_mono _ _ _ (significand_den_pos n2 d hd)
        (Nat.mul_le_mul_right _ h)
    rw [hE]
    exact mul_le_mul_of_nonneg_right (by exact_mod_cast hM) (le_of_lt (two_zpow_pos _))

theorem Number.abs_ofInt (i : Int) : (Number.ofInt i).abs = roundRatio false i.natAbs 1 := by
  unfold Number.ofInt
  exact roundRatio_abs _ _ _

/-- The magnitude of `Number.ofInt` is monotone in the magnitude of the integer. -/
theorem Number.abs_ofInt_mono (i j : Int) (h : i.natAbs ≤ j.natAbs) :
    (Number.ofInt i).abs.toRat ≤ (Number.ofInt j).abs.toRat := by
  rw [Number.abs_ofInt, Number.abs_ofInt]
  exact roundRatio_mono _ _ 1 (by decide) h

theorem Number.abs_ofInt_pos (j : Int) (h : j ≠ 0) : 0 < (Number.ofInt j).abs.toRat := by
  have h1 : (Number.ofInt 1).abs.toRat = 1 := by
    rw [Number.abs_ofInt, roundRatio_exact false _ (by decide)]
    unfold signOf
    simp
  have hj : 0 < j.natAbs := Int.natAbs_pos.2 h
  have h2 := Number.abs_ofInt_mono 1 j (by
    rw [show (1 : Int).natAbs = 1 from rfl]
    omega)
  rw [h1] at h2
  linarith

theorem Number.div_abs (x y : Number) :
    (Number.div x y).abs =
      roundRatio false (x.m * 2 ^ (x.e - y.e).toNat) (y.m * 2 ^ (y.e - x.e).toNat) := by
  unfold Number.div
  exact roundRatio_abs _ _ _

theorem Number.m_ne_zero_of_pos (y : Number) (hy : 0 < y.abs.toRat) : y.m ≠ 0 := by
  rintro h
  rw [Number.toRat_abs_eq, h] at hy
  simp at hy

theorem Number.div_den_ne_zero (x y : Number) (hy : 0 < y.abs.toRat) :
    y.m * 2 ^ (y.e - x.e).toNat ≠ 0 :=
  Nat.mul_ne_zero (Number.m_ne_zero_of_pos y hy) (natPow_ne_zero _)

/-- A quotient of magnitudes `|x| ≤ |y|` is at most 1 in magnitude. -/
theorem Number.div_abs_le_one (x y : Number) (hy : 0 < y.abs.toRat)
    (h : x.abs.toRat ≤ y.abs.toRat) : (Number.div x y).abs.toRat ≤ 1 := by
  rw [Number.div_abs]
  have := roundRatio_le _ _ 1 (Number.div_den_ne_zero x y hy) (by norm_num) (by
    rw [Number.div_ratio, Nat.cast_one, div_le_one hy]
    exact h)
  simpa using this

/-- The rounding error of a quotient of magnitudes `|x| < |y|`. -/
theorem Number.div_abs_err (x y : Number) (h : x.abs.toRat < y.abs.toRat) :
    (Number.div x y).abs.toRat ≤ x.abs.toRat / y.abs.toRat + 1 / 2 ^ 54 := by
  have hy : 0 < y.abs.toRat := lt_of_le_of_lt (Number.toRat_abs_nonneg x) h
  have hd := Number.div_den_ne_zero x y hy
  have hdq : (0 : ℚ) < ((y.m * 2 ^ (y.e - x.e).toNat : Nat) : ℚ) := by
    exact_mod_cast Nat.pos_of_ne_zero hd
  have hlt : x.m * 2 ^ (x.e - y.e).toNat < y.m * 2 ^ (y.e - x.e).toNat := by
    have hr : ((x.m * 2 ^ (x.e - y.e).toNat : Nat) : ℚ) /
        ((y.m * 2 ^ (y.e - x.e).toNat : Nat) : ℚ) < 1 := by
      rw [Number.div_ratio, div_lt_one hy]
      exact h
    rw [div_lt_one hdq] at hr
    exact_mod_cast hr
  rw [Number.div_abs, ← Number.div_ratio]
  exact roundRatio_err _ _ hlt

theorem Number.div_neg_field (x y : Number) : (Number.div x y).neg = xor x.neg y.neg := by
  unfold Number.div
  exact roundRatio_neg_field _ _ _

theorem Number.ofInt_neg_field (i : Int) : (Number.ofInt i).neg = decide (i < 0) := by
  unfold Number.ofInt
  exact roundRatio_neg_field _ _ _

/-- No word is in two lexicons. -/
theorem lexicons_disjoint :
    (∀ w ∈ positiveWords, w ∉ negativeWords ∧ w ∉ biasWords ∧ w ∉ emotionalWords) ∧
    (∀ w ∈ negativeWords, w ∉ biasWords ∧ w ∉ emotionalWords) ∧
    (∀ w ∈ biasWords, w ∉ emotionalWords) := by
  decide!

theorem counter_step (a b c d : Bool) (p n b0 e : Nat)
    (h1 : a = true → b = false ∧ c = false ∧ d = false)
    (h2 : b = true → c = false ∧ d = false) (h3 : c = true → d = false) :
    (if a = true then p + 1 else p) + (if b = true then n + 1 else n) +
      (if c = true then b0 + 1 else b0) + (if d = true then e + 1 else e) ≤
      p + n + b0 + e + 1 := by
  cases a <;> cases b <;> cases c <;> cases d <;> simp at h1 h2 h3 ⊢ <;> omega

/-- One word raises the four counters by at most 1 in all. -/
theorem countWord_sum_le (st : Counts) (w : JSString) :
    (countWord st w).pos + (countWord st w).neg + (countWord st w).bias +
      (countWord st w).emotional ≤ st.pos + st.neg + st.bias + st.emotional + 1 := by
  obtain ⟨hp, hn, hb⟩ := lexicons_disjoint
  unfold countWord
  simp only
  apply counter_step
  · intro h
    have := hp w (by simpa using h)
    simpa using this
  · intro h
    have := hn w (by simpa using h)
    simpa using this
  · intro h
    have := hb w (by simpa using h)
    simpa using this

theorem foldl_countWord_sum_le (ws : List JSString) : ∀ st : Counts,
    (ws.foldl countWord st).pos + (ws.foldl countWord st).neg + (ws.foldl countWord st).bias +
      (ws.foldl countWord st).emotional ≤ st.pos + st.neg + st.bias + st.emotional + ws.length := by
  induction ws with
  | nil => intro st; simp
  | cons w ws ih =>
    intro st
    rw [List.foldl_cons, List.length_cons]
    have h1 := ih (countWord st w)
    have h2 := countWord_sum_le st w
    omega

/-- The four counters add up to at most the number of words. -/
theorem counts_sum_le (text : JSString) :
    (counts text).pos + (counts text).neg + (counts text).bias + (counts text).emotional ≤
      total text := by
  rw [total_eq_length]
  have := foldl_countWord_sum_le (words text) ⟨0, 0, 0, 0⟩
  unfold counts
  simpa using this

/-- The rounding error of a quotient of magnitudes `|x| ≤ |y|`. -/
theorem Number.div_abs_bound (x y : Number) (hy : 0 < y.abs.toRat)
    (h : x.abs.toRat ≤ y.abs.toRat) :
    (Number.div x y).abs.toRat ≤ x.abs.toRat / y.abs.toRat + 1 / 2 ^ 54 := by
  rcases lt_or_eq_of_le h with hlt | heq
  · exact Number.div_abs_err x y hlt
  · have h1 := Number.div_abs_le_one x y hy h
    rw [heq, div_self (ne_of_gt hy)]
    have : (0 : ℚ) ≤ 1 / 2 ^ 54 := by norm_num
    linarith

theorem Number.toRat_le_abs (x : Number) : x.toRat ≤ x.abs.toRat := by
  have h0 := Number.toRat_abs_nonneg x
  rw [Number.toRat_abs x]
  unfold signOf
  split_ifs <;> linarith

theorem Number.neg_abs_le_toRat (x : Number) : -x.abs.toRat ≤ x.toRat := by
  have h0 := Number.toRat_abs_nonneg x
  rw [Number.toRat_abs x]
  unfold signOf
  split_ifs <;> linarith

theorem Number.mul_abs (x y : Number) :
    (Number.mul x y).abs =
      roundRatio false (x.m * y.m * 2 ^ (x.e + y.e).toNat) (2 ^ (-(x.e + y.e)).toNat) := by
  unfold Number.mul
  exact roundRatio_abs _ _ _

theorem Number.abs_ofInt_exact (i : Int) (h : i.natAbs < 2 ^ 53) :
    (Number.ofInt i).abs.toRat = i.natAbs := by
  rw [Number.abs_ofInt, roundRatio_exact false _ h]
  unfold signOf
  simp

theorem total_pos (text : JSString) : 0 < total text := by
  unfold total
  split_ifs <;> omega

theorem polarity_natAbs_le (text : JSString) :
    (((counts text).pos : Int) - ((counts text).neg : Int)).natAbs ≤ ((total text : Nat) : Int).natAbs := by
  have := counts_sum_le text
  omega

theorem subjectivity_natAbs_le (text : JSString) :
    (((counts text).bias : Int) + ((counts text).emotional : Int)).natAbs ≤
      ((total text : Nat) : Int).natAbs := by
  have := counts_sum_le text
  omega

theorem total_ofInt_pos (text : JSString) : 0 < (Number.ofInt (total text)).abs.toRat := by
  apply Number.abs_ofInt_pos
  have := total_pos text
  omega

theorem polarityValue_abs_le_one (text : JSString) : (polarityValue text).abs.toRat ≤ 1 := by
  unfold polarityValue
  exact Number.div_abs_le_one _ _ (total_ofInt_pos text)
    (Number.abs_ofInt_mono _ _ (polarity_natAbs_le text))

theorem subjectivityValue_not_neg (text : JSString) : (subjectivityValue text).neg = false := by
  unfold subjectivityValue
  rw [Number.div_neg_field, Number.ofInt_neg_field, Number.ofInt_neg_field]
  have h1 : ¬ (((counts text).bias : Int) + ((counts text).emotional : Int)) < 0 := by omega
  have h2 : ¬ ((total text : Nat) : Int) < 0 := by omega
  rw [decide_eq_false h1, decide_eq_false h2]
  rfl

theorem subjectivityValue_abs_le_one (text : JSString) :
    (subjectivityValue text).abs.toRat ≤ 1 := by
  unfold subjectivityValue
  exact Number.div_abs_le_one _ _ (total_ofInt_pos text)
    (Number.abs_ofInt_mono _ _ (subjectivity_natAbs_le text))

theorem exact_ratios (p n b e t : Nat) (ht : 0 < t) (h : p + n + b + e ≤ t) :
    (-1 : ℚ) ≤ ((p : ℚ) - n) / t ∧ ((p : ℚ) - n) / t ≤ 1 ∧ (0 : ℚ) ≤ ((b : ℚ) + e) / t ∧
    ((b : ℚ) + e) / t ≤ 1 ∧ |((p : ℚ) - n) / t| + ((b : ℚ) + e) / t ≤ 1 := by
  have htq : (0 : ℚ) < t := by exact_mod_cast ht
  have hq : (p : ℚ) + n + b + e ≤ t := by exact_mod_cast h
  have hp : (0 : ℚ) ≤ p := Nat.cast_nonneg p
  have hn : (0 : ℚ) ≤ n := Nat.cast_nonneg n
  have hb : (0 : ℚ) ≤ b := Nat.cast_nonneg b
  have he : (0 : ℚ) ≤ e := Nat.cast_nonneg e
  have hpn : |(p : ℚ) - n| ≤ p + n := by
    rw [abs_le]
    constructor <;> linarith
  refine ⟨?_, ?_, ?_, ?_, ?_⟩
  · rw [le_div_iff₀ htq]; linarith
  · rw [div_le_one htq]; linarith
  · exact div_nonneg (by linarith) (le_of_lt htq)
  · rw [div_le_one htq]; linarith
  · rw [abs_div, abs_of_pos htq, ← add_div, div_le_one htq]
    linarith

/-- With fewer than `2^53` words, the sum `|polarity| + subjectivity` is at most 1 as a
Number. -/
theorem abs_polarity_add_subjectivity_le (text : JSString) (h : (words text).length < 2 ^ 53) :
    (Number.add (polarityValue text).abs (subjectivityValue text)).neg = false ∧
    (Number.add (polarityValue text).abs (subjectivityValue text)).toRat ≤ 1 := by
  have hsum := counts_sum_le text
  have ht := total_eq_length text
  have htpos := total_pos text
  have hT : (Number.ofInt (total text)).abs.toRat = (total text : ℚ) := by
    rw [Number.abs_ofInt_exact _ (by omega)]
    simp
  have hX : (Number.ofInt (((counts text).pos : Int) - ((counts text).neg : Int))).abs.toRat =
      ((((counts text).pos : Int) - ((counts text).neg : Int)).natAbs : ℚ) :=
    Number.abs_ofInt_exact _ (by omega)
  have hB : (Number.ofInt (((counts text).bias : Int) + ((counts text).emotional : Int))).abs.toRat =
      (((counts text).bias + (counts text).emotional : Nat) : ℚ) := by
    rw [Number.abs_ofInt_exact _ (by omega)]
    have : (((counts text).bias : Int) + ((counts text).emotional : Int)).natAbs =
        (counts text).bias + (counts text).emotional := by omega
    rw [this]
  have hP := Number.div_abs_bound
    (Number.ofInt (((counts text).pos : Int) - ((counts text).neg : Int)))
    (Number.ofInt (total text)) (total_ofInt_pos text)
    (Number.abs_ofInt_mono _ _ (polarity_natAbs_le text))
  have hQ := Number.div_abs_bound
    (Number.ofInt (((counts text).bias : Int) + ((counts text).emotional : Int)))
    (Number.ofInt (total text)) (total_ofInt_pos text)
    (Number.abs_ofInt_mono _ _ (subjectivity_natAbs_le text))
  rw [hX, hT] at hP
  rw [hB, hT] at hQ
  have hPQ : (polarityValue text).abs.toRat + (subjectivityValue text).toRat ≤ 1 + 1 / 2 ^ 53 := by
    rw [Number.toRat_of_not_neg _ (subjectivityValue_not_neg text)]
    have htq : (0 : ℚ) < (total text : ℚ) := by exact_mod_cast htpos
    have hab : ((((counts text).pos : Int) - ((counts text).neg : Int)).natAbs : ℚ) +
        (((counts text).bias + (counts text).emotional : Nat) : ℚ) ≤ (total text : ℚ) := by
      have : (((counts text).pos : Int) - ((counts text).neg : Int)).natAbs +
          ((counts text).bias + (counts text).emotional) ≤ total text := by omega
      exact_mod_cast this
    have hdiv : ((((counts text).pos : Int) - ((counts text).neg : Int)).natAbs : ℚ) / (total text : ℚ) +
        (((counts text).bias + (counts text).emotional : Nat) : ℚ) / (total text : ℚ) ≤ 1 := by
      rw [← add_div, div_le_one htq]
      exact hab
    have e54 : (1 : ℚ) / 2 ^ 54 + 1 / 2 ^ 54 = 1 / 2 ^ 53 := by norm_num
    have hP2 : (polarityValue text).abs.toRat ≤
        ((((counts text).pos : Int) - ((counts text).neg : Int)).natAbs : ℚ) / (total text : ℚ) +
          1 / 2 ^ 54 := hP
    have hQ2 : (subjectivityValue text).abs.toRat ≤
        (((counts text).bias + (counts text).emotional : Nat) : ℚ) / (total text : ℚ) +
          1 / 2 ^ 54 := hQ
    linarith
  obtain ⟨n, d, hd, hadd, hnd⟩ := Number.add_nonneg_eq (polarityValue text).abs
    (subjectivityValue text) rfl (subjectivityValue_not_neg text)
  rw [hadd]
  refine ⟨roundRatio_neg_field _ _ _, ?_⟩
  apply roundRatio_le_one n d hd
  rw [hnd]
  exact hPQ

/-- With fewer than `2^53` words, the product by 100 is at most 100 as a Number. -/
theorem scaled_score_le (text : JSString) (h : (words text).length < 2 ^ 53) :
    (Number.mul (Number.add (polarityValue text).abs (subjectivityValue text))
      (Number.ofInt 100)).toRat ≤ 100 := by
  obtain ⟨hneg, hle⟩ := abs_polarity_add_subjectivity_le text h
  refine le_trans (Number.toRat_le_abs _) ?_
  rw [Number.mul_abs]
  have h100 : (Number.ofInt 100).abs.toRat = 100 := by
    rw [Number.abs_ofInt_exact 100 (by decide)]
    norm_num
  refine le_trans (roundRatio_le _ _ 100 (natPow_ne_zero _) (by norm_num) ?_) (by norm_num)
  rw [Number.mul_ratio, h100, ← Number.toRat_of_not_neg _ hneg]
  push_cast
  linarith

/-- The score is computed in binary64: for 29 hits in 200 words the product
`0.145 * 100` is the Number below 14.5 and the score is 14, where the exact quotient
`29 / 200` would give `round(14.5) = 15`. -/
theorem binary64_score_example :
    (analyzeText ((List.replicate 29 (utf16 ("good "))).flatten ++
      (List.replicate 170 (utf16 ("a "))).flatten ++ utf16 ("a"))).biasScore = 14 ∧
    total ((List.replicate 29 (utf16 ("good "))).flatten ++
      (List.replicate 170 (utf16 ("a "))).flatten ++ utf16 ("a")) = 200 ∧
    (analyzeText ((List.replicate 29 (utf16 ("good "))).flatten ++
      (List.replicate 170 (utf16 ("a "))).flatten ++ utf16 ("a"))).pos = 29 ∧
    ⌊(29 : ℚ) / 200 * 100 + 1 / 2⌋ = 15 := by
  refine ⟨by decide!, by decide!, by decide!, ?_⟩
  rw [Int.floor_eq_iff]
  norm_num

/-! ## Properties of `polarityRegex` -/

theorem startsWithCI_append {w a b : JSString} (h : startsWithCI w (a ++ b) = true) :
    (w.length ≤ a.length ∧ startsWithCI w a = true) ∨
      (a.length < w.length ∧ startsWithCI (w.drop a.length) b = true) := by
  induction w generalizing a with
  | nil => left; exact ⟨Nat.zero_le _, rfl⟩
  | cons p w ih =>
    cases a with
    | nil => right; exact ⟨by simp, by simpa using h⟩
    | cons c a =>
      simp only [List.cons_append, startsWithCI, Bool.and_eq_true] at h
      rcases ih h.2 with ⟨h1, h2⟩ | ⟨h1, h2⟩
      · left
        exact ⟨by simpa using h1, by simp [startsWithCI, h.1, h2]⟩
      · right
        exact ⟨by simpa using h1, by simpa using h2⟩

theorem startsWithCI_head {p : Nat} {w s : JSString} (h : startsWithCI (p :: w) s = true) :
    ∃ c t, s = c :: t ∧ canonicalize c = canonicalize p := by
  cases s with
  | nil => simp [startsWithCI] at h
  | cons c t =>
    simp only [startsWithCI, Bool.and_eq_true, isCharCI, decide_eq_true_eq] at h
    exact ⟨c, t, rfl, h.1⟩

theorem drop_head_mem_tail (w : JSString) (i : Nat) (h1 : 1 ≤ i) (h2 : i < w.length) :
    ∃ x rest, w.drop i = x :: rest ∧ x ∈ w.tail := by
  cases w with
  | nil => simp at h2
  | cons p w =>
    obtain ⟨j, rfl⟩ : ∃ j, i = j + 1 := ⟨i - 1, by omega⟩
    simp only [List.drop_succ_cons, List.tail_cons]
    have hj : j < w.length := by simpa using h2
    cases hd : w.drop j with
    | nil =>
      have := List.drop_eq_nil_iff.mp hd
      omega
    | cons x rest =>
      refine ⟨x, rest, rfl, ?_⟩
      have : x ∈ w.drop j := by rw [hd]; simp
      exact List.mem_of_mem_drop this

/-- A start position inside a stretch `a` without the word, in front of a stretch `u`
whose first code unit is none of the later letters of the word, is no start of it. -/
theorem not_startsWithCI_inside (w a u : JSString) (ha : a ≠ []) (hno : ¬ OccursCI w a)
    (hu : ∀ c, u.head? = some c → ∀ x ∈ w.tail, canonicalize c ≠ canonicalize x) :
    startsWithCI w (a ++ u) = false := by
  by_contra hcon
  have hst : startsWithCI w (a ++ u) = true := by simpa using hcon
  rcases startsWithCI_append hst with ⟨_, h2⟩ | ⟨h1, h2⟩
  · apply hno
    obtain ⟨v, post, hv, hcan⟩ := (startsWithCI_iff w a).mp h2
    exact ⟨[], v, post, by simpa using hv, hcan⟩
  · have hpos : 1 ≤ a.length := List.length_pos.mpr ha
    obtain ⟨x, rest, hd, hx⟩ := drop_head_mem_tail w a.length hpos h1
    rw [hd] at h2
    obtain ⟨c, t, hc, hcan⟩ := startsWithCI_head h2
    exact hu c (by rw [hc]; rfl) x hx hcan

theorem not_startsWithCI_of_head (p : Nat) (w s : JSString)
    (hs : ∀ c, s.head? = some c → canonicalize c ≠ canonicalize p) :
    startsWithCI (p :: w) s = false := by
  by_contra hcon
  have hst : startsWithCI (p :: w) s = true := by simpa using hcon
  obtain ⟨c, t, hc, hcan⟩ := startsWithCI_head hst
  exact hs c (by rw [hc]; rfl) hcan

/-- The search passes over a stretch at none of whose positions the pattern matches. -/
theorem exec_append_of_none (r : Regex) (a u : JSString)
    (h : ∀ a1 a2, a = a1 ++ a2 → a2 ≠ [] → matchAt r (a2 ++ u) = none) :
    exec r (a ++ u) = exec r u := by
  induction a with
  | nil => rfl
  | cons c a ih =>
    have h0 := h [] (c :: a) rfl (by simp)
    rw [List.cons_append] at h0 ⊢
    rw [exec, h0]
    exact ih (fun a1 a2 ha hne => h (c :: a1) a2 (by simp [ha]) hne)

theorem polarityRegex_eq : polarityRegex = .seq (literalCI polarityWord)
    (.seq (.rep 0 (some 10) isNonDigit)
      (.group 1 (.seq (.rep 0 (some 1) (isCharCI 45))
        (.seq (.rep 1 none isDigit) (.seq (.cls (isCharCI 46)) (.rep 1 none isDigit)))))) := rfl

theorem matchAt_polarityRegex_of_not_start (t : JSString)
    (h : startsWithCI polarityWord t = false) : matchAt polarityRegex t = none := by
  rw [polarityRegex_eq, matchAt_keyed, h]
  rfl

theorem greedyRest_append_all (p : Nat → Bool) (w s : JSString) (n : Nat)
    (hw : ∀ c ∈ w, p c = true) (hn : w.length ≤ n) :
    greedyRest p (some n) (w ++ s) = greedyRest p (some (n - w.length)) s := by
  induction w generalizing n with
  | nil => simp
  | cons c w ih =>
    obtain ⟨m, rfl⟩ : ∃ m, n = m + 1 := ⟨n - 1, by simp at hn; omega⟩
    have hc : p c = true := hw c (by simp)
    rw [List.cons_append, greedyRest]
    simp only [canTake, hc, Bool.and_self, if_true, decr, Nat.add_sub_cancel]
    rw [ih m (fun x hx => hw x (by simp [hx])) (by simpa using hn)]
    simp

theorem greedyRest_stop (p : Nat → Bool) (hi : Option Nat) (c : Nat) (s : JSString)
    (hc : p c = false) : greedyRest p hi (c :: s) = c :: s := by
  simp [greedyRest, hc]

theorem dropWhile_append_all (p : Nat → Bool) (t rest : JSString) (ht : ∀ c ∈ t, p c = true)
    (hr : ∀ c, rest.head? = some c → p c = false) : (t ++ rest).dropWhile p = rest := by
  induction t with
  | nil =>
    cases rest with
    | nil => rfl
    | cons c r => simp [List.dropWhile, hr c rfl]
  | cons c t ih =>
    simp only [List.cons_append, List.dropWhile, ht c (by simp)]
    exact ih (fun x hx => ht x (by simp [hx]))

/-- A quantifier `+` on a run of class members that ends where the input ends or at a
non-member, in front of a continuation that accepts what is left. -/
theorem repeatMatcher_run {p : Nat → Bool} {k : JSString → MatchResult} (c : Nat)
    (t rest : JSString) (hc : p c = true) (ht : ∀ x ∈ t, p x = true)
    (hr : ∀ x, rest.head? = some x → p x = false) (hk : (k rest).isSome = true) :
    repeatMatcher p k 1 none (c :: (t ++ rest)) = k rest := by
  have hg : greedyRest p (decr none) (t ++ rest) = rest := by
    simp only [decr]
    rw [greedyRest_none, dropWhile_append_all p t rest ht hr]
  rw [repeatMatcher_one_greedy c _ none (by simp [canTake, hc]) (by rw [hg]; exact hk), hg]

theorem signedDecimal_eq : signedDecimal = .seq (.rep 0 (some 1) (isCharCI 45))
    (.seq (.rep 1 none isDigit) (.seq (.cls (isCharCI 46)) (.rep 1 none isDigit))) := rfl

theorem isCharCI_minus_of_digit {c : Nat} (h : isDigit c = true) : isCharCI 45 c = false := by
  simp only [isDigit, Bool.and_eq_true, decide_eq_true_eq] at h
  simp only [isCharCI, canonicalize, decide_eq_false_iff_not]
  split_ifs <;> omega

/-- The digits, the point and the digits of an unsigned decimal at the end of the
input are what `\d+\.\d+` takes; the continuation gets the empty rest. -/
theorem matcher_decimal (c1 c2 : Nat) (t1 t2 : JSString) (caps : Captures) (k : Continuation)
    (h1 : isDigit c1 = true) (ht1 : ∀ x ∈ t1, isDigit x = true) (h2 : isDigit c2 = true)
    (ht2 : ∀ x ∈ t2, isDigit x = true) (hk : (k [] caps).isSome = true) :
    matcher (.seq (.rep 1 none isDigit) (.seq (.cls (isCharCI 46)) (.rep 1 none isDigit)))
      (c1 :: (t1 ++ 46 :: c2 :: t2)) caps k = k [] caps := by
  have hdot : isDigit 46 = false := by decide
  have hcd : isCharCI 46 46 = true := by decide
  have e2 : repeatMatcher isDigit (fun s1 => k s1 caps) 1 none (c2 :: t2) = k [] caps := by
    have := repeatMatcher_run (p := isDigit) (k := fun s1 => k s1 caps) c2 t2 [] h2 ht2
      (by simp) hk
    simpa using this
  have e1 : matcher (.seq (.cls (isCharCI 46)) (.rep 1 none isDigit)) (46 :: c2 :: t2) caps k
      = k [] caps := by
    rw [matcher_seq, matcher]
    simp only [hcd, if_true]
    rw [matcher_rep, e2]
  rw [matcher_seq, matcher_rep,
    repeatMatcher_run c1 t1 (46 :: c2 :: t2) h1 ht1 (by simp [hdot]) (by rw [e1]; exact hk)]
  exact e1

/-- Group 1 of `polarityRegex` on an unsigned decimal at the end of the input. -/
theorem matcher_group_unsigned (c1 c2 : Nat) (t1 t2 : JSString) (caps : Captures)
    (k : Continuation) (h1 : isDigit c1 = true) (ht1 : ∀ x ∈ t1, isDigit x = true)
    (h2 : isDigit c2 = true) (ht2 : ∀ x ∈ t2, isDigit x = true)
    (hk : ∀ a b, (k a b).isSome = true) :
    matcher (.group 1 signedDecimal) (c1 :: (t1 ++ 46 :: c2 :: t2)) caps k
      = k [] ((1, c1 :: (t1 ++ 46 :: c2 :: t2)) :: caps) := by
  rw [matcher_group, signedDecimal_eq, matcher_seq, matcher_rep, repeatMatcher]
  simp only [isCharCI_minus_of_digit h1, Bool.and_false, Bool.false_eq_true, if_false, if_true]
  rw [matcher_decimal c1 c2 t1 t2 _ _ h1 ht1 h2 ht2 (by exact hk _ _)]
  rw [List.length_nil, Nat.sub_zero, List.take_length]

/-- Group 1 of `polarityRegex` on a minus sign and a decimal at the end of the input. -/
theorem matcher_group_signed (c1 c2 : Nat) (t1 t2 : JSString) (caps : Captures)
    (k : Continuation) (h1 : isDigit c1 = true) (ht1 : ∀ x ∈ t1, isDigit x = true)
    (h2 : isDigit c2 = true) (ht2 : ∀ x ∈ t2, isDigit x = true)
    (hk : ∀ a b, (k a b).isSome = true) :
    matcher (.group 1 signedDecimal) (45 :: c1 :: (t1 ++ 46 :: c2 :: t2)) caps k
      = k [] ((1, 45 :: c1 :: (t1 ++ 46 :: c2 :: t2)) :: caps) := by
  have hm : isCharCI 45 45 = true := by decide
  have hg : greedyRest (isCharCI 45) (some 1) (45 :: c1 :: (t1 ++ 46 :: c2 :: t2))
      = c1 :: (t1 ++ 46 :: c2 :: t2) := by
    rw [greedyRest_one]
    simp [skipOptional, hm]
  rw [matcher_group, signedDecimal_eq, matcher_seq, matcher_rep, repeatMatcher_greedy, hg,
    matcher_decimal c1 c2 t1 t2 _ _ h1 ht1 h2 ht2 (by exact hk _ _)]
  · rw [List.length_nil, Nat.sub_zero, List.take_length]
  · rw [hg, matcher_decimal c1 c2 t1 t2 _ _ h1 ht1 h2 ht2 (by exact hk _ _)]
    exact hk _ _

theorem exec_of_matchAt_some {r : Regex} {s : JSString} {res : JSString × Captures}
    (h : matchAt r s = some res) : exec r s = some res.2 := by
  cases s with
  | nil => simp [exec, h]
  | cons c t => simp [exec, h]

theorem not_occursCI_of_append {w a b : JSString} (h : ¬ OccursCI w (a ++ b)) :
    ¬ OccursCI w a ∧ ¬ OccursCI w b := by
  constructor
  · rintro ⟨x, v, y, hx, hv⟩
    exact h ⟨x, v, y ++ b, by rw [hx]; simp, hv⟩
  · rintro ⟨x, v, y, hx, hv⟩
    exact h ⟨a ++ x, v, y, by rw [hx]; simp, hv⟩

theorem polarityWord_cons : polarityWord = 112 :: utf16 ("olarity") := by decide

theorem polarityWord_tail_ne (c : Nat) (hc : canonicalize c = 80 ∨ c < 65) :
    ∀ x ∈ polarityWord.tail, canonicalize c ≠ canonicalize x := by
  have h1 : ∀ x ∈ polarityWord.tail, canonicalize x ≠ 80 ∧ 65 ≤ canonicalize x := by decide
  intro x hx
  obtain ⟨h2, h3⟩ := h1 x hx
  rcases hc with hc | hc
  · rw [hc]; exact fun h => h2 h.symm
  · have : canonicalize c = c := by
      unfold canonicalize
      rw [if_neg]; omega
    rw [this]; omega

theorem keyword_length {kw : JSString}
    (hkw : kw.map canonicalize = polarityWord.map canonicalize) :
    kw.length = polarityWord.length := by
  simpa using congrArg List.length hkw

theorem keyword_head {kw : JSString}
    (hkw : kw.map canonicalize = polarityWord.map canonicalize) :
    ∃ k0 kt, kw = k0 :: kt ∧ canonicalize k0 = 80 := by
  cases kw with
  | nil =>
    have := keyword_length hkw
    have h8 : polarityWord.length = 8 := by decide
    rw [h8] at this
    simp at this
  | cons k0 kt =>
    refine ⟨k0, kt, rfl, ?_⟩
    rw [polarityWord_cons] at hkw
    simp only [List.map_cons, List.cons.injEq] at hkw
    rw [hkw.1]
    decide

theorem startsWithCI_keyword {kw : JSString}
    (hkw : kw.map canonicalize = polarityWord.map canonicalize) (x : JSString) :
    startsWithCI polarityWord (kw ++ x) = true ∧ (kw ++ x).drop polarityWord.length = x := by
  refine ⟨(startsWithCI_iff polarityWord (kw ++ x)).mpr ⟨kw, x, rfl, hkw⟩, ?_⟩
  rw [← keyword_length hkw]
  exact List.drop_left' rfl

/-- No position inside `pre` starts a match when the word does not occur in `pre` and
the key word follows. -/
theorem matchAt_polarityRegex_before {pre kw : JSString} (x : JSString)
    (hpre : ¬ OccursCI polarityWord pre)
    (hkw : kw.map canonicalize = polarityWord.map canonicalize) :
    ∀ a1 a2, pre = a1 ++ a2 → a2 ≠ [] → matchAt polarityRegex (a2 ++ (kw ++ x)) = none := by
  intro a1 a2 ha hne
  apply matchAt_polarityRegex_of_not_start
  obtain ⟨k0, kt, hk, hk0⟩ := keyword_head hkw
  apply not_startsWithCI_inside polarityWord a2 _ hne
  · rw [ha] at hpre
    exact (not_occursCI_of_append hpre).2
  · intro c hc
    rw [hk] at hc
    simp only [List.cons_append, List.head?_cons, Option.some.injEq] at hc
    rw [← hc]
    exact polarityWord_tail_ne k0 (Or.inl hk0)

theorem isNonDigit_of_digit {c : Nat} (h : isDigit c = true) : isNonDigit c = false := by
  simp [isNonDigit, h]

/-- At most nine non-digits and the minus sign are all taken by `\D{0,10}`: group 1 is
the decimal without its sign. -/
theorem matchAt_polarityRegex_short {kw sep : JSString} (c1 c2 : Nat) (t1 t2 : JSString)
    (hkw : kw.map canonicalize = polarityWord.map canonicalize)
    (hsep : ∀ c ∈ sep, isNonDigit c = true) (hk : sep.length ≤ 9)
    (h1 : isDigit c1 = true) (ht1 : ∀ x ∈ t1, isDigit x = true) (h2 : isDigit c2 = true)
    (ht2 : ∀ x ∈ t2, isDigit x = true) :
    ∃ whole, matchAt polarityRegex (kw ++ ((sep ++ [45]) ++ c1 :: (t1 ++ 46 :: c2 :: t2)))
      = some ([], [(0, whole), (1, c1 :: (t1 ++ 46 :: c2 :: t2))]) := by
  obtain ⟨hs, hd⟩ := startsWithCI_keyword hkw ((sep ++ [45]) ++ c1 :: (t1 ++ 46 :: c2 :: t2))
  have hm : isNonDigit 45 = true := by decide
  have hg : greedyRest isNonDigit (some 10) ((sep ++ [45]) ++ c1 :: (t1 ++ 46 :: c2 :: t2))
      = c1 :: (t1 ++ 46 :: c2 :: t2) := by
    rw [greedyRest_append_all isNonDigit _ _ 10 (by
      intro c hc
      rcases List.mem_append.mp hc with h | h
      · exact hsep c h
      · simp only [List.mem_singleton] at h; rw [h]; exact hm) (by simp; omega)]
    exact greedyRest_stop _ _ _ _ (isNonDigit_of_digit h1)
  have hm2 : matchAt polarityRegex (kw ++ ((sep ++ [45]) ++ c1 :: (t1 ++ 46 :: c2 :: t2)))
      = some ([], [(0, (kw ++ ((sep ++ [45]) ++ c1 :: (t1 ++ 46 :: c2 :: t2))).take
          ((kw ++ ((sep ++ [45]) ++ c1 :: (t1 ++ 46 :: c2 :: t2))).length
            - ([] : JSString).length)),
          (1, c1 :: (t1 ++ 46 :: c2 :: t2))]) := by
    rw [polarityRegex_eq, matchAt_keyed, hs, if_pos rfl, hd, repeatMatcher_greedy, hg,
      ← signedDecimal_eq,
      matcher_group_unsigned c1 c2 t1 t2 _ _ h1 ht1 h2 ht2 (by intro a b; rfl)]
    rw [hg, ← signedDecimal_eq,
      matcher_group_unsigned c1 c2 t1 t2 _ _ h1 ht1 h2 ht2 (by intro a b; rfl)]
    rfl
  exact ⟨_, hm2⟩

/-- Exactly ten non-digits are taken by `\D{0,10}` and the minus sign is left to group
1. -/
theorem matchAt_polarityRegex_ten {kw sep : JSString} (c1 c2 : Nat) (t1 t2 : JSString)
    (hkw : kw.map canonicalize = polarityWord.map canonicalize)
    (hsep : ∀ c ∈ sep, isNonDigit c = true) (hk : sep.length = 10)
    (h1 : isDigit c1 = true) (ht1 : ∀ x ∈ t1, isDigit x = true) (h2 : isDigit c2 = true)
    (ht2 : ∀ x ∈ t2, isDigit x = true) :
    ∃ whole, matchAt polarityRegex (kw ++ (sep ++ 45 :: c1 :: (t1 ++ 46 :: c2 :: t2)))
      = some ([], [(0, whole), (1, 45 :: c1 :: (t1 ++ 46 :: c2 :: t2))]) := by
  obtain ⟨hs, hd⟩ := startsWithCI_keyword hkw (sep ++ 45 :: c1 :: (t1 ++ 46 :: c2 :: t2))
  have hg : greedyRest isNonDigit (some 10) (sep ++ 45 :: c1 :: (t1 ++ 46 :: c2 :: t2))
      = 45 :: c1 :: (t1 ++ 46 :: c2 :: t2) := by
    rw [greedyRest_append_all isNonDigit _ _ 10 hsep (by omega), hk]
    exact greedyRest_zero _ _
  have hm2 : matchAt polarityRegex (kw ++ (sep ++ 45 :: c1 :: (t1 ++ 46 :: c2 :: t2)))
      = some ([], [(0, (kw ++ (sep ++ 45 :: c1 :: (t1 ++ 46 :: c2 :: t2))).take
          ((kw ++ (sep ++ 45 :: c1 :: (t1 ++ 46 :: c2 :: t2))).length
            - ([] : JSString).length)),
          (1, 45 :: c1 :: (t1 ++ 46 :: c2 :: t2))]) := by
    rw [polarityRegex_eq, matchAt_keyed, hs, if_pos rfl, hd, repeatMatcher_greedy, hg,
      ← signedDecimal_eq,
      matcher_group_signed c1 c2 t1 t2 _ _ h1 ht1 h2 ht2 (by intro a b; rfl)]
    rw [hg, ← signedDecimal_eq,
      matcher_group_signed c1 c2 t1 t2 _ _ h1 ht1 h2 ht2 (by intro a b; rfl)]
    rfl
  exact ⟨_, hm2⟩

theorem matcher_digits_none (x : Nat) (s : JSString) (r : Regex) (caps : Captures)
    (k : Continuation) (hx : isDigit x = false) :
    matcher (.seq (.rep 1 none isDigit) r) (x :: s) caps k = none := by
  rw [matcher_seq, matcher_rep, repeatMatcher]
  simp [hx]

/-- Group 1 of `polarityRegex` does not match where two non-digits come first. -/
theorem matcher_group_signedDecimal_none (x y : Nat) (rest : JSString) (caps : Captures)
    (k : Continuation) (hx : isDigit x = false) (hy : isDigit y = false) :
    matcher (.group 1 signedDecimal) (x :: y :: rest) caps k = none := by
  rw [matcher_group, signedDecimal_eq, matcher_seq, matcher_rep, repeatMatcher]
  have hin : repeatMatcher (isCharCI 45)
      (fun s1 => matcher (.seq (.rep 1 none isDigit)
        (.seq (.cls (isCharCI 46)) (.rep 1 none isDigit))) s1 caps
          (fun s1 caps1 => k s1 ((1, (x :: y :: rest).take
            ((x :: y :: rest).length - s1.length)) :: caps1)))
      (0 - 1) (decr (some 1)) (y :: rest) = none := by
    rw [repeatMatcher]
    simp only [decr, Nat.sub_self, canTake, Bool.false_and, Bool.false_eq_true, if_false,
      Nat.zero_sub, if_true]
    exact matcher_digits_none y rest _ _ _ hy
  rw [hin]
  simp only [if_true, matcher_digits_none x (y :: rest) _ _ _ hx]
  split_ifs <;> rfl

/-- With eleven or more non-digits between the key word and the minus sign the pattern
does not match at the key word. -/
theorem matchAt_polarityRegex_long {kw sep : JSString} (d : JSString)
    (hkw : kw.map canonicalize = polarityWord.map canonicalize)
    (hsep : ∀ c ∈ sep, isNonDigit c = true) (hk : 11 ≤ sep.length) :
    matchAt polarityRegex (kw ++ (sep ++ 45 :: d)) = none := by
  obtain ⟨hs, hd⟩ := startsWithCI_keyword hkw (sep ++ 45 :: d)
  rw [polarityRegex_eq, matchAt_keyed, hs, if_pos rfl, hd, ← signedDecimal_eq]
  cases hres : repeatMatcher isNonDigit
      (fun s1 => matcher (.group 1 signedDecimal) s1 [] (fun s2 c2 =>
        some (s2, (0, (kw ++ (sep ++ 45 :: d)).take
          ((kw ++ (sep ++ 45 :: d)).length - s2.length)) :: c2)))
      0 (some 10) (sep ++ 45 :: d) with
  | none => rfl
  | some res =>
    exfalso
    obtain ⟨w, s1, hw, _, _, hlen, hk1⟩ := repeatMatcher_some _ _ _ hres
    have hw10 : w.length ≤ 10 := hlen 10 rfl
    rcases List.append_eq_append_iff.mp hw with ⟨a1, h1, h2⟩ | ⟨c1, h1, h2⟩
    · have := congrArg List.length h1
      simp only [List.length_append] at this
      omega
    · cases c1 with
      | nil =>
        have := congrArg List.length h1
        simp only [List.length_append, List.length_nil] at this
        omega
      | cons x sx =>
        have hx : isDigit x = false := by
          have := hsep x (by rw [h1]; simp)
          simpa [isNonDigit] using this
        cases sx with
        | nil =>
          rw [h2] at hk1
          simp only [List.cons_append, List.nil_append] at hk1
          rw [matcher_group_signedDecimal_none x 45 d _ _ hx (by decide)] at hk1
          exact Option.noConfusion hk1
        | cons y sy =>
          have hy : isDigit y = false := by
            have := hsep y (by rw [h1]; simp)
            simpa [isNonDigit] using this
          rw [h2] at hk1
          simp only [List.cons_append] at hk1
          rw [matcher_group_signedDecimal_none x y _ _ _ hx hy] at hk1
          exact Option.noConfusion hk1

theorem not_start_of_head {t : JSString}
    (h : ∀ c, t.head? = some c → canonicalize c ≠ 80) :
    matchAt polarityRegex t = none := by
  apply matchAt_polarityRegex_of_not_start
  rw [polarityWord_cons]
  apply not_startsWithCI_of_head
  intro c hc
  have : canonicalize 112 = 80 := by decide
  rw [this]
  exact h c hc

theorem canonicalize_of_lt {c : Nat} (h : c < 65) : canonicalize c ≠ 80 := by
  unfold canonicalize
  split_ifs <;> omega

/-- After the key word no position starts a match when the word does not occur among the
non-digits and the rest is a minus sign, digits and points. -/
theorem matchAt_polarityRegex_after {kw sep d : JSString}
    (hkw : kw.map canonicalize = polarityWord.map canonicalize)
    (hno : ¬ OccursCI polarityWord sep) (hd : ∀ c ∈ d, c < 65) :
    ∀ a t, kw ++ (sep ++ 45 :: d) = a ++ t → a ≠ [] → matchAt polarityRegex t = none := by
  have htail : ∀ x ∈ polarityWord.tail, canonicalize x ≠ 80 := by decide
  have hafter : ∀ s2 a1, sep = a1 ++ s2 → matchAt polarityRegex (s2 ++ 45 :: d) = none := by
    intro s2 a1 hs
    by_cases hne : s2 = []
    · subst hne
      apply not_start_of_head
      intro c hc
      simp only [List.nil_append, List.head?_cons, Option.some.injEq] at hc
      rw [← hc]; decide
    · apply matchAt_polarityRegex_of_not_start
      apply not_startsWithCI_inside polarityWord s2 _ hne
      · rw [hs] at hno
        exact (not_occursCI_of_append hno).2
      · intro c hc
        simp only [List.head?_cons, Option.some.injEq] at hc
        rw [← hc]
        exact polarityWord_tail_ne 45 (Or.inr (by decide))
  intro a t hat hane
  rcases List.append_eq_append_iff.mp hat with ⟨a1, _, h2⟩ | ⟨k1, h1, h2⟩
  · -- the position is after the key word
    rcases List.append_eq_append_iff.mp h2 with ⟨b1, h3, h4⟩ | ⟨s2, h3, h4⟩
    · apply not_start_of_head
      intro c hc
      have hmem : c ∈ 45 :: d := by
        rw [h4]
        cases t with
        | nil => simp at hc
        | cons z t => simp at hc; simp [hc]
      rcases List.mem_cons.mp hmem with h | h
      · rw [h]; decide
      · exact canonicalize_of_lt (hd c h)
    · rw [h4]
      exact hafter s2 a1 h3
  · -- the position is inside the key word or right after it
    rw [h2]
    by_cases hk1 : k1 = []
    · subst hk1
      rw [List.nil_append]
      exact hafter sep [] rfl
    · apply not_start_of_head
      intro c hc
      cases k1 with
      | nil => exact absurd rfl hk1
      | cons y a2 =>
        simp only [List.cons_append, List.head?_cons, Option.some.injEq] at hc
        subst hc
        have hlen := keyword_length hkw
        have hal : 1 ≤ a.length := List.length_pos.mpr hane
        have hlt : a.length < polarityWord.length := by
          rw [← hlen, h1]; simp
        obtain ⟨x, rest, hdrop, hx⟩ := drop_head_mem_tail polarityWord a.length hal hlt
        have hmap : (y :: a2).map canonicalize
            = (polarityWord.drop a.length).map canonicalize := by
          rw [List.map_drop, ← hkw, h1, List.map_append, List.drop_left' (by simp)]
        rw [hdrop] at hmap
        simp only [List.map_cons, List.cons.injEq] at hmap
        rw [hmap.1]
        exact htail x hx

theorem extractedPolarity_of_exec (narrative : JSString) :
    extractedPolarity narrative
      = (exec polarityRegex narrative).map
          (fun m => toFixed2 (parseFloat ((capture m 1).getD []))) := by
  unfold extractedPolarity polarityMatch guardedMatch jsMatch
  by_cases h : narrative = []
  · subst h
    have : exec polarityRegex [] = none := by decide
    simp [this]
  · rw [if_neg h]
    cases exec polarityRegex narrative <;> rfl

theorem roundRatio_sign (n d : Nat) :
    roundRatio true n d = { roundRatio false n d with neg := true } := by
  unfold roundRatio
  simp only
  split_ifs <;> rfl

theorem parseFloat_minus (c : Nat) (t : JSString) (hc : isDigit c = true) :
    parseFloat (45 :: c :: t) = { parseFloat (c :: t) with neg := true } ∧
      (parseFloat (c :: t)).neg = false := by
  have hne : c ≠ 45 := by
    simp only [isDigit, Bool.and_eq_true, decide_eq_true_eq] at hc
    omega
  unfold parseFloat
  simp only [List.head?_cons, Option.some.injEq, hne, decide_False, decide_True,
    Bool.false_eq_true, if_false, if_true, List.tail_cons]
  exact ⟨roundRatio_sign _ _, roundRatio_neg _ _ _⟩

theorem analyzeText_counts (text : JSString) :
    (analyzeText text).pos = (counts text).pos ∧ (analyzeText text).neg = (counts text).neg ∧
    (analyzeText text).bias = (counts text).bias ∧
    (analyzeText text).emotional = (counts text).emotional :=
  ⟨rfl, rfl, rfl, rfl⟩

/-- A string with no letter `p` or `P` does not contain the key word. -/
theorem not_occursCI_of_no_p (s : JSString) (h : ∀ c ∈ s, canonicalize c ≠ 80) :
    ¬ OccursCI polarityWord s := by
  rintro ⟨a, v, b, hs, hv⟩
  cases v with
  | nil =>
    have := congrArg List.length hv
    simp [polarityWord] at this
    revert this
    decide
  | cons c v =>
    have hc : canonicalize c = 80 := by
      have := congrArg List.head? hv
      rw [polarityWord_cons] at this
      simpa using this
    exact h c (by rw [hs]; simp) hc

/-! ## Properties of `analyzeText` and of the extracted polarity -/

/-- C11. For every text the level of `analyzeText` is `High` exactly when its score is
above 60, `Medium` exactly when the score is above 30 and at most 60, and `Low` exactly
when the score is at most 30; so a score of 30 gives `Low` and a score of 60 `Medium`. -/
theorem local_level_thresholds (text : JSString) :
    ((analyzeText text).biasLevel = utf16 ("High") ↔ (analyzeText text).biasScore > 60) ∧
    ((analyzeText text).biasLevel = utf16 ("Medium") ↔
      30 < (analyzeText text).biasScore ∧ (analyzeText text).biasScore ≤ 60) ∧
    ((analyzeText text).biasLevel = utf16 ("Low") ↔ (analyzeText text).biasScore ≤ 30) ∧
    ((analyzeText text).biasScore = 30 → (analyzeText text).biasLevel = utf16 ("Low")) ∧
    ((analyzeText text).biasScore = 60 → (analyzeText text).biasLevel = utf16 ("Medium")) := by
  have hm : utf16 ("High") ≠ utf16 ("Medium") := by decide
  have hl : utf16 ("High") ≠ utf16 ("Low") := by decide
  have ml : utf16 ("Medium") ≠ utf16 ("Low") := by decide
  simp only [analyzeText, levelOfScore]
  refine ⟨?_, ?_, ?_, ?_, ?_⟩
  · split_ifs with h1 h2
    · simp [h1]
    · simp [h1, hm.symm]
    · simp [h1, hl.symm]
  · split_ifs with h1 h2
    · simp only [hm, false_iff]; omega
    · simp only [true_iff]; omega
    · simp only [ml.symm, false_iff]; omega
  · split_ifs with h1 h2
    · simp only [hl, false_iff]; omega
    · simp only [ml, false_iff]; omega
    · simp only [true_iff]; omega
  · intro h
    rw [h]
    rfl
  · intro h
    rw [h]
    rfl

theorem local_level_thresholds_witness :
    (analyzeText (utf16 ("good good good a a a a a a a"))).biasScore = 30 ∧
    (analyzeText (utf16 ("good good good a a a a a a a"))).biasLevel = utf16 ("Low") ∧
    (analyzeText (utf16 ("good good good a a"))).biasScore = 60 ∧
    (analyzeText (utf16 ("good good good a a"))).biasLevel = utf16 ("Medium") :=
  ⟨by decide!,
    (local_level_thresholds (utf16 ("good good good a a a a a a a"))).2.2.2.1 (by decide!),
    by decide!,
    (local_level_thresholds (utf16 ("good good good a a"))).2.2.2.2 (by decide!)⟩

/-- C12. A text none of whose words is in a lexicon - and so every text in whose lower
case no lexicon word occurs, the empty string among them - gets all four counts 0,
polarity `0.00`, subjectivity `0.00`, score 0 and level `Low`; and the divisor `total`
of the empty string is 1. -/
theorem no_hit_input :
    (∀ text, (∀ w ∈ words text, w ∉ lexicon) →
      analyzeText text
        = { polarity := utf16 ("0.00"), subjectivity := utf16 ("0.00"), biasScore := 0,
            biasLevel := utf16 ("Low"), pos := 0, neg := 0, bias := 0, emotional := 0 }) ∧
    (∀ text, (∀ w ∈ lexicon, ¬ w <:+: toLowerCase text) →
      analyzeText text
        = { polarity := utf16 ("0.00"), subjectivity := utf16 ("0.00"), biasScore := 0,
            biasLevel := utf16 ("Low"), pos := 0, neg := 0, bias := 0, emotional := 0 }) ∧
    analyzeText []
      = { polarity := utf16 ("0.00"), subjectivity := utf16 ("0.00"), biasScore := 0,
          biasLevel := utf16 ("Low"), pos := 0, neg := 0, bias := 0, emotional := 0 } ∧
    total [] = 1 := by
  have key : ∀ text, (∀ w ∈ words text, w ∉ lexicon) →
      analyzeText text
        = { polarity := utf16 ("0.00"), subjectivity := utf16 ("0.00"), biasScore := 0,
            biasLevel := utf16 ("Low"), pos := 0, neg := 0, bias := 0, emotional := 0 } := by
    intro text h
    apply analyzeText_of_counts_zero
    exact foldl_countWord_of_not_mem _ _ h
  refine ⟨key, ?_, ?_, by decide⟩
  · intro text h
    apply key
    intro w hw hmem
    exact h w hmem (words_contiguous text w hw)
  · apply key
    intro w hw
    have : words [] = [[]] := by decide
    rw [this] at hw
    simp only [List.mem_singleton] at hw
    rw [hw]
    decide

theorem no_hit_input_witness :
    (∀ w ∈ words (utf16 ("The cat sat.")), w ∉ lexicon) ∧
    analyzeText (utf16 ("The cat sat."))
      = { polarity := utf16 ("0.00"), subjectivity := utf16 ("0.00"), biasScore := 0,
          biasLevel := utf16 ("Low"), pos := 0, neg := 0, bias := 0, emotional := 0 } :=
  ⟨by decide, no_hit_input.1 (utf16 ("The cat sat.")) (by decide)⟩

/-- C13. For every text, the unrounded polarity of `analyzeText` lies in `[-1, 1]` and
the unrounded subjectivity is not negative: as the Numbers the code computes (whose two
decimals are the fields `polarity` and `subjectivity`), and as the exact quotients
`(pos - neg) / total` and `(bias + emotional) / total`. -/
theorem polarity_subjectivity_ranges (text : JSString) :
    (analyzeText text).polarity = toFixed2 (polarityValue text) ∧
    (analyzeText text).subjectivity = toFixed2 (subjectivityValue text) ∧
    -1 ≤ (polarityValue text).toRat ∧ (polarityValue text).toRat ≤ 1 ∧
    0 ≤ (subjectivityValue text).toRat ∧
    (-1 : ℚ) ≤ (((analyzeText text).pos : ℚ) - (analyzeText text).neg) / total text ∧
    (((analyzeText text).pos : ℚ) - (analyzeText text).neg) / total text ≤ 1 ∧
    (0 : ℚ) ≤ (((analyzeText text).bias : ℚ) + (analyzeText text).emotional) / total text := by
  have hP := polarityValue_abs_le_one text
  have h1 := Number.toRat_le_abs (polarityValue text)
  have h2 := Number.neg_abs_le_toRat (polarityValue text)
  have hQ : 0 ≤ (subjectivityValue text).toRat := by
    rw [Number.toRat_of_not_neg _ (subjectivityValue_not_neg text)]
    exact Number.toRat_abs_nonneg _
  obtain ⟨e1, e2, e3, -, -⟩ := exact_ratios (counts text).pos (counts text).neg
    (counts text).bias (counts text).emotional (total text) (total_pos text) (counts_sum_le text)
  exact ⟨by simp only [analyzeText], by simp only [analyzeText], by linarith, by linarith, hQ,
    e1, e2, e3⟩

/-- C14. For the text
`This is great and wonderful, obviously the best choice, clearly amazing.`
`analyzeText` has 12 words (the last one empty), counts positive 1, negative 0, bias 2,
emotional 1, and returns the score 33, which is `round((1/12 + 3/12) * 100)`, and the
level `Medium`. -/
theorem end_to_end_example :
    (words (utf16
      ("This is great and wonderful, obviously the best choice, clearly amazing."))).length = 12 ∧
    total (utf16
      ("This is great and wonderful, obviously the best choice, clearly amazing.")) = 12 ∧
    analyzeText (utf16
      ("This is great and wonderful, obviously the best choice, clearly amazing."))
      = { polarity := utf16 ("0.08"), subjectivity := utf16 ("0.25"), biasScore := 33,
          biasLevel := utf16 ("Medium"), pos := 1, neg := 0, bias := 2, emotional := 1 } ∧
    (⌊((1 : ℚ) / 12 + 3 / 12) * 100 + 1 / 2⌋ : Int) = 33 := by
  refine ⟨by decide!, by decide!, by decide!, ?_⟩
  rw [Int.floor_eq_iff]
  norm_num

/-- C15. For every text, the score by the formula `round(min(100, x))`, with
`x = (|polarity| + subjectivity) * 100` from the unrounded Numbers, is the `biasScore`
of `analyzeText`, which is `min(100, round(x))`: capping a Number at 100 and rounding
it commute. -/
theorem cap_round_order (text : JSString) :
    capThenRoundScore text = (analyzeText text).biasScore ∧
    (analyzeText text).biasScore = min 100 (Number.round
      (Number.mul (Number.add (polarityValue text).abs (subjectivityValue text))
        (Number.ofInt 100))) ∧
    ∀ v : Number, Number.round (mathMin (Number.ofInt 100) v) = min 100 (Number.round v) := by
  refine ⟨?_, rfl, round_mathMin_hundred⟩
  unfold capThenRoundScore
  rw [round_mathMin_hundred]
  rfl

/-- C16, counterexample. The empty text has one word, the empty string, not none. -/
theorem empty_text_has_one_word : words [] = [[]] ∧ (words []).length ≠ 0 := by
  decide

/-- C16, amended. For the empty text the tokenization yields exactly one word, the
empty string, and `total` is 1 because the word count is 1; the fallback of
`words.length || 1` never applies, as no text has zero words. -/
theorem empty_input_tokenization :
    words [] = [[]] ∧ (words []).length = 1 ∧ total [] = 1 ∧
    ∀ text, (words text).length ≠ 0 ∧ total text = (words text).length := by
  refine ⟨by decide, by decide, by decide, ?_⟩
  intro text
  refine ⟨?_, total_eq_length text⟩
  intro h
  exact words_ne_nil text (List.length_eq_zero.mp h)

/-- C17. On the narrative `Summary: <b>bold</b>` the narrative section has `&lt;` for
each `<`, but the AI details put into the report are `<b>bold</b>` as extracted: the
details are inserted without the replacement. -/
theorem ai_details_not_escaped :
    (renderReport (utf16 ("good")) (analyzeText (utf16 ("good")))
        (some ⟨some (utf16 ("Summary: <b>bold</b>")), none⟩)).narrativeSection
      = some (utf16 ("Summary: &lt;b>bold&lt;/b>")) ∧
    (renderReport (utf16 ("good")) (analyzeText (utf16 ("good")))
        (some ⟨some (utf16 ("Summary: <b>bold</b>")), none⟩)).aiDetails
      = some (utf16 ("<b>bold</b>")) ∧
    (renderReport (utf16 ("good")) (analyzeText (utf16 ("good")))
        (some ⟨some (utf16 ("Summary: <b>bold</b>")), none⟩)).detailLines.head?
      = some (utf16 ("<div class=\"mb-2\"><strong>AI Details:</strong> <b>bold</b></div>")) := by
  decide!

/-- C18, counterexample. In `polarity, polarity` followed by ten blanks and `-0.35`
twenty non-digits stand between the first `polarity` and the minus sign, and the
extracted polarity is `-0.35`: the pattern matches at the second `polarity`. -/
theorem sign_kept_after_twenty_non_digits :
    (∀ c ∈ utf16 (", polarity          "), isNonDigit c = true) ∧
    (utf16 (", polarity          ")).length = 20 ∧
    (extractGeminiAnalysis (([] : JSString) ++ utf16 ("polarity")
        ++ utf16 (", polarity          ") ++ utf16 ("-") ++ utf16 ("0.35"))).polarity
      = some (utf16 ("-0.35")) := by
  decide!

/-- C18, amended. Let the narrative be `pre`, the word `polarity` in any mix of cases,
a string `sep` of `k` non-digits, a minus sign and a decimal `d` (digits, a point,
digits), where `polarity` does not occur in `pre`. For `k ≤ 9` the extracted polarity is
`d` without the sign, for `k = 10` it is `-d`, and for `k ≥ 11` with no `polarity` in
`sep` it is unset. -/
theorem polarity_sign (pre kw sep d1 d2 : JSString)
    (hpre : ¬ OccursCI polarityWord pre)
    (hkw : kw.map canonicalize = polarityWord.map canonicalize)
    (hsep : ∀ c ∈ sep, isNonDigit c = true)
    (hd1 : d1 ≠ []) (hd1d : ∀ x ∈ d1, isDigit x = true)
    (hd2 : d2 ≠ []) (hd2d : ∀ x ∈ d2, isDigit x = true) :
    (sep.length ≤ 9 →
      (extractGeminiAnalysis (pre ++ kw ++ sep ++ [45] ++ (d1 ++ [46] ++ d2))).polarity
        = some (toFixed2 (parseFloat (d1 ++ [46] ++ d2)))) ∧
    (sep.length = 10 →
      (extractGeminiAnalysis (pre ++ kw ++ sep ++ [45] ++ (d1 ++ [46] ++ d2))).polarity
        = some (toFixed2 (parseFloat (45 :: (d1 ++ [46] ++ d2))))) ∧
    (11 ≤ sep.length → ¬ OccursCI polarityWord sep →
      (extractGeminiAnalysis (pre ++ kw ++ sep ++ [45] ++ (d1 ++ [46] ++ d2))).polarity
        = none) ∧
    (parseFloat (d1 ++ [46] ++ d2)).neg = false ∧
    parseFloat (45 :: (d1 ++ [46] ++ d2)) = { parseFloat (d1 ++ [46] ++ d2) with neg := true } := by
  obtain ⟨c1, t1, rfl⟩ : ∃ c1 t1, d1 = c1 :: t1 := by
    cases d1 with
    | nil => exact absurd rfl hd1
    | cons c1 t1 => exact ⟨c1, t1, rfl⟩
  obtain ⟨c2, t2, rfl⟩ : ∃ c2 t2, d2 = c2 :: t2 := by
    cases d2 with
    | nil => exact absurd rfl hd2
    | cons c2 t2 => exact ⟨c2, t2, rfl⟩
  have h1 : isDigit c1 = true := hd1d c1 (by simp)
  have ht1 : ∀ x ∈ t1, isDigit x = true := fun x hx => hd1d x (by simp [hx])
  have h2 : isDigit c2 = true := hd2d c2 (by simp)
  have ht2 : ∀ x ∈ t2, isDigit x = true := fun x hx => hd2d x (by simp [hx])
  have hd : c1 :: t1 ++ [46] ++ c2 :: t2 = c1 :: (t1 ++ 46 :: c2 :: t2) := by simp
  have hshape : ∀ x : JSString,
      pre ++ kw ++ sep ++ [45] ++ x = pre ++ (kw ++ (sep ++ 45 :: x)) := by
    intro x; simp
  have hpol : ∀ narrative, (extractGeminiAnalysis narrative).polarity
      = extractedPolarity narrative := fun _ => rfl
  rw [hd, hpol, hshape, extractedPolarity_of_exec,
    exec_append_of_none _ _ _ (matchAt_polarityRegex_before _ hpre hkw)]
  refine ⟨?_, ?_, ?_, (parseFloat_minus c1 _ h1).2, (parseFloat_minus c1 _ h1).1⟩
  · intro hk
    obtain ⟨whole, hm⟩ := matchAt_polarityRegex_short c1 c2 t1 t2 hkw hsep hk h1 ht1 h2 ht2
    have hm2 : matchAt polarityRegex (kw ++ (sep ++ 45 :: c1 :: (t1 ++ 46 :: c2 :: t2)))
        = some ([], [(0, whole), (1, c1 :: (t1 ++ 46 :: c2 :: t2))]) := by
      rw [← hm]; simp
    rw [exec_of_matchAt_some hm2]
    rfl
  · intro hk
    obtain ⟨whole, hm⟩ := matchAt_polarityRegex_ten c1 c2 t1 t2 hkw hsep hk h1 ht1 h2 ht2
    rw [exec_of_matchAt_some hm]
    rfl
  · intro hk hno
    have hnone : exec polarityRegex (kw ++ (sep ++ 45 :: c1 :: (t1 ++ 46 :: c2 :: t2))) = none := by
      rw [exec_none]
      intro a t hat
      by_cases ha : a = []
      · subst ha
        rw [List.nil_append] at hat
        rw [← hat]
        exact matchAt_polarityRegex_long _ hkw hsep hk
      · refine matchAt_polarityRegex_after hkw hno ?_ a t hat ha
        intro c hc
        have hdig : ∀ x, isDigit x = true → x < 65 := by
          intro x hx
          simp only [isDigit, Bool.and_eq_true, decide_eq_true_eq] at hx
          omega
        simp only [List.mem_cons, List.mem_append] at hc
        rcases hc with rfl | hc | rfl | rfl | hc
        · exact hdig _ h1
        · exact hdig _ (ht1 c hc)
        · decide
        · exact hdig _ h2
        · exact hdig _ (ht2 c hc)
    rw [hnone]
    rfl

/-- C18, instances: with 2 non-digits after `Polarity` the sign is lost, with 10 it is
kept, with 12 nothing is extracted. -/
theorem polarity_sign_witness :
    (extractGeminiAnalysis (utf16 ("Its ") ++ utf16 ("Polarity") ++ utf16 (": ") ++ [45]
        ++ (utf16 ("0") ++ [46] ++ utf16 ("35")))).polarity = some (utf16 ("0.35")) ∧
    (extractGeminiAnalysis (utf16 ("Its ") ++ utf16 ("Polarity") ++ utf16 (":         ")
        ++ [45] ++ (utf16 ("0") ++ [46] ++ utf16 ("35")))).polarity = some (utf16 ("-0.35")) ∧
    (extractGeminiAnalysis (utf16 ("Its ") ++ utf16 ("Polarity") ++ utf16 (":           ")
        ++ [45] ++ (utf16 ("0") ++ [46] ++ utf16 ("35")))).polarity = none :=
  ⟨((polarity_sign (utf16 ("Its ")) (utf16 ("Polarity")) (utf16 (": ")) (utf16 ("0"))
      (utf16 ("35")) (not_occursCI_of_no_p _ (by decide))
      (by decide) (by decide) (by decide) (by decide) (by decide) (by decide)).1
        (by decide)).trans (by decide!),
    ((polarity_sign (utf16 ("Its ")) (utf16 ("Polarity")) (utf16 (":         ")) (utf16 ("0"))
      (utf16 ("35")) (not_occursCI_of_no_p _ (by decide))
      (by decide) (by decide) (by decide) (by decide) (by decide) (by decide)).2.1
        (by decide)).trans (by decide!),
    (polarity_sign (utf16 ("Its ")) (utf16 ("Polarity")) (utf16 (":           ")) (utf16 ("0"))
      (utf16 ("35")) (not_occursCI_of_no_p _ (by decide))
      (by decide) (by decide) (by decide) (by decide) (by decide) (by decide)).2.2.1
        (by decide) (not_occursCI_of_no_p _ (by decide))⟩

/-- C19, counterexample. The Kelvin sign U+212A is a non-word character, but after
`good` it takes the hit away and adds no word: `toLowerCase` turns it into `k`. -/
theorem kelvin_sign_joins_the_word :
    (∀ c ∈ [8490], isNonWordChar c = true) ∧
    (analyzeText (utf16 ("good"))).pos = 1 ∧
    (analyzeText (utf16 ("good") ++ [8490])).pos = 0 ∧
    total (utf16 ("good")) = 1 ∧
    total (utf16 ("good") ++ [8490]) = 1 := by
  decide!

/-- C19, amended. Let `t` be a non-empty text that begins and ends with a word character
and `p` a non-empty string of non-word characters other than U+0130 and the Kelvin sign
U+212A. Then `t ++ p` has the words of `t` and one empty word after them, `p ++ t` has
one empty word before them, and in both cases `analyzeText` has the same four counts as
for `t` while `total` is larger by exactly 1. -/
theorem punctuation_changes_divisor (t p : JSString) (ht : t ≠ [])
    (hfirst : ∀ c, t.head? = some c → isWordChar c = true)
    (hlast : ∀ c, t.getLast? = some c → isWordChar c = true) (hp : p ≠ [])
    (hall : ∀ c ∈ p, isNonWordChar c = true ∧ c ≠ 304 ∧ c ≠ 8490) :
    words (t ++ p) = words t ++ [[]] ∧ words (p ++ t) = [] :: words t ∧
    total (t ++ p) = total t + 1 ∧ total (p ++ t) = total t + 1 ∧
    ((analyzeText (t ++ p)).pos = (analyzeText t).pos ∧
      (analyzeText (t ++ p)).neg = (analyzeText t).neg ∧
      (analyzeText (t ++ p)).bias = (analyzeText t).bias ∧
      (analyzeText (t ++ p)).emotional = (analyzeText t).emotional) ∧
    ((analyzeText (p ++ t)).pos = (analyzeText t).pos ∧
      (analyzeText (p ++ t)).neg = (analyzeText t).neg ∧
      (analyzeText (p ++ t)).bias = (analyzeText t).bias ∧
      (analyzeText (p ++ t)).emotional = (analyzeText t).emotional) := by
  have hstable : ∀ c ∈ p, isStableNonWord c = true := by
    intro c hc
    obtain ⟨h1, h2, h3⟩ := hall c hc
    simp [isStableNonWord, h1, h2, h3]
  obtain ⟨z, hz⟩ : ∃ z, t.getLast? = some z := by
    cases h : t.getLast? with
    | none => exact absurd (List.getLast?_eq_none_iff.mp h) ht
    | some z => exact ⟨z, rfl⟩
  have hzw : isNonWordChar z = false := by simp [isNonWordChar, hlast z hz]
  have htl : t = t.dropLast ++ [z] := (List.dropLast_append_getLast? z hz).symm
  obtain ⟨a, t1, hat⟩ : ∃ a t1, t = a :: t1 := by
    cases t with
    | nil => exact absurd rfl ht
    | cons a t1 => exact ⟨a, t1, rfl⟩
  have haw : isNonWordChar a = false := by
    simp [isNonWordChar, hfirst a (by rw [hat]; rfl)]
  have hw1 : words (t ++ p) = words t ++ [[]] := by
    rw [htl]
    exact words_append_run t.dropLast p z hzw hp hstable
  have hw2 : words (p ++ t) = [] :: words t := by
    rw [hat]
    exact words_run_append t1 p a haw hp hstable
  have hc1 : counts (t ++ p) = counts t := by
    unfold counts
    rw [hw1, List.foldl_append, List.foldl_cons, List.foldl_nil, countWord_empty]
  have hc2 : counts (p ++ t) = counts t := by
    unfold counts
    rw [hw2, List.foldl_cons, countWord_empty]
  refine ⟨hw1, hw2, ?_, ?_, ?_, ?_⟩
  · rw [total_eq_length, total_eq_length, hw1]; simp
  · rw [total_eq_length, total_eq_length, hw2]; simp
  · simp only [analyzeText_counts, hc1, and_self]
  · simp only [analyzeText_counts, hc2, and_self]

theorem punctuation_changes_divisor_witness :
    (analyzeText (utf16 ("good"))).biasScore = 100 ∧
    (analyzeText (utf16 ("good") ++ utf16 ("."))).biasScore = 50 ∧
    total (utf16 ("good") ++ utf16 (".")) = total (utf16 ("good")) + 1 ∧
    (analyzeText (utf16 ("good") ++ utf16 ("."))).pos = (analyzeText (utf16 ("good"))).pos :=
  ⟨by decide!, by decide!,
    (punctuation_changes_divisor (utf16 ("good")) (utf16 (".")) (by decide) (by decide)
      (by decide) (by decide) (by decide)).2.2.1,
    (punctuation_changes_divisor (utf16 ("good")) (utf16 (".")) (by decide) (by decide)
      (by decide) (by decide) (by decide)).2.2.2.2.1.1⟩

/-- C20. The four lexicons are pairwise disjoint, and for every text the four counts of
`analyzeText` add up to at most `total`; hence `|polarity| + subjectivity ≤ 1` and
`subjectivity ≤ 1` for the exact quotients, and `subjectivity ≤ 1` as a Number. When the
array `words` has fewer than `2^53` entries (every array has fewer than `2^32`), the
Number `|polarity| + subjectivity` is at most 1 too, and `biasScore` is the rounded
value itself: the cap at 100 does not change it. -/
theorem counts_bounded_by_total (text : JSString) :
    ((∀ w ∈ positiveWords, w ∉ negativeWords ∧ w ∉ biasWords ∧ w ∉ emotionalWords) ∧
      (∀ w ∈ negativeWords, w ∉ biasWords ∧ w ∉ emotionalWords) ∧
      (∀ w ∈ biasWords, w ∉ emotionalWords)) ∧
    (analyzeText text).pos + (analyzeText text).neg + (analyzeText text).bias +
      (analyzeText text).emotional ≤ total text ∧
    |(((analyzeText text).pos : ℚ) - (analyzeText text).neg) / total text| +
      (((analyzeText text).bias : ℚ) + (analyzeText text).emotional) / total text ≤ 1 ∧
    (((analyzeText text).bias : ℚ) + (analyzeText text).emotional) / total text ≤ 1 ∧
    (subjectivityValue text).toRat ≤ 1 ∧
    ((words text).length < 2 ^ 53 →
      (Number.add (polarityValue text).abs (subjectivityValue text)).toRat ≤ 1 ∧
      (analyzeText text).biasScore = Number.round
        (Number.mul (Number.add (polarityValue text).abs (subjectivityValue text))
          (Number.ofInt 100))) := by
  obtain ⟨-, -, -, e4, e5⟩ := exact_ratios (counts text).pos (counts text).neg
    (counts text).bias (counts text).emotional (total text) (total_pos text) (counts_sum_le text)
  refine ⟨lexicons_disjoint, counts_sum_le text, e5, e4, ?_, ?_⟩
  · exact le_trans (Number.toRat_le_abs _) (subjectivityValue_abs_le_one text)
  · intro h
    refine ⟨(abs_polarity_add_subjectivity_le text h).2, ?_⟩
    have hx := scaled_score_le text h
    have hr : Number.round (Number.mul (Number.add (polarityValue text).abs
        (subjectivityValue text)) (Number.ofInt 100)) ≤ 100 := by
      rw [Number.round_eq_floor]
      have : ⌊(Number.mul (Number.add (polarityValue text).abs (subjectivityValue text))
          (Number.ofInt 100)).toRat + 1 / 2⌋ ≤ ⌊((100 : ℚ) + 1 / 2)⌋ :=
        Int.floor_mono (by linarith)
      refine le_trans this (le_of_eq ?_)
      rw [Int.floor_eq_iff]
      norm_num
    show localBiasScore text = _
    unfold localBiasScore
    exact min_eq_right hr

/-- C20, an instance: in `good always` each of the two words is a hit, the sum
`|polarity| + subjectivity` is 1 and the score is 100 before the cap. -/
theorem counts_bounded_by_total_witness :
    (words (utf16 ("good always"))).length < 2 ^ 53 ∧
    (Number.add (polarityValue (utf16 ("good always"))).abs
      (subjectivityValue (utf16 ("good always")))).toRat ≤ 1 ∧
    (analyzeText (utf16 ("good always"))).biasScore = Number.round
      (Number.mul (Number.add (polarityValue (utf16 ("good always"))).abs
        (subjectivityValue (utf16 ("good always")))) (Number.ofInt 100)) :=
  ⟨by decide!, (counts_bounded_by_total (utf16 ("good always"))).2.2.2.2.2 (by decide!)⟩

end AIBias
